import Mathlib

/-!
# SSON parser: a shallow embedding of `SSONParser.h` / `SSONParser.cpp`

The byte buffer `const char* ssonContent` is a `List Byte`; `ssonContent[i]` is
`buf[i]?`, and `&ssonContent[p]` is `buf.drop p`.  A read at an offset where the
buffer holds no byte is undefined behaviour in the source; the embedding makes
it the explicit outcome `Outcome.outOfBounds`.

`size_t` values are natural numbers.  The places where the source relies on
unsigned wrap-around are modelled with an explicit wrap: `ssonLength - 1`
(`predSize`), the conversion of an `int32_t` to `size_t` (`toSize`), the sum
`position + strSize` tested by `readString`, and its loop bound
`static_cast<size_t>(strSize) - 1`.  Plain increments of the cursor are not
wrapped: on every path that goes on, the cursor is at most the length of the
buffer, which is below `2^64`.  The difference `docSize - 4` is the
mathematical one (its overflow for `docSize < -2^31 + 4` is undefined in the
source).
-/

namespace SSON

/-- One byte of the buffer (`char` seen as `unsigned char`). -/
abbrev Byte := Fin 256

/-- Result of running a piece of the parser.  `value` is a returned value
(`std::optional` holding a value, or `true` together with the updated
arguments), `nullopt` is `std::nullopt` / `false`, `outOfBounds` is a read
outside the buffer, `thrown` is an exception leaving the function
(`std::stoi`, `new[]`), `outOfFuel` is the exhaustion of the recursion budget of
the embedding. -/
inductive Outcome (α : Type) where
  | value (a : α)
  | nullopt
  | outOfBounds
  | thrown
  | outOfFuel
  deriving DecidableEq, Repr

/-- Sequencing: a failure of the first computation is the failure of the whole. -/
def Outcome.bind {α β : Type} : Outcome α → (α → Outcome β) → Outcome β
  | .value a, f => f a
  | .nullopt, _ => .nullopt
  | .outOfBounds, _ => .outOfBounds
  | .thrown, _ => .thrown
  | .outOfFuel, _ => .outOfFuel

/-- The outcome holds a value. -/
def Outcome.isValue {α : Type} : Outcome α → Bool
  | .value _ => true
  | _ => false

/-- The four variants of `SSONContent` (`m_type` selects the payload). -/
inductive SSONContent where
  | int (i : Int)
  | string (s : List Byte)
  | document (d : List (List Byte × SSONContent))
  | array (a : List (Int × SSONContent))

/-- `std::unordered_map<std::string, SSONContent>`: entries with pairwise
distinct keys, kept here in insertion order. -/
abbrev SSONDocument := List (List Byte × SSONContent)

/-- `std::map<int32_t, SSONContent>`: entries in strictly ascending key order. -/
abbrev SSONArray := List (Int × SSONContent)

/-- `unordered_map::insert`: nothing happens when the key is already present. -/
def insertDocument (d : SSONDocument) (k : List Byte) (v : SSONContent) : SSONDocument :=
  if d.any (fun e => decide (e.1 = k)) then d else d ++ [(k, v)]

/-- `map::insert`: ordered insertion, nothing happens when the key is already
present. -/
def insertArray : SSONArray → Int → SSONContent → SSONArray
  | [], k, v => [(k, v)]
  | (k', v') :: rest, k, v =>
    if k < k' then (k, v) :: (k', v') :: rest
    else if k = k' then (k', v') :: rest
    else (k', v') :: insertArray rest k v

/-- Key lookup in a document (`find` / `at`). -/
def lookupDocument (d : SSONDocument) (k : List Byte) : Option SSONContent :=
  (d.find? (fun e => decide (e.1 = k))).map Prod.snd

/-- Key lookup in an array. -/
def lookupArray (a : SSONArray) (k : Int) : Option SSONContent :=
  (a.find? (fun e => decide (e.1 = k))).map Prod.snd

/-- The template argument `T` of `extractSSONMap`. -/
inductive Kind where
  | document
  | array
  deriving DecidableEq, Repr

/-- The container type selected by the template argument. -/
abbrev Container : Kind → Type
  | .document => SSONDocument
  | .array => SSONArray

/-- `T result{}`. -/
def Container.empty : (kind : Kind) → Container kind
  | .document => ([] : SSONDocument)
  | .array => ([] : SSONArray)

/-- The `SSONContent` built from a decoded container. -/
def Container.toContent : (kind : Kind) → Container kind → SSONContent
  | .document, d => .document d
  | .array, a => .array a

/-- `SIZE_MAX` for a 64-bit `size_t`. -/
def SIZE_MAX : Nat := 2 ^ 64 - 1

/-- `n - 1` on `size_t`: wraps to `SIZE_MAX` at `0`. -/
def predSize (n : Nat) : Nat := if n = 0 then SIZE_MAX else n - 1

/-- Conversion of a signed integer to `size_t`. -/
def toSize (i : Int) : Nat := (i % 2 ^ 64).toNat

/-- The `int32_t` whose two's-complement bit pattern is `u` (mod `2^32`). -/
def toInt32 (u : Nat) : Int :=
  if u % 2 ^ 32 < 2 ^ 31 then ((u % 2 ^ 32 : Nat) : Int) else ((u % 2 ^ 32 : Nat) : Int) - 2 ^ 32

/-- The four tags and the terminator (`enum SSONTypes`). -/
def ENDCHAR : Byte := 0
/-- Tag of a text element. -/
def STRING : Byte := 2
/-- Tag of an embedded document. -/
def EMBEDDED : Byte := 3
/-- Tag of an embedded array. -/
def ARRAY : Byte := 4
/-- Tag of an integer element. -/
def INTEGER : Byte := 16

/-- `SSONParser::readInt32`.  The second component is `position` after the call. -/
def readInt32 (ssonContent : List Byte) (ssonLength position : Nat) : Outcome Int × Nat :=
  if ssonLength < position + 4 then (.nullopt, position)
  else
    match ssonContent[position]?, ssonContent[position + 1]?, ssonContent[position + 2]?,
        ssonContent[position + 3]? with
    | some b0, some b1, some b2, some b3 =>
      (.value (toInt32 (b0.val ||| (b1.val <<< 8) ||| (b2.val <<< 16) ||| (b3.val <<< 24))),
        position + 4)
    | none, _, _, _ => (.outOfBounds, position)
    | some _, none, _, _ => (.outOfBounds, position + 1)
    | some _, some _, none, _ => (.outOfBounds, position + 2)
    | some _, some _, some _, none => (.outOfBounds, position + 3)

/-- The `while` loop of `readCString`; the list is `ssonContent` from `position` on. -/
def readCStringLoop (ssonLength : Nat) : List Byte → Nat → List Byte → Outcome (List Byte) × Nat
  | [], position, _ => (.outOfBounds, position)
  | b :: rest, position, result =>
    if b ≠ ENDCHAR then
      if position ≥ ssonLength then (.nullopt, position)
      else readCStringLoop ssonLength rest (position + 1) (result ++ [b])
    else (.value result, position + 1)

/-- `SSONParser::readCString`. -/
def readCString (ssonContent : List Byte) (ssonLength position : Nat) :
    Outcome (List Byte) × Nat :=
  readCStringLoop ssonLength (ssonContent.drop position) position []

/-- `SSONParser::readString`. -/
def readString (ssonContent : List Byte) (ssonLength position : Nat) :
    Outcome (List Byte) × Nat :=
  match readInt32 ssonContent ssonLength position with
  | (.value strSize, position) =>
    if (position + toSize strSize) % 2 ^ 64 > ssonLength then (.nullopt, position)
    else
      let count := predSize (toSize strSize)
      let result := (ssonContent.drop position).take count
      if result.length < count then (.outOfBounds, position + result.length)
      else
        match ssonContent[position + count]? with
        | none => (.outOfBounds, position + count)
        | some b =>
          if b ≠ ENDCHAR then (.nullopt, position + count)
          else (.value result, position + count + 1)
  | (.nullopt, position) => (.nullopt, position)
  | (.outOfBounds, position) => (.outOfBounds, position)
  | (.thrown, position) => (.thrown, position)
  | (.outOfFuel, position) => (.outOfFuel, position)

/-- Use of a primitive followed by `if (!x.has_value()) return false;`: the
continuation receives the value and the updated `position`. -/
def andThen {α β : Type} (r : Outcome α × Nat) (f : α → Nat → Outcome β) : Outcome β :=
  r.1.bind (fun a => f a r.2)

/-- `std::isdigit` on the characters `'0'..'9'`. -/
def isDigit (c : Byte) : Bool := decide (48 ≤ c.val) && decide (c.val ≤ 57)

/-- Value of a string of decimal digits. -/
def decimalValue (s : List Byte) : Nat :=
  s.foldl (fun acc c => 10 * acc + (c.val - 48)) 0

/-- `std::stoi` applied to a string made of decimal digits only (the only use
the parser makes of it): `std::invalid_argument` on the empty string and
`std::out_of_range` above `INT_MAX` are the outcome `thrown`. -/
def stoi (s : List Byte) : Outcome Int :=
  if s = [] then .thrown
  else if decimalValue s > 2147483647 then .thrown
  else .value (decimalValue s : Nat)

/-- The test made on the key before the payload is read: none in the
`SSONDocument` overloads; in the `SSONArray` overloads the `std::find_if`
looking for a character that is not a digit. -/
def keyAccepted : Kind → List Byte → Bool
  | .document, _ => true
  | .array, idStr => idStr.all isDigit

/-- `outputDocument.insert({ key, content })`: the key is the name itself for a
document and `std::stoi(idStr)` for an array. -/
def insertElement : (kind : Kind) → Container kind → List Byte → SSONContent →
    Outcome (Container kind)
  | .document, d, name, v => .value (insertDocument d name v)
  | .array, a, idStr, v => (stoi idStr).bind (fun id => .value (insertArray a id v))

/-- `SSONParser::extractSSONString` (both overloads). -/
def extractSSONString (kind : Kind) (ssonContent : List Byte) (ssonLength position : Nat)
    (outputDocument : Container kind) : Outcome (Container kind × Nat) :=
  andThen (readCString ssonContent ssonLength position) fun name position =>
    if keyAccepted kind name then
      andThen (readString ssonContent ssonLength position) fun str position =>
        (insertElement kind outputDocument name (.string str)).bind fun out =>
          .value (out, position)
    else .nullopt

/-- `SSONParser::extractSSONInteger` (both overloads). -/
def extractSSONInteger (kind : Kind) (ssonContent : List Byte) (ssonLength position : Nat)
    (outputDocument : Container kind) : Outcome (Container kind × Nat) :=
  andThen (readCString ssonContent ssonLength position) fun name position =>
    if keyAccepted kind name then
      andThen (readInt32 ssonContent ssonLength position) fun i position =>
        (insertElement kind outputDocument name (.int i)).bind fun out =>
          .value (out, position)
    else .nullopt

/-- `SSONParser::extractSSONEmbbed` (both overloads); `extract` is the recursive
call `extractSSONMap<SSONDocument>`. -/
def extractSSONEmbbed (extract : (k : Kind) → List Byte → Nat → Outcome (Container k))
    (kind : Kind) (ssonContent : List Byte) (ssonLength position : Nat)
    (outputDocument : Container kind) : Outcome (Container kind × Nat) :=
  andThen (readCString ssonContent ssonLength position) fun name position =>
    if keyAccepted kind name then
      andThen (readInt32 ssonContent ssonLength position) fun docSize position =>
        (extract .document (ssonContent.drop position) (toSize (docSize - 4))).bind fun doc =>
          (insertElement kind outputDocument name (.document doc)).bind fun out =>
            .value (out, position + toSize (docSize - 4))
    else .nullopt

/-- `SSONParser::extractSSONArray` (both overloads); `extract` is the recursive
call `extractSSONMap<SSONArray>`. -/
def extractSSONArray (extract : (k : Kind) → List Byte → Nat → Outcome (Container k))
    (kind : Kind) (ssonContent : List Byte) (ssonLength position : Nat)
    (outputDocument : Container kind) : Outcome (Container kind × Nat) :=
  andThen (readCString ssonContent ssonLength position) fun name position =>
    if keyAccepted kind name then
      andThen (readInt32 ssonContent ssonLength position) fun docSize position =>
        (extract .array (ssonContent.drop position) (toSize (docSize - 4))).bind fun doc =>
          (insertElement kind outputDocument name (.array doc)).bind fun out =>
            .value (out, position + toSize (docSize - 4))
    else .nullopt

/-- The `switch (elementType)` of `extractSSONMap`; `position` is already past
the tag. -/
def extractElement (extract : (k : Kind) → List Byte → Nat → Outcome (Container k))
    (kind : Kind) (ssonContent : List Byte) (ssonLength : Nat) (elementType : Byte)
    (position : Nat) (result : Container kind) : Outcome (Container kind × Nat) :=
  if elementType = STRING then
    extractSSONString kind ssonContent ssonLength position result
  else if elementType = EMBEDDED then
    extractSSONEmbbed extract kind ssonContent ssonLength position result
  else if elementType = ARRAY then
    extractSSONArray extract kind ssonContent ssonLength position result
  else if elementType = INTEGER then
    extractSSONInteger kind ssonContent ssonLength position result
  else .nullopt

/-- The `while (position < ssonLength - 1)` loop of `extractSSONMap`, from the
state `(position, result)`; the value is the state at the exit of the loop.  The
first argument bounds the number of iterations. -/
def mapLoop (extract : (k : Kind) → List Byte → Nat → Outcome (Container k))
    (kind : Kind) (ssonContent : List Byte) (ssonLength : Nat) :
    Nat → Nat → Container kind → Outcome (Container kind × Nat)
  | 0, _, _ => .outOfFuel
  | fuel + 1, position, result =>
    if position < predSize ssonLength then
      match ssonContent[position]? with
      | none => .outOfBounds
      | some elementType =>
        (extractElement extract kind ssonContent ssonLength elementType (position + 1)
          result).bind fun st => mapLoop extract kind ssonContent ssonLength fuel st.2 st.1
    else .value (result, position)

/-- The test `ssonContent[position] != ENDCHAR` that follows the loop. -/
def checkTerminator {α : Type} (ssonContent : List Byte) (st : α × Nat) : Outcome α :=
  match ssonContent[st.2]? with
  | none => .outOfBounds
  | some b => if b ≠ ENDCHAR then .nullopt else .value st.1

/-- `SSONParser::extractSSONMap<T>` with a bound on the nesting depth. -/
def extractSSONMapFuel : Nat → (kind : Kind) → List Byte → Nat → Outcome (Container kind)
  | 0, _, _, _ => .outOfFuel
  | depth + 1, kind, ssonContent, ssonLength =>
    (mapLoop (extractSSONMapFuel depth) kind ssonContent ssonLength (ssonContent.length + 1) 0
      (Container.empty kind)).bind (checkTerminator ssonContent)

/-- `SSONParser::extractSSONMap<T>`.  Every iteration consumes at least one byte
and every recursive call receives a shorter buffer, so the two bounds are never
reached (`extractSSONMap_ne_outOfFuel`). -/
def extractSSONMap (kind : Kind) (ssonContent : List Byte) (ssonLength : Nat) :
    Outcome (Container kind) :=
  extractSSONMapFuel (ssonContent.length + 1) kind ssonContent ssonLength

/-- `SSONParser::importSSON` once the file is read: `file` is `none` when the
file cannot be opened, else its content.  `lenChars` is `file.take 4`; a
negative `ssonLength` makes `new char[ssonLength]` throw; `reader.read` fills
the buffer with the next `ssonLength` bytes of the file (fewer when the file is
shorter). -/
def importSSON (file : Option (List Byte)) : Outcome SSONDocument :=
  match file with
  | none => .nullopt
  | some content =>
    andThen (readInt32 (content.take 4) 4 0) fun total _ =>
      let ssonLength : Int := total - 4
      if ssonLength < 0 then .thrown
      else
        extractSSONMap .document ((content.drop 4).take ssonLength.toNat) (toSize ssonLength)


/-- The loop of `extractSSONMap`, from the state `(position, result)`. -/
def extractLoop (kind : Kind) (ssonContent : List Byte) (ssonLength position : Nat)
    (result : Container kind) : Outcome (Container kind × Nat) :=
  mapLoop extractSSONMap kind ssonContent ssonLength (ssonContent.length + 1) position result

/-- Agreement of two decoders on every proper suffix of `buf`. -/
def AgreeOnSuffixes (buf : List Byte)
    (e1 e2 : (k : Kind) → List Byte → Nat → Outcome (Container k)) : Prop :=
  ∀ (k : Kind) (p l : Nat), 0 < p → p ≤ buf.length → e1 k (buf.drop p) l = e2 k (buf.drop p) l

/-- The states `(position, result)` at which the loop of
`extractSSONMap<kind>(ssonContent, ssonLength)` tests its condition: the initial
state, and the state left by every element that was extracted. -/
inductive Reaches (kind : Kind) (ssonContent : List Byte) (ssonLength : Nat) :
    Nat → Container kind → Prop where
  | start : Reaches kind ssonContent ssonLength 0 (Container.empty kind)
  | step {position : Nat} {result : Container kind} {elementType : Byte}
      {st : Container kind × Nat} :
      Reaches kind ssonContent ssonLength position result →
      position < predSize ssonLength →
      ssonContent[position]? = some elementType →
      extractElement extractSSONMap kind ssonContent ssonLength elementType (position + 1)
        result = .value st →
      Reaches kind ssonContent ssonLength st.2 st.1

/-- The element at a reached state of `extractSSONMap<kind>(buf, L)` is an
embedded container whose key and size are read, and `(kind', buf', L')` are the
arguments of the recursive call it makes. -/
def SubCall (a b : Kind × List Byte × Nat) : Prop :=
  ∃ (pos : Nat) (acc : Container a.1) (tag : Byte) (key : List Byte) (p1 p2 : Nat) (D : Int),
    Reaches a.1 a.2.1 a.2.2 pos acc ∧ pos < predSize a.2.2 ∧ a.2.1[pos]? = some tag ∧
    ((tag = EMBEDDED ∧ b.1 = .document) ∨ (tag = ARRAY ∧ b.1 = .array)) ∧
    readCString a.2.1 a.2.2 (pos + 1) = (.value key, p1) ∧ keyAccepted a.1 key = true ∧
    readInt32 a.2.1 a.2.2 p1 = (.value D, p2) ∧
    b.2.1 = a.2.1.drop p2 ∧ b.2.2 = toSize (D - 4)

/-- The ways the extraction of an element with one of the four tags fails, with
`position` past the tag: the key is unreadable; the key is read and refused
(an array key with a character that is not a digit); the key is accepted and
the payload (the text, the integer, the size of the embedded region) is
unreadable; the size is read and the recursive decode of the embedded region
returns no value. -/
def ElementFailure (kind : Kind) (buf : List Byte) (L : Nat) (tag : Byte) (pos : Nat) : Prop :=
  (tag = STRING ∨ tag = EMBEDDED ∨ tag = ARRAY ∨ tag = INTEGER) ∧
  ((readCString buf L pos).1 = .nullopt ∨
    ∃ key p1, readCString buf L pos = (.value key, p1) ∧
      (keyAccepted kind key = false ∨
        (keyAccepted kind key = true ∧
          ((tag = STRING ∧ (readString buf L p1).1 = .nullopt) ∨
            (tag ≠ STRING ∧ (readInt32 buf L p1).1 = .nullopt) ∨
            ∃ D p2, readInt32 buf L p1 = (.value D, p2) ∧
              ((tag = EMBEDDED ∧
                  extractSSONMap .document (buf.drop p2) (toSize (D - 4)) = .nullopt) ∨
                (tag = ARRAY ∧
                  extractSSONMap .array (buf.drop p2) (toSize (D - 4)) = .nullopt))))))

/-- Two decoders, one run on the suffixes of `P` and one on the suffixes of `V`,
give the same outcome unless the first reads outside its buffer. -/
def PrefixAgree (P V : List Byte)
    (eP eV : (k : Kind) → List Byte → Nat → Outcome (Container k)) : Prop :=
  ∀ (k : Kind) (p l : Nat),
    eP k (P.drop p) l = eV k (V.drop p) l ∨ eP k (P.drop p) l = .outOfBounds

/-! ## Encodings named by the specification -/

/-- The byte `n mod 256`. -/
def byteOf (n : Nat) : Byte := ⟨n % 256, Nat.mod_lt n (by decide)⟩

/-- The four bytes, least significant first, of the two's-complement pattern of `v`. -/
def int32LE (v : Int) : List Byte :=
  let u := (v % 2 ^ 32).toNat
  [byteOf u, byteOf (u / 2 ^ 8), byteOf (u / 2 ^ 16), byteOf (u / 2 ^ 24)]

/-- A leaf of a flat document. -/
inductive Leaf where
  | integer (v : Int)
  | text (s : List Byte)

/-- The value a leaf stands for. -/
def Leaf.toContent : Leaf → SSONContent
  | .integer v => .int v
  | .text s => .string s

/-- The leaf can be written: a signed 32-bit integer, or a text whose count
`|s| + 1` is a positive signed 32-bit integer. -/
def Leaf.Representable : Leaf → Prop
  | .integer v => -2 ^ 31 ≤ v ∧ v < 2 ^ 31
  | .text s => s.length + 1 < 2 ^ 31

/-- `[tag 16][key][0][v]` or `[tag 2][key][0][|s|+1][s][0]`. -/
def encodeLeaf (key : List Byte) : Leaf → List Byte
  | .integer v => INTEGER :: (key ++ ENDCHAR :: int32LE v)
  | .text s => STRING :: (key ++ ENDCHAR :: (int32LE (s.length + 1 : Nat) ++ (s ++ [ENDCHAR])))

/-- The elements of a flat document, in list order. -/
def flatElements (pairs : List (List Byte × Leaf)) : List Byte :=
  pairs.flatMap fun e => encodeLeaf e.1 e.2

/-- The region of a flat document: its elements, then the terminator. -/
def flatRegion (pairs : List (List Byte × Leaf)) : List Byte :=
  flatElements pairs ++ [ENDCHAR]

/-- The document a list of (key, leaf) pairs stands for. -/
def flatDocument (pairs : List (List Byte × Leaf)) : SSONDocument :=
  pairs.map fun e => (e.1, e.2.toContent)

/-- The insertions made by the loop on a flat document. -/
def insertAll (acc : SSONDocument) (pairs : List (List Byte × Leaf)) : SSONDocument :=
  pairs.foldl (fun d e => insertDocument d e.1 e.2.toContent) acc

/-- A text of `2^31 - 1` bytes `'A'`: its count `|s| + 1` is `2^31`. -/
def longText : List Byte := List.replicate 2147483647 65

/-- The region of a document whose only element, under the key `k1`, is an
embedded document (tag 3) whose only element, under the key `k2`, is the text
`s`; the sub-length counts its own four bytes. -/
def nestedRegion (k1 k2 s : List Byte) : List Byte :=
  EMBEDDED :: (k1 ++ ENDCHAR ::
    (int32LE ((flatRegion [(k2, .text s)]).length + 4 : Nat)
      ++ (flatRegion [(k2, .text s)] ++ [ENDCHAR])))

/-! ## Diagnostic rendering -/

/-- The bytes of a string literal. -/
def bytesOf (s : String) : List Byte := s.data.map fun c => byteOf c.toNat

/-- The decimal digits of `n`, most significant first, put in front of `acc`;
the first argument bounds the number of digits. -/
def decimalDigits : Nat → Nat → List Byte → List Byte
  | 0, _, acc => acc
  | fuel + 1, n, acc =>
    if n < 10 then byteOf (48 + n) :: acc
    else decimalDigits fuel (n / 10) (byteOf (48 + n % 10) :: acc)

/-- `std::to_string` on an `int`: a minus sign (45) for a negative value, then
the decimal digits of the absolute value. -/
def to_string (v : Int) : List Byte :=
  if v < 0 then 45 :: decimalDigits (v.natAbs + 1) v.natAbs []
  else decimalDigits (v.natAbs + 1) v.natAbs []

/-- The two characters that open the fragment of an array entry: brace, quote. -/
def fragmentOpen : List Byte := [123, 39]
/-- The four characters between the key and the value: quote, colon, blank, quote. -/
def fragmentMiddle : List Byte := [39, 58, 32, 39]
/-- The two characters that close the fragment: quote, brace. -/
def fragmentClose : List Byte := [39, 125]

mutual
/-- `SSONContent::toString`. -/
def SSONContent.toString : SSONContent → List Byte
  | .int i => bytesOf "[int] " ++ to_string i
  | .string s => bytesOf "[string] " ++ s
  | .document d => toStringDocument d
  | .array a => toStringArray a
/-- The loop of the `document_t` case, over the entries in iteration order. -/
def toStringDocument : List (List Byte × SSONContent) → List Byte
  | [] => []
  | (name, v) :: rest =>
    (bytesOf "[document] name: " ++ name ++ bytesOf " value:\n" ++ v.toString)
      ++ toStringDocument rest
/-- The loop of the `array_t` case, over the entries in iteration order. -/
def toStringArray : List (Int × SSONContent) → List Byte
  | [] => []
  | (id, v) :: rest =>
    (fragmentOpen ++ to_string id ++ fragmentMiddle ++ v.toString ++ fragmentClose)
      ++ toStringArray rest
end

/-- The array obtained by inserting the entries `es`, in list order, into `acc`. -/
def insertAllArray (acc : SSONArray) (es : List (Int × SSONContent)) : SSONArray :=
  es.foldl (fun a e => insertArray a e.1 e.2) acc

/-- The fragment rendered for one entry of an array. -/
def arrayFragment (e : Int × SSONContent) : List Byte :=
  fragmentOpen ++ to_string e.1 ++ fragmentMiddle ++ e.2.toString ++ fragmentClose

/-- The keys of a container are unique: pairwise distinct names for a
document, strictly ascending ids for an array. -/
def Container.UniqueKeys : (kind : Kind) → Container kind → Prop
  | .document, d => (d.map Prod.fst).Nodup
  | .array, a => a.Pairwise (fun x y => x.1 < y.1)

/-- Every key of `c` is a key of `c'` with the same value. -/
def Container.KeepsEntries : (kind : Kind) → Container kind → Container kind → Prop
  | .document, c, c' => ∀ k w, lookupDocument c k = some w → lookupDocument c' k = some w
  | .array, c, c' => ∀ k w, lookupArray c k = some w → lookupArray c' k = some w

/-- Agreement of two decoders on the suffixes of `buf` that start at an
offset of at least 6. -/
def AgreeFromSix (buf : List Byte)
    (e1 e2 : (k : Kind) → List Byte → Nat → Outcome (Container k)) : Prop :=
  ∀ (k : Kind) (p l : Nat), 6 ≤ p → p ≤ buf.length → e1 k (buf.drop p) l = e2 k (buf.drop p) l

/-- A chain of `n` nested recursive calls, from the arguments `a` to the
arguments `b`. -/
inductive SubCallChain : Nat → Kind × List Byte × Nat → Kind × List Byte × Nat → Prop where
  | refl (a : Kind × List Byte × Nat) : SubCallChain 0 a a
  | step {n : Nat} {a b c : Kind × List Byte × Nat} :
      SubCall a b → SubCallChain n b c → SubCallChain (n + 1) a c

/-! ## The bytes covered by the elements -/

/-- The bytes of `buf` at the offsets `r.1`, ..., `r.2 - 1`. -/
def slice (buf : List Byte) (r : Nat × Nat) : List Byte :=
  (buf.drop r.1).take (r.2 - r.1)

/-- The bytes that the extraction of one element goes over: the tag, the key
read by `readCString` with its terminator, and the payload.  The payload starts
with the four bytes that `readInt32` reads as `n`; it is these four bytes for an
integer; for a text they are followed by the `predSize (toSize n)` bytes that
`readString` copies and by the terminator it tests; for an embedded container
they are followed by the `toSize (n - 4)` bytes given to the recursive call. -/
def IsElementEncoding (seg : List Byte) : Prop :=
  ∃ (tag : Byte) (key payload : List Byte) (n : Int),
    seg = tag :: (key ++ ENDCHAR :: payload) ∧ ENDCHAR ∉ key ∧
    readInt32 payload 4 0 = (.value n, 4) ∧
    ((tag = INTEGER ∧ payload.length = 4) ∨
      (tag = STRING ∧ payload.length = 4 + predSize (toSize n) + 1 ∧
        payload[4 + predSize (toSize n)]? = some ENDCHAR) ∨
      ((tag = EMBEDDED ∨ tag = ARRAY) ∧ payload.length = 4 + toSize (n - 4)))

/-- The states of `Reaches` with the ranges of cursor positions
`(position before the tag, position after the element)` of the elements
extracted so far, in the order of extraction. -/
inductive ReachesOver (kind : Kind) (ssonContent : List Byte) (ssonLength : Nat) :
    Nat → Container kind → List (Nat × Nat) → Prop where
  | start : ReachesOver kind ssonContent ssonLength 0 (Container.empty kind) []
  | step {position : Nat} {result : Container kind} {ranges : List (Nat × Nat)}
      {elementType : Byte} {st : Container kind × Nat} :
      ReachesOver kind ssonContent ssonLength position result ranges →
      position < predSize ssonLength →
      ssonContent[position]? = some elementType →
      extractElement extractSSONMap kind ssonContent ssonLength elementType (position + 1)
        result = .value st →
      ReachesOver kind ssonContent ssonLength st.2 st.1 (ranges ++ [(position, st.2)])

/-! ## Sequencing lemmas -/

@[simp] theorem Outcome.bind_value {α β : Type} (a : α) (f : α → Outcome β) :
    (Outcome.value a).bind f = f a := rfl
@[simp] theorem Outcome.bind_nullopt {α β : Type} (f : α → Outcome β) :
    (Outcome.nullopt : Outcome α).bind f = .nullopt := rfl
@[simp] theorem Outcome.bind_outOfBounds {α β : Type} (f : α → Outcome β) :
    (Outcome.outOfBounds : Outcome α).bind f = .outOfBounds := rfl
@[simp] theorem Outcome.bind_thrown {α β : Type} (f : α → Outcome β) :
    (Outcome.thrown : Outcome α).bind f = .thrown := rfl
@[simp] theorem Outcome.bind_outOfFuel {α β : Type} (f : α → Outcome β) :
    (Outcome.outOfFuel : Outcome α).bind f = .outOfFuel := rfl

theorem Outcome.bind_eq_value {α β : Type} {o : Outcome α} {f : α → Outcome β} {b : β}
    (h : o.bind f = .value b) : ∃ a, o = .value a ∧ f a = .value b := by
  cases o <;> simp_all

theorem andThen_eq_value {α β : Type} {r : Outcome α × Nat} {f : α → Nat → Outcome β} {b : β}
    (h : andThen r f = .value b) : ∃ a p, r = (.value a, p) ∧ f a p = .value b := by
  obtain ⟨o, p⟩ := r
  obtain ⟨a, ha, hb⟩ := Outcome.bind_eq_value (o := o) h
  exact ⟨a, p, by simp_all, hb⟩

@[simp] theorem andThen_value {α β : Type} (a : α) (p : Nat) (f : α → Nat → Outcome β) :
    andThen (Outcome.value a, p) f = f a p := rfl

/-! ## Where the primitives leave the cursor -/

theorem readInt32_value {buf : List Byte} {L pos : Nat} {v : Int} {p : Nat}
    (h : readInt32 buf L pos = (.value v, p)) :
    p = pos + 4 ∧ pos + 4 ≤ L ∧ pos + 4 ≤ buf.length := by
  unfold readInt32 at h
  split at h
  · simp at h
  · split at h <;> simp at h
    rename_i b0 b1 b2 b3 e0 e1 e2 e3
    have := (List.getElem?_eq_some_iff.mp e3).1
    omega

theorem readCStringLoop_value (L : Nat) :
    ∀ (l : List Byte) (pos : Nat) (acc r : List Byte) (p : Nat),
      readCStringLoop L l pos acc = (.value r, p) → pos < p ∧ p ≤ pos + l.length := by
  intro l
  induction l with
  | nil => intro pos acc r p h; simp [readCStringLoop] at h
  | cons b rest ih =>
    intro pos acc r p h
    unfold readCStringLoop at h
    split at h
    · split at h
      · simp at h
      · have := ih _ _ _ _ h
        simp only [List.length_cons]; omega
    · simp at h
      simp only [List.length_cons]; omega

theorem readCString_value {buf : List Byte} {L pos : Nat} {r : List Byte} {p : Nat}
    (h : readCString buf L pos = (.value r, p)) : pos < p ∧ p ≤ buf.length := by
  have := readCStringLoop_value L _ _ _ _ _ h
  simp only [List.length_drop] at this
  omega

theorem readString_value {buf : List Byte} {L pos : Nat} {r : List Byte} {p : Nat}
    (h : readString buf L pos = (.value r, p)) : pos + 4 ≤ p ∧ p ≤ buf.length := by
  unfold readString at h
  split at h
  · rename_i n p1 e
    have h1 := readInt32_value e
    split at h
    · simp at h
    · simp only at h
      split at h
      · simp at h
      · split at h
        · simp at h
        · rename_i b eb
          have := (List.getElem?_eq_some_iff.mp eb).1
          split at h <;> simp at h
          omega
  all_goals simp at h

theorem extractElement_value {extract : (k : Kind) → List Byte → Nat → Outcome (Container k)}
    {kind : Kind} {buf : List Byte} {L : Nat} {tag : Byte} {pos : Nat} {acc : Container kind}
    {st : Container kind × Nat}
    (h : extractElement extract kind buf L tag pos acc = .value st) : pos < st.2 := by
  unfold extractElement at h
  split at h
  · unfold extractSSONString at h
    obtain ⟨name, p1, e1, h⟩ := andThen_eq_value h
    split at h
    · obtain ⟨str, p2, e2, h⟩ := andThen_eq_value h
      obtain ⟨out, _, h⟩ := Outcome.bind_eq_value h
      have := readCString_value e1
      have := readString_value e2
      cases h; simp only; omega
    · simp at h
  · split at h
    · unfold extractSSONEmbbed at h
      obtain ⟨name, p1, e1, h⟩ := andThen_eq_value h
      split at h
      · obtain ⟨d, p2, e2, h⟩ := andThen_eq_value h
        obtain ⟨doc, _, h⟩ := Outcome.bind_eq_value h
        obtain ⟨out, _, h⟩ := Outcome.bind_eq_value h
        have := readCString_value e1
        have := readInt32_value e2
        cases h; simp only; omega
      · simp at h
    · split at h
      · unfold extractSSONArray at h
        obtain ⟨name, p1, e1, h⟩ := andThen_eq_value h
        split at h
        · obtain ⟨d, p2, e2, h⟩ := andThen_eq_value h
          obtain ⟨doc, _, h⟩ := Outcome.bind_eq_value h
          obtain ⟨out, _, h⟩ := Outcome.bind_eq_value h
          have := readCString_value e1
          have := readInt32_value e2
          cases h; simp only; omega
        · simp at h
      · split at h
        · unfold extractSSONInteger at h
          obtain ⟨name, p1, e1, h⟩ := andThen_eq_value h
          split at h
          · obtain ⟨d, p2, e2, h⟩ := andThen_eq_value h
            obtain ⟨out, _, h⟩ := Outcome.bind_eq_value h
            have := readCString_value e1
            have := readInt32_value e2
            cases h; simp only; omega
          · simp at h
        · simp at h

/-! ## The two bounds of the embedding are never reached -/

theorem andThen_congr {α β : Type} {r : Outcome α × Nat} {f g : α → Nat → Outcome β}
    (h : ∀ a p, r = (.value a, p) → f a p = g a p) : andThen r f = andThen r g := by
  obtain ⟨o, p⟩ := r
  cases o <;> simp_all [andThen]

theorem extractSSONEmbbed_congr {e1 e2 : (k : Kind) → List Byte → Nat → Outcome (Container k)}
    {buf : List Byte} (hag : AgreeOnSuffixes buf e1 e2) (kind : Kind) (L pos : Nat)
    (acc : Container kind) :
    extractSSONEmbbed e1 kind buf L pos acc = extractSSONEmbbed e2 kind buf L pos acc := by
  unfold extractSSONEmbbed
  apply andThen_congr
  intro name p1 _
  split
  · apply andThen_congr
    intro d p2 e2'
    have := readInt32_value e2'
    rw [hag .document p2 _ (by omega) (by omega)]
  · rfl

theorem extractSSONArray_congr {e1 e2 : (k : Kind) → List Byte → Nat → Outcome (Container k)}
    {buf : List Byte} (hag : AgreeOnSuffixes buf e1 e2) (kind : Kind) (L pos : Nat)
    (acc : Container kind) :
    extractSSONArray e1 kind buf L pos acc = extractSSONArray e2 kind buf L pos acc := by
  unfold extractSSONArray
  apply andThen_congr
  intro name p1 _
  split
  · apply andThen_congr
    intro d p2 e2'
    have := readInt32_value e2'
    rw [hag .array p2 _ (by omega) (by omega)]
  · rfl

theorem extractElement_congr {e1 e2 : (k : Kind) → List Byte → Nat → Outcome (Container k)}
    {buf : List Byte} (hag : AgreeOnSuffixes buf e1 e2) (kind : Kind) (L : Nat) (tag : Byte)
    (pos : Nat) (acc : Container kind) :
    extractElement e1 kind buf L tag pos acc = extractElement e2 kind buf L tag pos acc := by
  unfold extractElement
  rw [extractSSONEmbbed_congr hag, extractSSONArray_congr hag]

theorem mapLoop_congr {e1 e2 : (k : Kind) → List Byte → Nat → Outcome (Container k)}
    {buf : List Byte} (hag : AgreeOnSuffixes buf e1 e2) (kind : Kind) (L : Nat) :
    ∀ (fuel pos : Nat) (acc : Container kind),
      mapLoop e1 kind buf L fuel pos acc = mapLoop e2 kind buf L fuel pos acc := by
  intro fuel
  induction fuel with
  | zero => intro pos acc; rfl
  | succ n ih =>
    intro pos acc
    unfold mapLoop
    split
    · split
      · rfl
      · rw [extractElement_congr hag]
        congr 1
        funext st
        exact ih _ _
    · rfl

theorem mapLoop_fuel (extract : (k : Kind) → List Byte → Nat → Outcome (Container k))
    (kind : Kind) (buf : List Byte) (L : Nat) :
    ∀ (f1 f2 pos : Nat) (acc : Container kind),
      buf.length - pos < f1 → buf.length - pos < f2 →
      mapLoop extract kind buf L f1 pos acc = mapLoop extract kind buf L f2 pos acc := by
  intro f1
  induction f1 with
  | zero => intro f2 pos acc h; omega
  | succ n ih =>
    intro f2 pos acc h1 h2
    cases f2 with
    | zero => omega
    | succ m =>
      unfold mapLoop
      split
      · split
        · rfl
        · rename_i tag etag
          have hlt := (List.getElem?_eq_some_iff.mp etag).1
          cases hel : extractElement extract kind buf L tag (pos + 1) acc with
          | value st =>
            have := extractElement_value hel
            simp only [Outcome.bind_value]
            exact ih _ _ _ (by omega) (by omega)
          | _ => rfl
      · rfl

theorem extractSSONMapFuel_depth :
    ∀ (d1 d2 : Nat) (kind : Kind) (buf : List Byte) (L : Nat),
      buf.length < d1 → buf.length < d2 →
      extractSSONMapFuel d1 kind buf L = extractSSONMapFuel d2 kind buf L := by
  intro d1
  induction d1 with
  | zero => intro d2 kind buf L h; omega
  | succ n ih =>
    intro d2 kind buf L h1 h2
    cases d2 with
    | zero => omega
    | succ m =>
      unfold extractSSONMapFuel
      have hag : AgreeOnSuffixes buf (extractSSONMapFuel n) (extractSSONMapFuel m) := by
        intro k p l hp hle
        apply ih
        · simp only [List.length_drop]; omega
        · simp only [List.length_drop]; omega
      rw [mapLoop_congr hag]

theorem extractSSONMap_eq (kind : Kind) (buf : List Byte) (L : Nat) :
    extractSSONMap kind buf L =
      (extractLoop kind buf L 0 (Container.empty kind)).bind (checkTerminator buf) := by
  unfold extractSSONMap extractLoop
  rw [extractSSONMapFuel]
  have hag : AgreeOnSuffixes buf (extractSSONMapFuel buf.length) extractSSONMap := by
    intro k p l hp hle
    unfold extractSSONMap
    apply extractSSONMapFuel_depth
    · simp only [List.length_drop]; omega
    · simp only [List.length_drop]; omega
  rw [mapLoop_congr hag]

theorem extractLoop_eq (kind : Kind) (buf : List Byte) (L pos : Nat) (acc : Container kind) :
    extractLoop kind buf L pos acc =
      if pos < predSize L then
        match buf[pos]? with
        | none => .outOfBounds
        | some tag =>
          (extractElement extractSSONMap kind buf L tag (pos + 1) acc).bind
            fun st => extractLoop kind buf L st.2 st.1
      else .value (acc, pos) := by
  unfold extractLoop
  rw [mapLoop]
  split
  · split
    · rfl
    · rename_i tag etag
      have hlt := (List.getElem?_eq_some_iff.mp etag).1
      cases hel : extractElement extractSSONMap kind buf L tag (pos + 1) acc with
      | value st =>
        have := extractElement_value hel
        simp only [Outcome.bind_value]
        exact mapLoop_fuel _ _ _ _ _ _ _ _ (by omega) (by omega)
      | _ => rfl
  · rfl

/-! ## The primitives on encoded fields -/

theorem or_shift_eq_sum (b0 b1 b2 b3 : Nat) (h0 : b0 < 256) (h1 : b1 < 256) (h2 : b2 < 256) :
    b0 ||| (b1 <<< 8) ||| (b2 <<< 16) ||| (b3 <<< 24)
      = b0 + 2 ^ 8 * b1 + 2 ^ 16 * b2 + 2 ^ 24 * b3 := by
  have e1 : b0 ||| (b1 <<< 8) = 2 ^ 8 * b1 + b0 := by
    rw [Nat.shiftLeft_eq, Nat.or_comm, Nat.mul_comm, Nat.mul_add_lt_is_or (by omega)]
  have e2 : (2 ^ 8 * b1 + b0) ||| (b2 <<< 16) = 2 ^ 16 * b2 + (2 ^ 8 * b1 + b0) := by
    rw [Nat.shiftLeft_eq, Nat.or_comm, Nat.mul_comm]
    exact (Nat.mul_add_lt_is_or (by omega) b2).symm
  have e3 : (2 ^ 16 * b2 + (2 ^ 8 * b1 + b0)) ||| (b3 <<< 24)
      = 2 ^ 24 * b3 + (2 ^ 16 * b2 + (2 ^ 8 * b1 + b0)) := by
    rw [Nat.shiftLeft_eq, Nat.or_comm, Nat.mul_comm]
    exact (Nat.mul_add_lt_is_or (by omega) b3).symm
  rw [e1, e2, e3]; omega

theorem toInt32_int32LE (v : Int) (hlo : -2 ^ 31 ≤ v) (hhi : v < 2 ^ 31) :
    toInt32 ((byteOf (v % 2 ^ 32).toNat).val ||| ((byteOf ((v % 2 ^ 32).toNat / 2 ^ 8)).val <<< 8)
      ||| ((byteOf ((v % 2 ^ 32).toNat / 2 ^ 16)).val <<< 16)
      ||| ((byteOf ((v % 2 ^ 32).toNat / 2 ^ 24)).val <<< 24)) = v := by
  rw [or_shift_eq_sum _ _ _ _ (Fin.isLt _) (Fin.isLt _) (Fin.isLt _)]
  simp only [byteOf]
  unfold toInt32
  norm_num
  split <;> omega

theorem getElem?_of_drop {buf : List Byte} {pos : Nat} {rest : List Byte}
    (hd : buf.drop pos = rest) (i : Nat) : buf[pos + i]? = rest[i]? := by
  rw [← hd, List.getElem?_drop]

theorem drop_add_of_drop {buf : List Byte} {pos : Nat} {a b : List Byte}
    (hd : buf.drop pos = a ++ b) : buf.drop (pos + a.length) = b := by
  have : buf.drop (pos + a.length) = (buf.drop pos).drop a.length := by
    rw [List.drop_drop, Nat.add_comm]
  rw [this, hd, List.drop_left]

theorem readCStringLoop_key (L : Nat) (post : List Byte) :
    ∀ (key : List Byte) (pos : Nat) (acc : List Byte), ENDCHAR ∉ key → pos + key.length ≤ L →
      readCStringLoop L (key ++ ENDCHAR :: post) pos acc
        = (.value (acc ++ key), pos + key.length + 1) := by
  intro key
  induction key with
  | nil => intro pos acc _ _; simp [readCStringLoop]
  | cons b rest ih =>
    intro pos acc hz hL
    have hb : b ≠ ENDCHAR := by
      intro h; apply hz; simp [h]
    have hrest : ENDCHAR ∉ rest := by
      intro h; apply hz; simp [h]
    simp only [List.length_cons] at hL
    have hlt : ¬ pos ≥ L := by omega
    rw [List.cons_append, readCStringLoop, if_pos hb, if_neg hlt,
      ih (pos + 1) (acc ++ [b]) hrest (by omega)]
    simp only [List.append_assoc, List.singleton_append, List.length_cons]
    congr 1
    omega

theorem readCString_key {buf : List Byte} {L pos : Nat} {key post : List Byte}
    (hd : buf.drop pos = key ++ ENDCHAR :: post) (hz : ENDCHAR ∉ key)
    (hL : pos + key.length ≤ L) :
    readCString buf L pos = (.value key, pos + key.length + 1) := by
  unfold readCString
  rw [hd, readCStringLoop_key L post key pos [] hz hL]
  simp

theorem readInt32_int32LE {buf : List Byte} {L pos : Nat} {v : Int} {post : List Byte}
    (hd : buf.drop pos = int32LE v ++ post) (hL : pos + 4 ≤ L)
    (hlo : -2 ^ 31 ≤ v) (hhi : v < 2 ^ 31) :
    readInt32 buf L pos = (.value v, pos + 4) := by
  have h0 := getElem?_of_drop hd 0
  have h1 := getElem?_of_drop hd 1
  have h2 := getElem?_of_drop hd 2
  have h3 := getElem?_of_drop hd 3
  simp only [int32LE, List.cons_append, List.getElem?_cons_zero, List.getElem?_cons_succ,
    Nat.add_zero] at h0 h1 h2 h3
  unfold readInt32
  rw [if_neg (by omega), h0, h1, h2, h3]
  simp only
  rw [toInt32_int32LE v hlo hhi]

theorem readString_text {buf : List Byte} {L pos : Nat} {s post : List Byte}
    (hd : buf.drop pos = int32LE (s.length + 1 : Nat) ++ (s ++ ENDCHAR :: post))
    (hL : pos + 4 + s.length + 1 ≤ L) (hs : s.length + 1 < 2 ^ 31) :
    readString buf L pos = (.value s, pos + 4 + s.length + 1) := by
  have hi : readInt32 buf L pos = (.value ((s.length + 1 : Nat) : Int), pos + 4) :=
    readInt32_int32LE hd (by omega) (by omega) (by omega)
  have hd4 : buf.drop (pos + 4) = s ++ ENDCHAR :: post := by
    have := drop_add_of_drop hd
    simpa [int32LE] using this
  have hsize : toSize ((s.length + 1 : Nat) : Int) = s.length + 1 := by
    unfold toSize
    omega
  have hterm : buf[pos + 4 + s.length]? = some ENDCHAR := by
    rw [getElem?_of_drop hd4, List.getElem?_append_right (Nat.le_refl _)]
    simp
  unfold readString
  rw [hi]
  simp only [hsize]
  have hmod : (pos + 4 + (s.length + 1)) % 2 ^ 64 ≤ L :=
    Nat.le_trans (Nat.mod_le _ _) (by omega)
  rw [if_neg (by omega)]
  have hpred : predSize (s.length + 1) = s.length := by simp [predSize]
  simp only [hpred, hd4, List.take_left, Nat.lt_irrefl, if_false, hterm, ne_eq,
    not_true_eq_false]

/-! ## Flat documents -/

theorem drop_succ_of_drop {buf : List Byte} {pos : Nat} {b : Byte} {rest : List Byte}
    (hd : buf.drop pos = b :: rest) : buf[pos]? = some b ∧ buf.drop (pos + 1) = rest := by
  constructor
  · have := getElem?_of_drop hd 0
    simpa using this
  · have := drop_add_of_drop (a := [b]) (b := rest) (by simpa using hd)
    simpa using this

theorem encodeLeaf_length (key : List Byte) (leaf : Leaf) :
    (encodeLeaf key leaf).length =
      match leaf with
      | .integer _ => key.length + 6
      | .text s => key.length + s.length + 7 := by
  cases leaf
  · simp [encodeLeaf, int32LE]
  · simp [encodeLeaf, int32LE]; omega

theorem extractSSONInteger_leaf {buf : List Byte} {L pos : Nat} {key post : List Byte} {v : Int}
    (hd : buf.drop pos = key ++ ENDCHAR :: (int32LE v ++ post)) (hz : ENDCHAR ∉ key)
    (hlo : -2 ^ 31 ≤ v) (hhi : v < 2 ^ 31) (hL : pos + key.length + 5 ≤ L)
    (acc : SSONDocument) :
    extractSSONInteger .document buf L pos acc
      = .value (insertDocument acc key (.int v), pos + key.length + 5) := by
  have hk := readCString_key (L := L) hd hz (by omega)
  have hd2 : buf.drop (pos + key.length + 1) = int32LE v ++ post := by
    have := drop_add_of_drop (a := key ++ [ENDCHAR]) (b := int32LE v ++ post) (by simpa using hd)
    simpa [Nat.add_assoc] using this
  have hi := readInt32_int32LE (L := L) hd2 (by omega) hlo hhi
  unfold extractSSONInteger
  rw [hk]
  simp only [andThen_value, keyAccepted, if_true, hi, insertElement, Outcome.bind_value]

theorem extractSSONString_leaf {buf : List Byte} {L pos : Nat} {key post s : List Byte}
    (hd : buf.drop pos
      = key ++ ENDCHAR :: (int32LE (s.length + 1 : Nat) ++ (s ++ ENDCHAR :: post)))
    (hz : ENDCHAR ∉ key) (hs : s.length + 1 < 2 ^ 31)
    (hL : pos + key.length + s.length + 6 ≤ L) (acc : SSONDocument) :
    extractSSONString .document buf L pos acc
      = .value (insertDocument acc key (.string s), pos + key.length + s.length + 6) := by
  have hk := readCString_key (L := L) hd hz (by omega)
  have hd2 : buf.drop (pos + key.length + 1)
      = int32LE (s.length + 1 : Nat) ++ (s ++ ENDCHAR :: post) := by
    have := drop_add_of_drop (a := key ++ [ENDCHAR])
      (b := int32LE (s.length + 1 : Nat) ++ (s ++ ENDCHAR :: post)) (by simpa using hd)
    simpa [Nat.add_assoc] using this
  have hi := readString_text (L := L) hd2 (by omega) hs
  unfold extractSSONString
  rw [hk]
  simp only [andThen_value, keyAccepted, if_true, hi, insertElement, Outcome.bind_value]
  congr 2
  omega

theorem extractElement_leaf (extract : (k : Kind) → List Byte → Nat → Outcome (Container k))
    {buf : List Byte} {L pos : Nat} {key post : List Byte} {leaf : Leaf}
    (hd : buf.drop pos = encodeLeaf key leaf ++ post) (hz : ENDCHAR ∉ key)
    (hrep : leaf.Representable) (hL : pos + (encodeLeaf key leaf).length ≤ L)
    (acc : SSONDocument) :
    ∃ tag, buf[pos]? = some tag ∧
      extractElement extract .document buf L tag (pos + 1) acc
        = .value (insertDocument acc key leaf.toContent, pos + (encodeLeaf key leaf).length) := by
  rw [encodeLeaf_length] at hL ⊢
  cases leaf with
  | integer v =>
    obtain ⟨hlo, hhi⟩ := hrep
    simp only [encodeLeaf, List.cons_append, List.append_assoc] at hd
    obtain ⟨htag, hd1⟩ := drop_succ_of_drop hd
    refine ⟨INTEGER, htag, ?_⟩
    simp only at hL
    have := extractSSONInteger_leaf (L := L) hd1 hz hlo hhi (by omega) acc
    unfold extractElement
    rw [if_neg (by decide), if_neg (by decide), if_neg (by decide), if_pos rfl, this]
    simp only [Leaf.toContent]
    congr 2
    omega
  | text s =>
    simp only [encodeLeaf, List.cons_append, List.append_assoc] at hd
    obtain ⟨htag, hd1⟩ := drop_succ_of_drop hd
    refine ⟨STRING, htag, ?_⟩
    simp only at hL
    have := extractSSONString_leaf (L := L) hd1 hz hrep (by omega) acc
    unfold extractElement
    rw [if_pos rfl, this]
    simp only [Leaf.toContent]
    congr 2
    omega

theorem extractLoop_flat (post : List Byte) :
    ∀ (pairs : List (List Byte × Leaf)) (buf : List Byte) (pos : Nat) (acc : SSONDocument),
      buf.drop pos = flatElements pairs ++ ENDCHAR :: post →
      (∀ e ∈ pairs, ENDCHAR ∉ e.1) → (∀ e ∈ pairs, e.2.Representable) →
      extractLoop .document buf (pos + (flatElements pairs).length + 1) pos acc
        = .value (insertAll acc pairs, pos + (flatElements pairs).length) := by
  intro pairs
  induction pairs with
  | nil =>
    intro buf pos acc _ _ _
    rw [extractLoop_eq]
    simp [flatElements, predSize, insertAll]
  | cons e rest ih =>
    intro buf pos acc hd hz hrep
    have hlen : (flatElements (e :: rest)).length
        = (encodeLeaf e.1 e.2).length + (flatElements rest).length := by
      simp [flatElements]
    have hd' : buf.drop pos
        = encodeLeaf e.1 e.2 ++ (flatElements rest ++ ENDCHAR :: post) := by
      rw [hd]; simp [flatElements]
    obtain ⟨tag, htag, hel⟩ := extractElement_leaf extractSSONMap
      (L := pos + (flatElements (e :: rest)).length + 1) hd'
      (hz e (List.mem_cons_self _ _)) (hrep e (List.mem_cons_self _ _)) (by omega) acc
    have hpos : 0 < (encodeLeaf e.1 e.2).length := by
      rw [encodeLeaf_length]; cases e.2 <;> simp
    rw [extractLoop_eq, if_pos (by simp only [predSize]; rw [if_neg (by omega)]; omega), htag]
    simp only [hel, Outcome.bind_value]
    have hd2 := drop_add_of_drop hd'
    have := ih buf (pos + (encodeLeaf e.1 e.2).length) (insertDocument acc e.1 e.2.toContent)
      hd2 (fun x hx => hz x (List.mem_cons_of_mem _ hx))
      (fun x hx => hrep x (List.mem_cons_of_mem _ hx))
    rw [hlen]
    simp only [Nat.add_assoc] at this ⊢
    rw [this]
    simp [insertAll]

theorem insertDocument_fresh (d : SSONDocument) (k : List Byte) (v : SSONContent)
    (h : ∀ a ∈ d, a.1 ≠ k) : insertDocument d k v = d ++ [(k, v)] := by
  unfold insertDocument
  rw [if_neg]
  simp only [List.any_eq_true, decide_eq_true_eq, not_exists, not_and]
  exact fun a ha => h a ha

theorem insertAll_fresh :
    ∀ (pairs : List (List Byte × Leaf)) (acc : SSONDocument),
      (pairs.map Prod.fst).Nodup → (∀ e ∈ pairs, ∀ a ∈ acc, a.1 ≠ e.1) →
      insertAll acc pairs = acc ++ flatDocument pairs := by
  intro pairs
  induction pairs with
  | nil => intro acc _ _; simp [insertAll, flatDocument]
  | cons e rest ih =>
    intro acc hnd hfresh
    simp only [List.map_cons, List.nodup_cons] at hnd
    have h1 := insertDocument_fresh acc e.1 e.2.toContent
      (fun a ha => hfresh e (List.mem_cons_self _ _) a ha)
    have h2 := ih (acc ++ [(e.1, e.2.toContent)]) hnd.2 (by
      intro x hx a ha
      rcases List.mem_append.mp ha with ha | ha
      · exact hfresh x (List.mem_cons_of_mem _ hx) a ha
      · simp only [List.mem_singleton] at ha
        subst ha
        intro heq
        apply hnd.1
        simp only at heq
        rw [heq]
        exact List.mem_map_of_mem _ hx)
    show insertAll (insertDocument acc e.1 e.2.toContent) rest = _
    rw [h1, h2]
    simp [flatDocument]

theorem lookupDocument_flat_mem :
    ∀ (pairs : List (List Byte × Leaf)), (pairs.map Prod.fst).Nodup →
      ∀ e ∈ pairs, lookupDocument (flatDocument pairs) e.1 = some e.2.toContent := by
  intro pairs
  induction pairs with
  | nil => intro _ e he; simp at he
  | cons x rest ih =>
    intro hnd e he
    simp only [List.map_cons, List.nodup_cons] at hnd
    rcases List.mem_cons.mp he with rfl | he
    · simp [lookupDocument, flatDocument]
    · have hne : x.1 ≠ e.1 := by
        intro heq
        apply hnd.1
        rw [heq]
        exact List.mem_map_of_mem _ he
      have := ih hnd.2 e he
      simp only [lookupDocument, flatDocument, List.map_cons] at this ⊢
      rw [List.find?_cons_of_neg _ (by simpa using hne)]
      exact this

theorem lookupDocument_flat_not_mem :
    ∀ (pairs : List (List Byte × Leaf)) (k : List Byte), k ∉ pairs.map Prod.fst →
      lookupDocument (flatDocument pairs) k = none := by
  intro pairs k hk
  simp only [lookupDocument, flatDocument, Option.map_eq_none', List.find?_eq_none,
    List.mem_map, decide_eq_true_eq, forall_exists_index, and_imp]
  intro a e he hae heq
  apply hk
  subst hae
  simp only at heq
  rw [← heq]
  exact List.mem_map_of_mem _ he

theorem extractSSONMap_flat (pairs : List (List Byte × Leaf))
    (hkeys : (pairs.map Prod.fst).Nodup) (hz : ∀ e ∈ pairs, ENDCHAR ∉ e.1)
    (hrep : ∀ e ∈ pairs, e.2.Representable) :
    extractSSONMap .document (flatRegion pairs) (flatRegion pairs).length
      = .value (flatDocument pairs) := by
  have hd : (flatRegion pairs).drop 0 = flatElements pairs ++ ENDCHAR :: [] := rfl
  have hloop := extractLoop_flat [] pairs (flatRegion pairs) 0 [] hd hz hrep
  have hlen : (flatRegion pairs).length = 0 + (flatElements pairs).length + 1 := by
    simp [flatRegion]
  have hterm : (flatRegion pairs)[0 + (flatElements pairs).length]? = some ENDCHAR := by
    rw [getElem?_of_drop hd, List.getElem?_append_right (Nat.le_refl _)]
    simp
  rw [extractSSONMap_eq, hlen]
  show (extractLoop .document (flatRegion pairs) (0 + (flatElements pairs).length + 1) 0
    ([] : SSONDocument)).bind _ = _
  rw [hloop]
  simp only [Outcome.bind_value, checkTerminator, hterm, ne_eq, not_true_eq_false, if_false]
  rw [insertAll_fresh pairs [] hkeys (by simp)]
  simp

theorem readInt32_pattern {buf : List Byte} {L pos : Nat} {v : Int} {post : List Byte}
    (hd : buf.drop pos = int32LE v ++ post) (hL : pos + 4 ≤ L) :
    readInt32 buf L pos = (.value (toInt32 (v % 2 ^ 32).toNat), pos + 4) := by
  have h0 := getElem?_of_drop hd 0
  have h1 := getElem?_of_drop hd 1
  have h2 := getElem?_of_drop hd 2
  have h3 := getElem?_of_drop hd 3
  simp only [int32LE, List.cons_append, List.getElem?_cons_zero, List.getElem?_cons_succ,
    Nat.add_zero] at h0 h1 h2 h3
  unfold readInt32
  rw [if_neg (by omega), h0, h1, h2, h3]
  simp only
  rw [or_shift_eq_sum _ _ _ _ (Fin.isLt _) (Fin.isLt _) (Fin.isLt _)]
  simp only [byteOf]
  congr 3
  have : (v % 2 ^ 32).toNat < 2 ^ 32 := by omega
  omega

/-- A count `|s| + 1` from `2^31` on is read back as a negative `int32_t`, and
`readString` gives up on the converted sum. -/
theorem readString_negative_count {buf : List Byte} {L pos n : Nat} {post : List Byte}
    (hd : buf.drop pos = int32LE (n : Nat) ++ post) (hL : pos + 4 ≤ L)
    (hn : 2 ^ 31 ≤ n) (hsum : pos + 4 + n < 2 ^ 32) (hbig : L < 2 ^ 64 - 2 ^ 32) :
    readString buf L pos = (.nullopt, pos + 4) := by
  have hi := readInt32_pattern hd hL
  have hval : toInt32 (((n : Nat) : Int) % 2 ^ 32).toNat = (n : Int) - 2 ^ 32 := by
    unfold toInt32
    have : (((n : Nat) : Int) % 2 ^ 32).toNat = n := by omega
    rw [this]
    have h1 : n % 2 ^ 32 = n := Nat.mod_eq_of_lt (by omega)
    rw [h1, if_neg (by omega)]
  have hsize : toSize ((n : Int) - 2 ^ 32) = 2 ^ 64 - 2 ^ 32 + n := by
    unfold toSize
    omega
  unfold readString
  rw [hi, hval]
  simp only [hsize]
  rw [if_pos]
  rw [Nat.mod_eq_of_lt (by omega)]
  omega

theorem extractSSONMap_long_text (key s : List Byte) (hz : ENDCHAR ∉ key)
    (hlen : 2 ^ 31 ≤ s.length + 1) (hsmall : key.length + s.length + 7 < 2 ^ 32) :
    extractSSONMap .document (flatRegion [(key, .text s)]) (flatRegion [(key, .text s)]).length
      = .nullopt := by
  have hbuf : (flatRegion [(key, .text s)]).drop 0
      = STRING :: (key ++ ENDCHAR :: (int32LE (s.length + 1 : Nat) ++ (s ++ [ENDCHAR, ENDCHAR]))) := by
    simp [flatRegion, flatElements, encodeLeaf]
  have hlength : (flatRegion [(key, .text s)]).length = key.length + s.length + 8 := by
    simp [flatRegion, flatElements, encodeLeaf, int32LE]
    omega
  obtain ⟨htag, hd1⟩ := drop_succ_of_drop hbuf
  have hk := readCString_key (L := key.length + s.length + 8) hd1 hz (by omega)
  have hd2 : (flatRegion [(key, .text s)]).drop (0 + 1 + key.length + 1)
      = int32LE (s.length + 1 : Nat) ++ (s ++ [ENDCHAR, ENDCHAR]) := by
    have := drop_add_of_drop (a := key ++ [ENDCHAR])
      (b := int32LE (s.length + 1 : Nat) ++ (s ++ [ENDCHAR, ENDCHAR])) (by rw [hd1]; simp)
    simpa [Nat.add_assoc] using this
  have hs := readString_negative_count (L := key.length + s.length + 8) hd2 (by omega) hlen
    (by omega) (by omega)
  rw [extractSSONMap_eq, hlength, extractLoop_eq,
    if_pos (by simp only [predSize]; rw [if_neg (by omega)]; omega), htag]
  simp only
  unfold extractElement
  rw [if_pos rfl]
  unfold extractSSONString
  rw [hk]
  simp only [andThen_value, keyAccepted, if_true, hs]
  rfl

/-! ## C1: round trip for flat documents -/

/-- C1 (amended): for pairwise distinct keys without zero byte and leaves that
are signed 32-bit integers or texts whose count `|s| + 1` is below `2^31`, the
flat region decodes, with its own length as declared length, to the document
holding exactly the pairs: every key is mapped to its leaf, no other key is
present, every permutation of the list decodes to a document with the same
entries, and the empty list gives the region `[0]` and the empty document. -/
theorem flat_document_round_trip (pairs : List (List Byte × Leaf))
    (hkeys : (pairs.map Prod.fst).Nodup) (hz : ∀ e ∈ pairs, ENDCHAR ∉ e.1)
    (hrep : ∀ e ∈ pairs, e.2.Representable) :
    extractSSONMap .document (flatRegion pairs) (flatRegion pairs).length
        = .value (flatDocument pairs)
      ∧ (∀ e ∈ pairs, lookupDocument (flatDocument pairs) e.1 = some e.2.toContent)
      ∧ (∀ k, k ∉ pairs.map Prod.fst → lookupDocument (flatDocument pairs) k = none)
      ∧ (∀ pairs' : List (List Byte × Leaf), pairs'.Perm pairs →
          ∃ d', extractSSONMap .document (flatRegion pairs') (flatRegion pairs').length
              = .value d'
            ∧ d'.Perm (flatDocument pairs)
            ∧ ∀ k, lookupDocument d' k = lookupDocument (flatDocument pairs) k)
      ∧ flatRegion [] = [ENDCHAR]
      ∧ extractSSONMap .document (flatRegion []) (flatRegion []).length
          = .value ([] : SSONDocument) := by
  refine ⟨extractSSONMap_flat pairs hkeys hz hrep, lookupDocument_flat_mem pairs hkeys,
    lookupDocument_flat_not_mem pairs, ?_, rfl, rfl⟩
  intro pairs' hperm
  have hkeys' : (pairs'.map Prod.fst).Nodup := (hperm.map Prod.fst).nodup_iff.mpr hkeys
  refine ⟨flatDocument pairs', extractSSONMap_flat pairs' hkeys'
    (fun e he => hz e (hperm.mem_iff.mp he)) (fun e he => hrep e (hperm.mem_iff.mp he)),
    hperm.map _, ?_⟩
  intro k
  by_cases hk : k ∈ pairs.map Prod.fst
  · obtain ⟨e, he, rfl⟩ := List.mem_map.mp hk
    rw [lookupDocument_flat_mem pairs hkeys e he,
      lookupDocument_flat_mem pairs' hkeys' e (hperm.mem_iff.mpr he)]
  · rw [lookupDocument_flat_not_mem pairs k hk,
      lookupDocument_flat_not_mem pairs' k (fun h => hk ((hperm.map Prod.fst).mem_iff.mp h))]

/-- C1, witness: the pairs `("x", Integer 7)` and `("y", Text "hi")`. -/
theorem flat_document_round_trip_witness :
    extractSSONMap .document
        [16, 120, 0, 7, 0, 0, 0, 2, 121, 0, 3, 0, 0, 0, 104, 105, 0, 0] 18
      = .value [([120], .int 7), ([121], .string [104, 105])] :=
  (flat_document_round_trip [([120], .integer 7), ([121], .text [104, 105])]
    (by decide) (by decide)
    (by
      intro e he
      simp only [List.mem_cons, List.mem_singleton, List.not_mem_nil, or_false] at he
      rcases he with rfl | rfl
      · exact ⟨by decide, by decide⟩
      · show (2 : Nat) + 1 < 2 ^ 31
        decide)).1


theorem longText_length : longText.length = 2147483647 := List.length_replicate _ _

/-- C1 as stated fails: a text leaf of `2^31 - 1` bytes has the count `2^31`,
which `readInt32` returns as a negative `int32_t`, and the region of the
one-pair list (a key without zero byte, trivially distinct) is rejected. -/
theorem flat_document_long_text_rejected :
    ([(([120] : List Byte), Leaf.text longText)].map Prod.fst).Nodup
      ∧ (∀ e ∈ [(([120] : List Byte), Leaf.text longText)], ENDCHAR ∉ e.1)
      ∧ extractSSONMap .document (flatRegion [([120], Leaf.text longText)])
          (flatRegion [([120], Leaf.text longText)]).length = .nullopt := by
  refine ⟨List.nodup_singleton _, ?_, ?_⟩
  · intro e he
    rw [List.mem_singleton] at he
    rw [he]
    decide
  · apply extractSSONMap_long_text
    · decide
    · rw [longText_length]; decide
    · rw [longText_length]; decide

/-! ## States reached by the loop -/

theorem extractLoop_of_reaches {kind : Kind} {buf : List Byte} {L pos : Nat}
    {acc : Container kind} (h : Reaches kind buf L pos acc) :
    extractLoop kind buf L 0 (Container.empty kind) = extractLoop kind buf L pos acc := by
  induction h with
  | start => rfl
  | step _ hlt htag hel ih =>
    rw [ih, extractLoop_eq, if_pos hlt, htag]
    simp only [hel, Outcome.bind_value]

/-- What `extractSSONMap` returns when the element at a reached state is not
extracted: the failure of the element. -/
theorem extractSSONMap_of_element {kind : Kind} {buf : List Byte} {L pos : Nat}
    {acc : Container kind} {tag : Byte} (h : Reaches kind buf L pos acc)
    (hlt : pos < predSize L) (htag : buf[pos]? = some tag) :
    extractSSONMap kind buf L
      = ((extractElement extractSSONMap kind buf L tag (pos + 1) acc).bind
          fun st => extractLoop kind buf L st.2 st.1).bind (checkTerminator buf) := by
  rw [extractSSONMap_eq, extractLoop_of_reaches h, extractLoop_eq, if_pos hlt, htag]

theorem extractElement_unknown_tag
    (extract : (k : Kind) → List Byte → Nat → Outcome (Container k)) (kind : Kind)
    (buf : List Byte) (L : Nat) (tag : Byte) (pos : Nat) (acc : Container kind)
    (h2 : tag ≠ STRING) (h3 : tag ≠ EMBEDDED) (h4 : tag ≠ ARRAY) (h16 : tag ≠ INTEGER) :
    extractElement extract kind buf L tag pos acc = .nullopt := by
  unfold extractElement
  rw [if_neg h2, if_neg h3, if_neg h4, if_neg h16]

/-! ## C8: unknown and early terminator tags -/

/-- C8: for every buffer, container kind and declared length, if at a state
reached by the loop the loop goes on (`position < ssonLength - 1`) and the tag
byte read there is none of 2, 3, 4, 16 (the terminator 0 included), then
`extractSSONMap` returns `nullopt`. -/
theorem unknown_tag_rejected (kind : Kind) (buf : List Byte) (L pos : Nat)
    (acc : Container kind) (tag : Byte) (hreach : Reaches kind buf L pos acc)
    (hlt : pos < predSize L) (htag : buf[pos]? = some tag)
    (h2 : tag ≠ STRING) (h3 : tag ≠ EMBEDDED) (h4 : tag ≠ ARRAY) (h16 : tag ≠ INTEGER) :
    extractSSONMap kind buf L = .nullopt := by
  rw [extractSSONMap_of_element hreach hlt htag,
    extractElement_unknown_tag _ _ _ _ _ _ _ h2 h3 h4 h16]
  rfl

/-- C8, witness: after the element `16 "x" 7` the terminator 0 is met at offset 7
while the declared length 15 lets the loop go on. -/
theorem unknown_tag_rejected_witness :
    extractSSONMap .document [16, 120, 0, 7, 0, 0, 0, 0, 16, 121, 0, 1, 0, 0, 0] 15
      = .nullopt := by
  have hstep : Reaches .document [16, 120, 0, 7, 0, 0, 0, 0, 16, 121, 0, 1, 0, 0, 0] 15 7
      ([([120], .int 7)] : SSONDocument) :=
    @Reaches.step .document [16, 120, 0, 7, 0, 0, 0, 0, 16, 121, 0, 1, 0, 0, 0] 15 0
      ([] : SSONDocument) 16 (([([120], .int 7)] : SSONDocument), 7) Reaches.start
      (by decide) rfl rfl
  exact unknown_tag_rejected .document [16, 120, 0, 7, 0, 0, 0, 0, 16, 121, 0, 1, 0, 0, 0] 15 7
    [([120], .int 7)] 0 hstep (by decide) rfl (by decide) (by decide) (by decide) (by decide)

/-! ## C9: all-or-nothing propagation -/

theorem andThen_nullopt {α β : Type} {r : Outcome α × Nat} (f : α → Nat → Outcome β)
    (h : r.1 = .nullopt) : andThen r f = .nullopt := by
  unfold andThen
  rw [h]
  rfl

theorem extractElement_of_failure {kind : Kind} {buf : List Byte} {L : Nat} {tag : Byte}
    {pos : Nat} (acc : Container kind) (h : ElementFailure kind buf L tag pos) :
    extractElement extractSSONMap kind buf L tag pos acc = .nullopt := by
  obtain ⟨htags, hcause⟩ := h
  have hne : STRING ≠ EMBEDDED ∧ STRING ≠ ARRAY ∧ STRING ≠ INTEGER ∧ EMBEDDED ≠ ARRAY ∧
      EMBEDDED ≠ INTEGER ∧ ARRAY ≠ INTEGER := by decide
  unfold extractElement extractSSONString extractSSONEmbbed extractSSONArray extractSSONInteger
  rcases hcause with hkey | ⟨key, p1, hkey, hrest⟩
  · simp only [andThen_nullopt _ hkey, ite_self]
  · rw [hkey]
    simp only [andThen_value]
    rcases hrest with hbad | ⟨hok, hpay⟩
    · simp only [hbad, Bool.false_eq_true, if_false, ite_self]
    · simp only [hok, if_true]
      rcases hpay with ⟨ht, hp⟩ | ⟨ht, hp⟩ | ⟨D, p2, hD, hsub⟩
      · rw [if_pos ht, andThen_nullopt _ hp]
      · rw [if_neg ht]
        simp only [andThen_nullopt _ hp, ite_self]
      · rw [hD]
        simp only [andThen_value]
        rcases hsub with ⟨ht, hs⟩ | ⟨ht, hs⟩
        · subst ht
          rw [if_neg hne.1.symm, if_pos rfl, hs]
          rfl
        · subst ht
          rw [if_neg hne.2.1.symm, if_neg hne.2.2.2.1.symm, if_pos rfl, hs]
          rfl

theorem extractSSONMap_of_element_nullopt {kind : Kind} {buf : List Byte} {L pos : Nat}
    {acc : Container kind} {tag : Byte} (h : Reaches kind buf L pos acc)
    (hlt : pos < predSize L) (htag : buf[pos]? = some tag)
    (hel : extractElement extractSSONMap kind buf L tag (pos + 1) acc = .nullopt) :
    extractSSONMap kind buf L = .nullopt := by
  rw [extractSSONMap_of_element h hlt htag, hel]
  rfl

theorem extractSSONMap_of_subCall {a b : Kind × List Byte × Nat} (h : SubCall a b)
    (hb : extractSSONMap b.1 b.2.1 b.2.2 = .nullopt) :
    extractSSONMap a.1 a.2.1 a.2.2 = .nullopt := by
  obtain ⟨kind, buf, L⟩ := a
  obtain ⟨kind', buf', L'⟩ := b
  obtain ⟨pos, acc, tag, key, p1, p2, D, hreach, hlt, htag, hk, hkey, hacc, hD, hbuf, hL⟩ := h
  simp only at hreach hlt htag hk hkey hacc hD hbuf hL hb ⊢
  subst hbuf hL
  apply extractSSONMap_of_element_nullopt hreach hlt htag
  apply extractElement_of_failure
  refine ⟨by rcases hk with ⟨h, _⟩ | ⟨h, _⟩ <;> simp [h], Or.inr ⟨key, p1, hkey, Or.inr ⟨hacc,
    Or.inr (Or.inr ⟨D, p2, hD, ?_⟩)⟩⟩⟩
  rcases hk with ⟨h, hkind⟩ | ⟨h, hkind⟩
  · subst hkind
    exact Or.inl ⟨h, hb⟩
  · subst hkind
    exact Or.inr ⟨h, hb⟩

theorem extractSSONMap_of_chain {a b : Kind × List Byte × Nat}
    (hchain : Relation.ReflTransGen SubCall a b) :
    extractSSONMap b.1 b.2.1 b.2.2 = .nullopt → extractSSONMap a.1 a.2.1 a.2.2 = .nullopt := by
  induction hchain with
  | refl => exact id
  | tail _ hstep ih => exact fun hc => ih (extractSSONMap_of_subCall hstep hc)

/-- C9: if the extraction of an element reached by the loop of a decode fails
(unreadable key, refused array key, unreadable payload, or recursive decode of
its embedded region returning no value), that decode returns `nullopt`; and so
does every decode that reaches it through a chain of recursive calls, at any
depth: no tree is returned. -/
theorem failure_propagates (a b : Kind × List Byte × Nat)
    (hchain : Relation.ReflTransGen SubCall a b) (pos : Nat) (acc : Container b.1) (tag : Byte)
    (hreach : Reaches b.1 b.2.1 b.2.2 pos acc) (hlt : pos < predSize b.2.2)
    (htag : b.2.1[pos]? = some tag)
    (hfail : ElementFailure b.1 b.2.1 b.2.2 tag (pos + 1)) :
    extractSSONMap b.1 b.2.1 b.2.2 = .nullopt ∧ extractSSONMap a.1 a.2.1 a.2.2 = .nullopt := by
  have hb : extractSSONMap b.1 b.2.1 b.2.2 = .nullopt :=
    extractSSONMap_of_element_nullopt hreach hlt htag (extractElement_of_failure acc hfail)
  exact ⟨hb, extractSSONMap_of_chain hchain hb⟩

/-- C9, witness: a document whose element `"a"` is an embedded array holding an
element with the key `"5a"`: the array decode fails on the key and the document
decode returns `nullopt`. -/
theorem failure_propagates_witness :
    extractSSONMap .document [4, 97, 0, 13, 0, 0, 0, 16, 53, 97, 0, 7, 0, 0, 0, 0, 0] 17
      = .nullopt := by
  have hsub : SubCall
      (Kind.document, ([4, 97, 0, 13, 0, 0, 0, 16, 53, 97, 0, 7, 0, 0, 0, 0, 0] : List Byte), 17)
      (Kind.array, ([16, 53, 97, 0, 7, 0, 0, 0, 0, 0] : List Byte), 9) :=
    ⟨0, ([] : SSONDocument), 4, [97], 3, 7, 13, Reaches.start, by decide, rfl,
      Or.inr ⟨rfl, rfl⟩, rfl, rfl, rfl, rfl, rfl⟩
  have hfail : ElementFailure Kind.array ([16, 53, 97, 0, 7, 0, 0, 0, 0, 0] : List Byte) 9 16
      (0 + 1) :=
    ⟨Or.inr (Or.inr (Or.inr rfl)), Or.inr ⟨[53, 97], 4, rfl, Or.inl rfl⟩⟩
  exact (failure_propagates
    (Kind.document, ([4, 97, 0, 13, 0, 0, 0, 16, 53, 97, 0, 7, 0, 0, 0, 0, 0] : List Byte), 17)
    (Kind.array, ([16, 53, 97, 0, 7, 0, 0, 0, 0, 0] : List Byte), 9)
    (Relation.ReflTransGen.single hsub) 0 ([] : SSONArray) 16 Reaches.start (by decide) rfl
    hfail).2

/-! ## C6: array keys with a character that is not a digit -/

/-- C6: in a region decoded as an Array, if an element reached by the loop has
one of the tags 2, 3, 4, 16 and its key string, as read by `readCString`, holds a
byte outside `'0'..'9'`, the decode of the Array returns `nullopt`, whatever
follows the key. -/
theorem non_digit_array_key_rejected (buf : List Byte) (L pos : Nat) (acc : SSONArray)
    (tag : Byte) (key : List Byte) (p1 : Nat)
    (hreach : Reaches .array buf L pos acc) (hlt : pos < predSize L)
    (htag : buf[pos]? = some tag)
    (htags : tag = STRING ∨ tag = EMBEDDED ∨ tag = ARRAY ∨ tag = INTEGER)
    (hkey : readCString buf L (pos + 1) = (.value key, p1))
    (hbad : ∃ c ∈ key, c.val < 48 ∨ 57 < c.val) :
    extractSSONMap .array buf L = .nullopt := by
  apply extractSSONMap_of_element_nullopt hreach hlt htag
  apply extractElement_of_failure
  refine ⟨htags, Or.inr ⟨key, p1, hkey, Or.inl ?_⟩⟩
  obtain ⟨c, hc, hnd⟩ := hbad
  simp only [keyAccepted, List.all_eq_false]
  refine ⟨c, hc, ?_⟩
  simp only [isDigit, Bool.and_eq_true, decide_eq_true_eq, not_and, Nat.not_le]
  omega

/-- C6, witness: the key `"5a"` on an integer element. -/
theorem non_digit_array_key_rejected_witness :
    extractSSONMap .array [16, 53, 97, 0, 7, 0, 0, 0, 0] 9 = .nullopt :=
  non_digit_array_key_rejected [16, 53, 97, 0, 7, 0, 0, 0, 0] 9 0 ([] : SSONArray) 16 [53, 97] 4
    Reaches.start (by decide) rfl (Or.inr (Or.inr (Or.inr rfl))) rfl
    ⟨97, by decide, Or.inr (by decide)⟩

/-! ## C7: array keys made of digits -/

theorem decimalValue_append (key : List Byte) (c : Byte) :
    decimalValue (key ++ [c]) = 10 * decimalValue key + (c.val - 48) := by
  simp [decimalValue, List.foldl_append]

theorem decimalValue_eq_ofDigits (key : List Byte) :
    decimalValue key = Nat.ofDigits 10 ((key.map fun c => c.val - 48).reverse) := by
  induction key using List.reverseRecOn with
  | nil => rfl
  | append_singleton l c ih =>
    rw [decimalValue_append, ih]
    simp [Nat.ofDigits_cons]
    omega

theorem keyAccepted_array_of_digits (key : List Byte)
    (hdig : ∀ c ∈ key, 48 ≤ c.val ∧ c.val ≤ 57) : keyAccepted .array key = true := by
  simp only [keyAccepted, List.all_eq_true, isDigit, Bool.and_eq_true, decide_eq_true_eq]
  exact hdig

theorem insertElement_array_of_digits (key : List Byte) (hne : key ≠ [])
    (hmax : decimalValue key ≤ 2147483647) (acc : SSONArray) (v : SSONContent) :
    insertElement .array acc key v = .value (insertArray acc (decimalValue key : Nat) v) := by
  simp only [insertElement, stoi, hne, if_false]
  rw [if_neg (by omega)]
  rfl

/-- C7 (amended): for every non-empty key string made of ASCII digits whose
decimal value is at most 2147483647, the Array overloads accept the key and
insert the element under that value (`decimalValue`, the number whose digits,
most significant first, are the characters of the key): for the integer and the
text element as soon as the payload is read, and `"5"` gives the key 5. -/
theorem digit_array_key_parsed (key : List Byte) (hne : key ≠ [])
    (hdig : ∀ c ∈ key, 48 ≤ c.val ∧ c.val ≤ 57) (hmax : decimalValue key ≤ 2147483647) :
    keyAccepted .array key = true
      ∧ decimalValue key = Nat.ofDigits 10 ((key.map fun c => c.val - 48).reverse)
      ∧ (∀ (acc : SSONArray) (v : SSONContent),
          insertElement .array acc key v = .value (insertArray acc (decimalValue key : Nat) v))
      ∧ (∀ (buf : List Byte) (L pos p1 p2 : Nat) (acc : SSONArray) (i : Int),
          readCString buf L pos = (.value key, p1) → readInt32 buf L p1 = (.value i, p2) →
          extractSSONInteger .array buf L pos acc
            = .value (insertArray acc (decimalValue key : Nat) (.int i), p2))
      ∧ (∀ (buf : List Byte) (L pos p1 p2 : Nat) (acc : SSONArray) (str : List Byte),
          readCString buf L pos = (.value key, p1) → readString buf L p1 = (.value str, p2) →
          extractSSONString .array buf L pos acc
            = .value (insertArray acc (decimalValue key : Nat) (.string str), p2))
      ∧ decimalValue [53] = 5 := by
  have hacc := keyAccepted_array_of_digits key hdig
  refine ⟨hacc, decimalValue_eq_ofDigits key, insertElement_array_of_digits key hne hmax,
    ?_, ?_, rfl⟩
  · intro buf L pos p1 p2 acc i hk hi
    unfold extractSSONInteger
    rw [hk]
    simp only [andThen_value, hacc, if_true, hi, insertElement_array_of_digits key hne hmax,
      Outcome.bind_value]
  · intro buf L pos p1 p2 acc str hk hs
    unfold extractSSONString
    rw [hk]
    simp only [andThen_value, hacc, if_true, hs, insertElement_array_of_digits key hne hmax,
      Outcome.bind_value]

/-- C7, witness: the key `"5"` of an integer element of an Array. -/
theorem digit_array_key_parsed_witness :
    extractSSONInteger .array [16, 53, 0, 7, 0, 0, 0, 0] 8 1 ([] : SSONArray)
      = .value ([(5, .int 7)], 7) :=
  (digit_array_key_parsed [53] (by decide) (by simp; decide) (by rw [show decimalValue [53] = 5 from rfl]; decide)).2.2.2.1
    [16, 53, 0, 7, 0, 0, 0, 0] 8 1 3 7 [] 7 rfl rfl

/-- C7 as stated fails on the empty key and on a key above `INT_MAX`: both pass
the digit test, and `std::stoi` throws instead of giving a key, so that nothing
is inserted and the decode of the Array does not return. -/
theorem digit_array_key_not_parsed :
    (keyAccepted .array [] = true
        ∧ insertElement .array ([] : SSONArray) [] (.int 7) = .thrown
        ∧ extractSSONMap .array [16, 0, 7, 0, 0, 0, 0] 7 = .thrown)
      ∧ (keyAccepted .array [50, 49, 52, 55, 52, 56, 51, 54, 52, 56] = true
        ∧ decimalValue [50, 49, 52, 55, 52, 56, 51, 54, 52, 56] = 2147483648
        ∧ insertElement .array ([] : SSONArray) [50, 49, 52, 55, 52, 56, 51, 54, 52, 56]
            (.int 7) = .thrown
        ∧ extractSSONMap .array
            [16, 50, 49, 52, 55, 52, 56, 51, 54, 52, 56, 0, 7, 0, 0, 0, 0] 17 = .thrown) :=
  ⟨⟨rfl, rfl, rfl⟩, ⟨rfl, rfl, rfl, rfl⟩⟩

/-! ## C10: file layout -/

/-- C10: for a file of at least four bytes whose first four bytes give, read
little-endian as a signed 32-bit integer, a total length `T` with `4 ≤ T` and
`T ≤ |f|`, `importSSON` returns the result of `extractSSONMap<SSONDocument>` on
the `T - 4` bytes `f[4..T)` with the declared length `T - 4`; the 12 bytes
`[12,0,0,0, 16, 'x',0, 7,0,0,0, 0]` give the document `{"x": Integer(7)}`. -/
theorem importSSON_layout (b0 b1 b2 b3 : Byte) (rest : List Byte) (T : Int)
    (hT : T = toInt32 (b0.val + 2 ^ 8 * b1.val + 2 ^ 16 * b2.val + 2 ^ 24 * b3.val))
    (h4 : 4 ≤ T) (hlen : T ≤ (b0 :: b1 :: b2 :: b3 :: rest).length) :
    importSSON (some (b0 :: b1 :: b2 :: b3 :: rest))
        = extractSSONMap .document
            (((b0 :: b1 :: b2 :: b3 :: rest).drop 4).take (T - 4).toNat) (T - 4).toNat
      ∧ (((b0 :: b1 :: b2 :: b3 :: rest).drop 4).take (T - 4).toNat).length = (T - 4).toNat
      ∧ importSSON (some [12, 0, 0, 0, 16, 120, 0, 7, 0, 0, 0, 0])
          = .value [([120], .int 7)] := by
  have hread : readInt32 ((b0 :: b1 :: b2 :: b3 :: rest).take 4) 4 0 = (.value T, 4) := by
    simp only [readInt32, List.take, Nat.zero_add, Nat.lt_irrefl, if_false,
      List.getElem?_cons_zero, List.getElem?_cons_succ]
    rw [or_shift_eq_sum _ _ _ _ (Fin.isLt _) (Fin.isLt _) (Fin.isLt _), hT]
  have hbound : T < 2 ^ 31 := by
    rw [hT]; unfold toInt32; split <;> omega
  have hsize : toSize (T - 4) = (T - 4).toNat := by
    unfold toSize; omega
  refine ⟨?_, ?_, rfl⟩
  · unfold importSSON
    simp only [hread, andThen_value]
    rw [if_neg (by omega), hsize]
  · simp only [List.drop_succ_cons, List.drop_zero, List.length_take, List.length_cons] at hlen ⊢
    omega

/-- C10, witness: the 12 bytes of the first concrete scenario. -/
theorem importSSON_layout_witness :
    importSSON (some [12, 0, 0, 0, 16, 120, 0, 7, 0, 0, 0, 0])
      = extractSSONMap .document [16, 120, 0, 7, 0, 0, 0, 0] 8 :=
  (importSSON_layout 12 0 0 0 [16, 120, 0, 7, 0, 0, 0, 0] 12 (by decide) (by decide)
    (by decide)).1

/-! ## Decoding a prefix of a buffer

On a prefix `P` of `V` every function returns what it returns on `V`, unless it
reads at an offset that `P` does not hold. -/

theorem getElem?_prefix_some {P V : List Byte} (h : P <+: V) {i : Nat} {b : Byte}
    (hb : P[i]? = some b) : V[i]? = some b := by
  obtain ⟨t, rfl⟩ := h
  have hi := (List.getElem?_eq_some_iff.mp hb).1
  rw [List.getElem?_append_left hi]
  exact hb

theorem drop_truncated {P V : List Byte} (h : P <+: V) (n : Nat) : P.drop n <+: V.drop n := by
  obtain ⟨t, rfl⟩ := h
  by_cases hn : n ≤ P.length
  · rw [List.drop_append_of_le_length hn]
    exact List.prefix_append _ _
  · rw [List.drop_eq_nil_of_le (Nat.le_of_lt (Nat.lt_of_not_le hn))]
    exact List.nil_prefix

theorem readInt32_truncated {P V : List Byte} (h : P <+: V) (L pos : Nat) :
    readInt32 P L pos = readInt32 V L pos ∨ (readInt32 P L pos).1 = .outOfBounds := by
  by_cases hL : L < pos + 4
  · left
    simp only [readInt32, hL, if_true]
  · cases h0 : P[pos]? with
    | none => right; simp only [readInt32, hL, if_false, h0]
    | some b0 =>
      cases h1 : P[pos + 1]? with
      | none => right; simp only [readInt32, hL, if_false, h0, h1]
      | some b1 =>
        cases h2 : P[pos + 2]? with
        | none => right; simp only [readInt32, hL, if_false, h0, h1, h2]
        | some b2 =>
          cases h3 : P[pos + 3]? with
          | none => right; simp only [readInt32, hL, if_false, h0, h1, h2, h3]
          | some b3 =>
            left
            simp only [readInt32, hL, if_false, h0, h1, h2, h3, getElem?_prefix_some h h0,
              getElem?_prefix_some h h1, getElem?_prefix_some h h2, getElem?_prefix_some h h3]

theorem readCStringLoop_truncated (L : Nat) :
    ∀ (lP lV : List Byte) (pos : Nat) (acc : List Byte), lP <+: lV →
      readCStringLoop L lP pos acc = readCStringLoop L lV pos acc
        ∨ (readCStringLoop L lP pos acc).1 = .outOfBounds := by
  intro lP
  induction lP with
  | nil => intro lV pos acc _; right; rfl
  | cons b rest ih =>
    intro lV pos acc h
    obtain ⟨t, rfl⟩ := h
    have hrest : rest <+: rest ++ t := List.prefix_append _ _
    rw [List.cons_append, readCStringLoop, readCStringLoop]
    by_cases hb : b ≠ ENDCHAR
    · rw [if_pos hb, if_pos hb]
      by_cases hp : pos ≥ L
      · left
        rw [if_pos hp, if_pos hp]
      · rw [if_neg hp, if_neg hp]
        exact ih (rest ++ t) (pos + 1) (acc ++ [b]) hrest
    · left
      rw [if_neg hb, if_neg hb]

theorem readCString_truncated {P V : List Byte} (h : P <+: V) (L pos : Nat) :
    readCString P L pos = readCString V L pos ∨ (readCString P L pos).1 = .outOfBounds :=
  readCStringLoop_truncated L _ _ _ _ (drop_truncated h pos)

theorem readString_truncated {P V : List Byte} (h : P <+: V) (L pos : Nat) :
    readString P L pos = readString V L pos ∨ (readString P L pos).1 = .outOfBounds := by
  rcases readInt32_truncated h L pos with heq | hoob
  · unfold readString
    rw [heq]
    cases hr : readInt32 V L pos with
    | mk o p =>
      cases o with
      | value n =>
        simp only
        by_cases hc : (p + toSize n) % 2 ^ 64 > L
        · left; simp only [hc, if_true]
        · simp only [hc, if_false]
          by_cases hlen : ((P.drop p).take (predSize (toSize n))).length < predSize (toSize n)
          · right; simp only [hlen, if_true]
          · have hle : predSize (toSize n) ≤ (P.drop p).length := by
              simp only [List.length_take] at hlen
              omega
            have htake : (V.drop p).take (predSize (toSize n))
                = (P.drop p).take (predSize (toSize n)) := by
              obtain ⟨t, ht⟩ := drop_truncated h p
              rw [← ht, List.take_append_of_le_length hle]
            rw [htake]
            simp only [hlen, if_false]
            cases hb : P[p + predSize (toSize n)]? with
            | none => right; rfl
            | some b => left; rw [getElem?_prefix_some h hb]
      | _ => left; rfl
  · right
    unfold readString
    cases hr : readInt32 P L pos with
    | mk o p =>
      rw [hr] at hoob
      simp only at hoob
      subst hoob
      rfl

theorem bind_truncated {α β : Type} {oP oV : Outcome α} {fP fV : α → Outcome β}
    (ho : oP = oV ∨ oP = .outOfBounds) (hf : ∀ a, fP a = fV a ∨ fP a = .outOfBounds) :
    oP.bind fP = oV.bind fV ∨ oP.bind fP = .outOfBounds := by
  rcases ho with rfl | rfl
  · cases oP with
    | value a => exact hf a
    | _ => left; rfl
  · right; rfl

theorem andThen_truncated {α β : Type} {rP rV : Outcome α × Nat} {fP fV : α → Nat → Outcome β}
    (hr : rP = rV ∨ rP.1 = .outOfBounds)
    (hf : ∀ a p, fP a p = fV a p ∨ fP a p = .outOfBounds) :
    andThen rP fP = andThen rV fV ∨ andThen rP fP = .outOfBounds := by
  rcases hr with rfl | hoob
  · obtain ⟨o, p⟩ := rP
    cases o with
    | value a => exact hf a p
    | _ => left; rfl
  · right
    obtain ⟨o, p⟩ := rP
    simp only at hoob
    subst hoob
    rfl

theorem extractElement_truncated {P V : List Byte} (h : P <+: V)
    {eP eV : (k : Kind) → List Byte → Nat → Outcome (Container k)}
    (hag : PrefixAgree P V eP eV) (kind : Kind) (L : Nat) (tag : Byte) (pos : Nat)
    (acc : Container kind) :
    extractElement eP kind P L tag pos acc = extractElement eV kind V L tag pos acc
      ∨ extractElement eP kind P L tag pos acc = .outOfBounds := by
  have hsame : ∀ {β : Type} (o : Outcome β), o = o ∨ o = .outOfBounds := fun _ => Or.inl rfl
  unfold extractElement
  by_cases h2 : tag = STRING
  · simp only [h2, if_true]
    unfold extractSSONString
    refine andThen_truncated (readCString_truncated h L pos) fun name p1 => ?_
    split
    · exact andThen_truncated (readString_truncated h L p1) fun str p2 => hsame _
    · exact hsame _
  · simp only [h2, if_false]
    by_cases h3 : tag = EMBEDDED
    · simp only [h3, if_true]
      unfold extractSSONEmbbed
      refine andThen_truncated (readCString_truncated h L pos) fun name p1 => ?_
      split
      · exact andThen_truncated (readInt32_truncated h L p1) fun d p2 =>
          bind_truncated (hag .document p2 _) fun doc => hsame _
      · exact hsame _
    · simp only [h3, if_false]
      by_cases h4 : tag = ARRAY
      · simp only [h4, if_true]
        unfold extractSSONArray
        refine andThen_truncated (readCString_truncated h L pos) fun name p1 => ?_
        split
        · exact andThen_truncated (readInt32_truncated h L p1) fun d p2 =>
            bind_truncated (hag .array p2 _) fun doc => hsame _
        · exact hsame _
      · simp only [h4, if_false]
        split
        · unfold extractSSONInteger
          refine andThen_truncated (readCString_truncated h L pos) fun name p1 => ?_
          split
          · exact andThen_truncated (readInt32_truncated h L p1) fun i p2 => hsame _
          · exact hsame _
        · exact hsame _

theorem mapLoop_truncated {P V : List Byte} (h : P <+: V)
    {eP eV : (k : Kind) → List Byte → Nat → Outcome (Container k)}
    (hag : PrefixAgree P V eP eV) (kind : Kind) (L : Nat) :
    ∀ (fuel pos : Nat) (acc : Container kind),
      mapLoop eP kind P L fuel pos acc = mapLoop eV kind V L fuel pos acc
        ∨ mapLoop eP kind P L fuel pos acc = .outOfBounds := by
  intro fuel
  induction fuel with
  | zero => intro pos acc; left; rfl
  | succ n ih =>
    intro pos acc
    unfold mapLoop
    by_cases hlt : pos < predSize L
    · simp only [hlt, if_true]
      cases htag : P[pos]? with
      | none => right; rfl
      | some tag =>
        rw [getElem?_prefix_some h htag]
        exact bind_truncated (extractElement_truncated h hag kind L tag (pos + 1) acc)
          fun st => ih st.2 st.1
    · left
      simp only [hlt, if_false]

theorem checkTerminator_truncated {α : Type} {P V : List Byte} (h : P <+: V) (st : α × Nat) :
    checkTerminator P st = checkTerminator V st ∨ checkTerminator P st = .outOfBounds := by
  unfold checkTerminator
  cases hb : P[st.2]? with
  | none => right; rfl
  | some b => left; rw [getElem?_prefix_some h hb]

theorem extractSSONMapFuel_truncated :
    ∀ (d : Nat) (kind : Kind) (P V : List Byte) (L : Nat), P <+: V →
      extractSSONMapFuel d kind P L = extractSSONMapFuel d kind V L
        ∨ extractSSONMapFuel d kind P L = .outOfBounds := by
  intro d
  induction d with
  | zero => intro kind P V L _; left; rfl
  | succ n ih =>
    intro kind P V L h
    have hag : PrefixAgree P V (extractSSONMapFuel n) (extractSSONMapFuel n) :=
      fun k p l => ih k _ _ l (drop_truncated h p)
    have hlen := h.length_le
    unfold extractSSONMapFuel
    rw [mapLoop_fuel _ kind P L (P.length + 1) (V.length + 1) 0 _ (by omega) (by omega)]
    exact bind_truncated (mapLoop_truncated h hag kind L _ _ _) (checkTerminator_truncated h)

theorem extractSSONMap_truncated {P V : List Byte} (h : P <+: V) (kind : Kind) (L : Nat) :
    extractSSONMap kind P L = extractSSONMap kind V L
      ∨ extractSSONMap kind P L = .outOfBounds := by
  have hlen := h.length_le
  unfold extractSSONMap
  rw [extractSSONMapFuel_depth (P.length + 1) (V.length + 1) kind P L (by omega) (by omega)]
  exact extractSSONMapFuel_truncated _ kind P V L h

theorem extractLoop_truncated {P V : List Byte} (h : P <+: V) (kind : Kind) (L pos : Nat)
    (acc : Container kind) :
    extractLoop kind P L pos acc = extractLoop kind V L pos acc
      ∨ extractLoop kind P L pos acc = .outOfBounds := by
  have hlen := h.length_le
  have hag : PrefixAgree P V extractSSONMap extractSSONMap :=
    fun k p l => extractSSONMap_truncated (drop_truncated h p) k l
  unfold extractLoop
  rw [mapLoop_fuel _ kind P L (P.length + 1) (V.length + 1) pos _ (by omega) (by omega)]
  exact mapLoop_truncated h hag kind L _ _ _

theorem extractSSONMap_of_prefix_value {P V : List Byte} (h : P <+: V) {kind : Kind} {L : Nat}
    {c : Container kind} (hP : extractSSONMap kind P L = .value c) :
    extractSSONMap kind V L = .value c := by
  rcases extractSSONMap_truncated h kind L with heq | hoob
  · rw [← heq, hP]
  · rw [hP] at hoob; cases hoob

/-! ## C5: tag-to-kind mapping and nesting -/

theorem toSize_sub_four {D : Int} (h4 : 4 ≤ D) (hD : D < 2 ^ 63) :
    toSize (D - 4) = (D - 4).toNat := by
  unfold toSize; omega

theorem readInt32_lt {buf : List Byte} {L pos : Nat} {v : Int} {p : Nat}
    (h : readInt32 buf L pos = (.value v, p)) : -2 ^ 31 ≤ v ∧ v < 2 ^ 31 := by
  unfold readInt32 at h
  split at h
  · simp at h
  · split at h <;> simp at h
    obtain ⟨hv, _⟩ := h
    rw [← hv]
    unfold toInt32
    split <;> omega

theorem extractSSONEmbbed_eq {kind : Kind} {buf : List Byte} {L pos p1 p2 : Nat}
    {key : List Byte} {D : Int} (acc : Container kind)
    (hkey : readCString buf L pos = (.value key, p1)) (hacc : keyAccepted kind key = true)
    (hD : readInt32 buf L p1 = (.value D, p2)) :
    extractElement extractSSONMap kind buf L EMBEDDED pos acc
      = (extractSSONMap .document (buf.drop p2) (toSize (D - 4))).bind fun doc =>
          (insertElement kind acc key (.document doc)).bind fun out =>
            .value (out, p2 + toSize (D - 4)) := by
  unfold extractElement
  rw [if_neg (by decide), if_pos rfl]
  unfold extractSSONEmbbed
  rw [hkey]
  simp only [andThen_value, hacc, if_true, hD]

theorem extractSSONArray_eq {kind : Kind} {buf : List Byte} {L pos p1 p2 : Nat}
    {key : List Byte} {D : Int} (acc : Container kind)
    (hkey : readCString buf L pos = (.value key, p1)) (hacc : keyAccepted kind key = true)
    (hD : readInt32 buf L p1 = (.value D, p2)) :
    extractElement extractSSONMap kind buf L ARRAY pos acc
      = (extractSSONMap .array (buf.drop p2) (toSize (D - 4))).bind fun doc =>
          (insertElement kind acc key (.array doc)).bind fun out =>
            .value (out, p2 + toSize (D - 4)) := by
  unfold extractElement
  rw [if_neg (by decide), if_neg (by decide), if_pos rfl]
  unfold extractSSONArray
  rw [hkey]
  simp only [andThen_value, hacc, if_true, hD]

theorem extractSSONMap_nested (k1 k2 s : List Byte) (hz1 : ENDCHAR ∉ k1) (hz2 : ENDCHAR ∉ k2)
    (hlen : (flatRegion [(k2, .text s)]).length + 4 < 2 ^ 31) :
    extractSSONMap .document (nestedRegion k1 k2 s) (nestedRegion k1 k2 s).length
      = .value [(k1, .document [(k2, .string s)])] := by
  have hn2 : (flatRegion [(k2, .text s)]).length = k2.length + s.length + 8 := by
    simp [flatRegion, flatElements, encodeLeaf, int32LE]
    omega
  have hinner : extractSSONMap .document (flatRegion [(k2, .text s)])
      (flatRegion [(k2, .text s)]).length = .value (flatDocument [(k2, .text s)]) :=
    extractSSONMap_flat [(k2, .text s)] (List.nodup_singleton _)
      (by intro e he; rw [List.mem_singleton] at he; rw [he]; exact hz2)
      (by
        intro e he
        rw [List.mem_singleton] at he
        rw [he]
        show s.length + 1 < 2 ^ 31
        omega)
  have hbuf : (nestedRegion k1 k2 s).drop 0
      = EMBEDDED :: (k1 ++ ENDCHAR ::
          (int32LE ((flatRegion [(k2, .text s)]).length + 4 : Nat)
            ++ (flatRegion [(k2, .text s)] ++ [ENDCHAR]))) := rfl
  have hL : (nestedRegion k1 k2 s).length
      = k1.length + (flatRegion [(k2, .text s)]).length + 7 := by
    simp [nestedRegion, int32LE]
    omega
  obtain ⟨htag, hd1⟩ := drop_succ_of_drop hbuf
  have hk := readCString_key (L := (nestedRegion k1 k2 s).length) hd1 hz1 (by omega)
  have hd2 : (nestedRegion k1 k2 s).drop (0 + 1 + k1.length + 1)
      = int32LE ((flatRegion [(k2, .text s)]).length + 4 : Nat)
          ++ (flatRegion [(k2, .text s)] ++ [ENDCHAR]) := by
    have := drop_add_of_drop (a := k1 ++ [ENDCHAR])
      (b := int32LE ((flatRegion [(k2, .text s)]).length + 4 : Nat)
          ++ (flatRegion [(k2, .text s)] ++ [ENDCHAR])) (by rw [hd1]; simp)
    simpa [Nat.add_assoc] using this
  have hi := readInt32_int32LE (L := (nestedRegion k1 k2 s).length) hd2 (by omega)
    (by omega) (by omega)
  have hd3 : (nestedRegion k1 k2 s).drop (0 + 1 + k1.length + 1 + 4)
      = flatRegion [(k2, .text s)] ++ [ENDCHAR] := by
    have := drop_add_of_drop hd2
    simpa [int32LE] using this
  have hsize : toSize ((((flatRegion [(k2, .text s)]).length + 4 : Nat) : Int) - 4)
      = (flatRegion [(k2, .text s)]).length := by
    unfold toSize; omega
  have hsub : extractSSONMap .document ((nestedRegion k1 k2 s).drop (0 + 1 + k1.length + 1 + 4))
      (flatRegion [(k2, .text s)]).length = .value (flatDocument [(k2, .text s)]) := by
    rw [hd3]
    exact extractSSONMap_of_prefix_value (List.prefix_append _ _) hinner
  have hterm : (nestedRegion k1 k2 s)[0 + 1 + k1.length + 1 + 4
      + (flatRegion [(k2, .text s)]).length]? = some ENDCHAR := by
    rw [getElem?_of_drop hd3, List.getElem?_append_right (Nat.le_refl _)]
    simp
  rw [extractSSONMap_eq, extractLoop_eq,
    if_pos (by simp only [predSize]; rw [if_neg (by omega)]; omega), htag]
  simp only
  rw [extractSSONEmbbed_eq (Container.empty .document) hk
    (show keyAccepted .document k1 = true from rfl) hi, hsize, hsub]
  simp only [Outcome.bind_value, insertElement]
  rw [extractLoop_eq, if_neg (by simp only [predSize]; rw [if_neg (by omega)]; omega)]
  simp only [Outcome.bind_value, checkTerminator, hterm, ne_eq, not_true_eq_false, if_false]
  rfl

/-- C5: for both enclosing kinds, once the key of an element is read and
accepted and its sub-length `D ≥ 4` is read, tag 3 runs
`extractSSONMap<SSONDocument>` and tag 4 runs `extractSSONMap<SSONArray>` on the
bytes that follow, with the declared length `D - 4` and a fresh cursor; when
the decode of the next `D - 4` bytes gives `c`, the element gives the enclosing
container with `(key, Document(c))`, resp. `(key, Array(c))`, inserted and the
cursor moved by exactly `D - 4`.  A region Document → Document → text leaf with
correct lengths decodes to a tree in which the leaf is found by two lookups. -/
theorem embedded_tag_mapping (kind : Kind) (buf : List Byte) (L pos p1 p2 : Nat)
    (acc : Container kind) (key : List Byte) (D : Int)
    (hkey : readCString buf L pos = (.value key, p1)) (hacc : keyAccepted kind key = true)
    (hD : readInt32 buf L p1 = (.value D, p2)) (h4 : 4 ≤ D) :
    (extractElement extractSSONMap kind buf L EMBEDDED pos acc
        = (extractSSONMap .document (buf.drop p2) (D - 4).toNat).bind fun doc =>
            (insertElement kind acc key (.document doc)).bind fun out =>
              .value (out, p2 + (D - 4).toNat))
      ∧ (extractElement extractSSONMap kind buf L ARRAY pos acc
        = (extractSSONMap .array (buf.drop p2) (D - 4).toNat).bind fun arr =>
            (insertElement kind acc key (.array arr)).bind fun out =>
              .value (out, p2 + (D - 4).toNat))
      ∧ (∀ (c : SSONDocument) (out : Container kind),
          extractSSONMap .document ((buf.drop p2).take (D - 4).toNat) (D - 4).toNat = .value c →
          insertElement kind acc key (.document c) = .value out →
          extractElement extractSSONMap kind buf L EMBEDDED pos acc
            = .value (out, p2 + (D - 4).toNat))
      ∧ (∀ (c : SSONArray) (out : Container kind),
          extractSSONMap .array ((buf.drop p2).take (D - 4).toNat) (D - 4).toNat = .value c →
          insertElement kind acc key (.array c) = .value out →
          extractElement extractSSONMap kind buf L ARRAY pos acc
            = .value (out, p2 + (D - 4).toNat))
      ∧ (∀ (d : SSONDocument) (v : SSONContent),
          insertElement .document d key v = .value (insertDocument d key v))
      ∧ (∀ (a : SSONArray) (v : SSONContent) (id : Int), stoi key = .value id →
          insertElement .array a key v = .value (insertArray a id v))
      ∧ (∀ k1 k2 s : List Byte, ENDCHAR ∉ k1 → ENDCHAR ∉ k2 →
          (flatRegion [(k2, .text s)]).length + 4 < 2 ^ 31 →
          ∃ (d inner : SSONDocument),
            extractSSONMap .document (nestedRegion k1 k2 s) (nestedRegion k1 k2 s).length
                = .value d
              ∧ lookupDocument d k1 = some (.document inner)
              ∧ lookupDocument inner k2 = some (.string s)) := by
  have hsize : toSize (D - 4) = (D - 4).toNat :=
    toSize_sub_four h4 (by have := (readInt32_lt hD).2; omega)
  have h3 := extractSSONEmbbed_eq acc hkey hacc hD
  have h4' := extractSSONArray_eq acc hkey hacc hD
  rw [hsize] at h3 h4'
  refine ⟨h3, h4', ?_, ?_, fun _ _ => rfl, ?_, ?_⟩
  · intro c out hsub hins
    rw [h3, extractSSONMap_of_prefix_value (List.take_prefix _ _) hsub]
    simp only [Outcome.bind_value, hins]
  · intro c out hsub hins
    rw [h4', extractSSONMap_of_prefix_value (List.take_prefix _ _) hsub]
    simp only [Outcome.bind_value, hins]
  · intro a v id hid
    simp only [insertElement, hid, Outcome.bind_value]
  · intro k1 k2 s hz1 hz2 hlen
    refine ⟨_, [(k2, .string s)], extractSSONMap_nested k1 k2 s hz1 hz2 hlen, ?_, ?_⟩
    · simp [lookupDocument]
    · simp [lookupDocument]

/-- C5, witness: the element `"a"` with tag 3 and sub-length 12 in a document. -/
theorem embedded_tag_mapping_witness :
    extractElement extractSSONMap .document
        [3, 97, 0, 12, 0, 0, 0, 16, 120, 0, 7, 0, 0, 0, 0, 0] 16 EMBEDDED 1 ([] : SSONDocument)
      = .value ([([97], .document [([120], .int 7)])], 15) :=
  (embedded_tag_mapping .document [3, 97, 0, 12, 0, 0, 0, 16, 120, 0, 7, 0, 0, 0, 0, 0] 16 1 3 7
    ([] : SSONDocument) [97] 12 rfl rfl rfl (by decide)).2.2.1
    [([120], .int 7)] [([97], .document [([120], .int 7)])] rfl rfl

/-! ## Changing the declared length on the same buffer -/

theorem readInt32_length_change {buf : List Byte} {L pos : Nat} {v : Int} {p : Nat} (L' : Nat)
    (h : readInt32 buf L pos = (.value v, p)) :
    readInt32 buf L' pos = (.value v, p) ∨ (readInt32 buf L' pos).1 = .nullopt := by
  by_cases hL' : L' < pos + 4
  · right
    simp only [readInt32, hL', if_true]
  · left
    have hL : ¬ L < pos + 4 := by
      have := (readInt32_value h).2.1
      omega
    rw [← h]
    simp only [readInt32, hL, hL', if_false]

theorem readCStringLoop_length_change (L L' : Nat) :
    ∀ (l : List Byte) (pos : Nat) (acc r : List Byte) (p : Nat),
      readCStringLoop L l pos acc = (.value r, p) →
      readCStringLoop L' l pos acc = (.value r, p)
        ∨ (readCStringLoop L' l pos acc).1 = .nullopt := by
  intro l
  induction l with
  | nil => intro pos acc r p h; simp [readCStringLoop] at h
  | cons b rest ih =>
    intro pos acc r p h
    rw [readCStringLoop] at h ⊢
    by_cases hb : b ≠ ENDCHAR
    · rw [if_pos hb] at h ⊢
      by_cases hp : pos ≥ L
      · rw [if_pos hp] at h; simp at h
      · rw [if_neg hp] at h
        by_cases hp' : pos ≥ L'
        · right; rw [if_pos hp']
        · rw [if_neg hp']
          exact ih _ _ _ _ h
    · rw [if_neg hb] at h ⊢
      left; exact h

theorem readCString_length_change {buf : List Byte} {L pos : Nat} {r : List Byte} {p : Nat}
    (L' : Nat) (h : readCString buf L pos = (.value r, p)) :
    readCString buf L' pos = (.value r, p) ∨ (readCString buf L' pos).1 = .nullopt :=
  readCStringLoop_length_change L L' _ _ _ _ _ h

theorem readString_length_change {buf : List Byte} {L pos : Nat} {r : List Byte} {p : Nat}
    (L' : Nat) (h : readString buf L pos = (.value r, p)) :
    readString buf L' pos = (.value r, p) ∨ (readString buf L' pos).1 = .nullopt := by
  unfold readString at h
  cases hr : readInt32 buf L pos with
  | mk o p1 =>
    rw [hr] at h
    cases o with
    | value n =>
      simp only at h
      rcases readInt32_length_change L' hr with h' | h'
      · by_cases hc' : (p1 + toSize n) % 2 ^ 64 > L'
        · right
          unfold readString
          rw [h']
          simp only [hc', if_true]
        · left
          have hc : ¬ (p1 + toSize n) % 2 ^ 64 > L := by
            intro hc; rw [if_pos hc] at h; simp at h
          rw [if_neg hc] at h
          unfold readString
          rw [h']
          simp only [hc', if_false]
          exact h
      · right
        unfold readString
        cases hr' : readInt32 buf L' pos with
        | mk o' p' =>
          rw [hr'] at h'
          simp only at h'
          subst h'
          rfl
    | _ => simp at h

theorem andThen_length_change {α β : Type} {r r' : Outcome α × Nat}
    {f f' : α → Nat → Outcome β} {b : β}
    (hr : ∀ a p, r = (.value a, p) → r' = (.value a, p) ∨ r'.1 = .nullopt)
    (hf : ∀ a p, f a p = .value b → f' a p = .value b ∨ f' a p = .nullopt)
    (h : andThen r f = .value b) : andThen r' f' = .value b ∨ andThen r' f' = .nullopt := by
  obtain ⟨a, p, hra, hfa⟩ := andThen_eq_value h
  rcases hr a p hra with h' | h'
  · rw [h']
    exact hf a p hfa
  · right
    exact andThen_nullopt _ h'

theorem extractElement_length_change
    {extract : (k : Kind) → List Byte → Nat → Outcome (Container k)} {kind : Kind}
    {buf : List Byte} {L : Nat} {tag : Byte} {pos : Nat} {acc : Container kind}
    {st : Container kind × Nat} (L' : Nat)
    (h : extractElement extract kind buf L tag pos acc = .value st) :
    extractElement extract kind buf L' tag pos acc = .value st
      ∨ extractElement extract kind buf L' tag pos acc = .nullopt := by
  unfold extractElement at h ⊢
  by_cases h2 : tag = STRING
  · rw [if_pos h2] at h ⊢
    unfold extractSSONString at h ⊢
    refine andThen_length_change (fun a p hr => readCString_length_change L' hr) ?_ h
    intro name p1 hf
    split at hf
    · rename_i hacc
      rw [if_pos hacc]
      exact andThen_length_change (fun a p hr => readString_length_change L' hr)
        (fun a p hv => Or.inl hv) hf
    · simp at hf
  · rw [if_neg h2] at h ⊢
    by_cases h3 : tag = EMBEDDED
    · rw [if_pos h3] at h ⊢
      unfold extractSSONEmbbed at h ⊢
      refine andThen_length_change (fun a p hr => readCString_length_change L' hr) ?_ h
      intro name p1 hf
      split at hf
      · rename_i hacc
        rw [if_pos hacc]
        exact andThen_length_change (fun a p hr => readInt32_length_change L' hr)
          (fun a p hv => Or.inl hv) hf
      · simp at hf
    · rw [if_neg h3] at h ⊢
      by_cases h4 : tag = ARRAY
      · rw [if_pos h4] at h ⊢
        unfold extractSSONArray at h ⊢
        refine andThen_length_change (fun a p hr => readCString_length_change L' hr) ?_ h
        intro name p1 hf
        split at hf
        · rename_i hacc
          rw [if_pos hacc]
          exact andThen_length_change (fun a p hr => readInt32_length_change L' hr)
            (fun a p hv => Or.inl hv) hf
        · simp at hf
      · rw [if_neg h4] at h ⊢
        by_cases h16 : tag = INTEGER
        · rw [if_pos h16] at h ⊢
          unfold extractSSONInteger at h ⊢
          refine andThen_length_change (fun a p hr => readCString_length_change L' hr) ?_ h
          intro name p1 hf
          split at hf
          · rename_i hacc
            rw [if_pos hacc]
            exact andThen_length_change (fun a p hr => readInt32_length_change L' hr)
              (fun a p hv => Or.inl hv) hf
          · simp at hf
        · rw [if_neg h16] at h
          simp at h

theorem extractElement_tag_ne_endchar
    {extract : (k : Kind) → List Byte → Nat → Outcome (Container k)} {kind : Kind}
    {buf : List Byte} {L : Nat} {tag : Byte} {pos : Nat} {acc : Container kind}
    {st : Container kind × Nat}
    (h : extractElement extract kind buf L tag pos acc = .value st) : tag ≠ ENDCHAR := by
  intro h0
  subst h0
  rw [extractElement_unknown_tag _ _ _ _ _ _ _ (by decide) (by decide) (by decide) (by decide)]
    at h
  cases h

/-- On the same buffer, with another declared length: a loop that ends at the
cursor `c` on a terminator under `L` either fails under `L'`, or ends at `c`, or
ends at an earlier cursor that holds the tag of an element. -/
theorem extractLoop_length_change (kind : Kind) (V : List Byte) (L L' : Nat)
    (r : Container kind) (c : Nat) (hterm : V[c]? = some ENDCHAR) :
    ∀ (n pos : Nat) (acc : Container kind), V.length - pos = n →
      extractLoop kind V L pos acc = .value (r, c) →
      extractLoop kind V L' pos acc = .nullopt
        ∨ ∃ r' c', extractLoop kind V L' pos acc = .value (r', c')
            ∧ (c' = c ∨ ∃ t, V[c']? = some t ∧ t ≠ ENDCHAR) := by
  intro n
  induction n using Nat.strong_induction_on with
  | _ n ih =>
    intro pos acc hn hL
    rw [extractLoop_eq] at hL
    rw [extractLoop_eq]
    by_cases hlt : pos < predSize L
    · rw [if_pos hlt] at hL
      cases htag : V[pos]? with
      | none => rw [htag] at hL; cases hL
      | some tag =>
        rw [htag] at hL
        simp only at hL ⊢
        obtain ⟨st, hel, hrec⟩ := Outcome.bind_eq_value hL
        have hposlt := (List.getElem?_eq_some_iff.mp htag).1
        have hadv := extractElement_value hel
        by_cases hlt' : pos < predSize L'
        · rw [if_pos hlt']
          rcases extractElement_length_change L' hel with h' | h'
          · rw [h']
            simp only [Outcome.bind_value]
            exact ih (V.length - st.2) (by omega) st.2 st.1 rfl hrec
          · left
            rw [h']
            rfl
        · rw [if_neg hlt']
          exact Or.inr ⟨acc, pos, rfl, Or.inr ⟨tag, htag, extractElement_tag_ne_endchar hel⟩⟩
    · rw [if_neg hlt] at hL
      have hc : pos = c := by
        cases hL; rfl
      by_cases hlt' : pos < predSize L'
      · left
        rw [if_pos hlt', hc, hterm]
        simp only
        rw [extractElement_unknown_tag _ _ _ _ _ _ _ (by decide) (by decide) (by decide)
          (by decide)]
        rfl
      · rw [if_neg hlt']
        exact Or.inr ⟨acc, pos, rfl, Or.inl hc⟩

/-- A loop that ends does so at a cursor where its condition is false. -/
theorem extractLoop_exit (kind : Kind) (buf : List Byte) (L : Nat) (r : Container kind)
    (c : Nat) :
    ∀ (n pos : Nat) (acc : Container kind), buf.length - pos = n →
      extractLoop kind buf L pos acc = .value (r, c) → ¬ c < predSize L ∧ pos ≤ c := by
  intro n
  induction n using Nat.strong_induction_on with
  | _ n ih =>
    intro pos acc hn hL
    rw [extractLoop_eq] at hL
    by_cases hlt : pos < predSize L
    · rw [if_pos hlt] at hL
      cases htag : buf[pos]? with
      | none => rw [htag] at hL; cases hL
      | some tag =>
        rw [htag] at hL
        simp only at hL
        obtain ⟨st, hel, hrec⟩ := Outcome.bind_eq_value hL
        have hposlt := (List.getElem?_eq_some_iff.mp htag).1
        have hadv := extractElement_value hel
        have := ih (buf.length - st.2) (by omega) st.2 st.1 rfl hrec
        exact ⟨this.1, by omega⟩
    · rw [if_neg hlt] at hL
      cases hL
      exact ⟨hlt, Nat.le_refl _⟩

theorem checkTerminator_value {α : Type} {buf : List Byte} {st : α × Nat} {a : α}
    (h : checkTerminator buf st = .value a) : buf[st.2]? = some ENDCHAR ∧ a = st.1 := by
  unfold checkTerminator at h
  split at h
  · cases h
  · rename_i b hb
    split at h
    · cases h
    · rename_i hb0
      simp only [ne_eq, not_not] at hb0
      cases h
      exact ⟨by rw [hb, hb0], rfl⟩

/-! ## C4: truncation -/

/-- C4: if a buffer `V` decodes with its own length as declared length, then the
decode of every strict prefix `P` of `V`, with every declared length, returns
`nullopt` or reads beyond the end of `P`; it never returns a tree. -/
theorem truncation_rejected (kind : Kind) (V P : List Byte) (L' : Nat) (d : Container kind)
    (hP : P <+: V) (hshort : P.length < V.length)
    (hV : extractSSONMap kind V V.length = .value d) :
    extractSSONMap kind P L' = .nullopt ∨ extractSSONMap kind P L' = .outOfBounds := by
  rw [extractSSONMap_eq] at hV
  obtain ⟨⟨r, c⟩, hloop, hcheck⟩ := Outcome.bind_eq_value hV
  have hterm : V[c]? = some ENDCHAR := (checkTerminator_value hcheck).1
  have hcV : c < V.length := (List.getElem?_eq_some_iff.mp hterm).1
  have hcge : P.length ≤ c := by
    have := (extractLoop_exit kind V V.length r c _ 0 _ rfl hloop).1
    simp only [predSize] at this
    rw [if_neg (by omega)] at this
    omega
  rw [extractSSONMap_eq]
  rcases extractLoop_truncated hP kind L' 0 (Container.empty kind) with heq | hoob
  · rw [heq]
    rcases extractLoop_length_change kind V V.length L' r c hterm _ 0 _ rfl hloop with
      hnull | ⟨r', c', hval, hc'⟩
    · left
      rw [hnull]
      rfl
    · rw [hval]
      simp only [Outcome.bind_value, checkTerminator]
      cases hb : P[c']? with
      | none => right; rfl
      | some b =>
        left
        have hbV := getElem?_prefix_some hP hb
        have hc'P := (List.getElem?_eq_some_iff.mp hb).1
        rcases hc' with hc' | ⟨t, ht, hne⟩
        · omega
        · rw [hbV] at ht
          cases ht
          simp only [hne, ne_eq, not_false_eq_true, if_true]
  · right
    rw [hoob]
    rfl

/-- C4, witness: the region of `{"x": 7}` without its last byte, with the
declared length left at 8. -/
theorem truncation_rejected_witness :
    extractSSONMap .document [16, 120, 0, 7, 0, 0, 0] 8 = .nullopt
      ∨ extractSSONMap .document [16, 120, 0, 7, 0, 0, 0] 8 = .outOfBounds :=
  truncation_rejected .document [16, 120, 0, 7, 0, 0, 0, 0] [16, 120, 0, 7, 0, 0, 0] 8
    [([120], .int 7)] ⟨[0], rfl⟩ (by decide) rfl

/-! ## C2 and C3: an element may run over the terminator slot -/

/-- A decode that returns a value ended its loop at a cursor `c` that is not
below `ssonLength - 1` and that holds the terminator: the elements and the
terminator occupy `c + 1` bytes, never fewer than the declared length. -/
theorem extractSSONMap_value_cursor {kind : Kind} {buf : List Byte} {L : Nat}
    {d : Container kind} (h : extractSSONMap kind buf L = .value d) :
    ∃ c, extractLoop kind buf L 0 (Container.empty kind) = .value (d, c)
      ∧ ¬ c < predSize L ∧ buf[c]? = some ENDCHAR := by
  rw [extractSSONMap_eq] at h
  obtain ⟨⟨r, c⟩, hloop, hcheck⟩ := Outcome.bind_eq_value h
  obtain ⟨hterm, hd⟩ := checkTerminator_value hcheck
  simp only at hterm hd
  subst hd
  exact ⟨c, hloop, (extractLoop_exit kind buf L d c _ 0 _ rfl hloop).1, hterm⟩

/-- C2, at the failing input: with the declared length 7 the integer element
`16 "x" <7,0,0,1>` is read up to offset 6 included, the loop ends at the cursor
7 = L (not L - 1), the byte at offset L - 1 = 6 is 1, and the byte tested as
terminator is the one at offset 7, beyond the declared length; the decode
returns a document.  This is the recursive call made for the file of 19 bytes
below, which `importSSON` accepts. -/
theorem terminator_slot_overrun :
    extractLoop .document [16, 120, 0, 7, 0, 0, 1, 0] 7 0 ([] : SSONDocument)
        = .value ([([120], .int 16777223)], 7)
      ∧ ([16, 120, 0, 7, 0, 0, 1, 0] : List Byte)[7 - 1]? = some 1
      ∧ extractSSONMap .document [16, 120, 0, 7, 0, 0, 1, 0] 7
        = .value [([120], .int 16777223)]
      ∧ importSSON (some [19, 0, 0, 0, 3, 97, 0, 11, 0, 0, 0, 16, 120, 0, 7, 0, 0, 1, 0])
        = .value [([97], .document [([120], .int 16777223)])] :=
  ⟨rfl, rfl, rfl, rfl⟩

/-- C3, at the failing input: the embedded container of the element `"a"` holds
one child of 7 bytes and needs a terminator, 8 bytes in all, so that its
sub-length should be 12; with the declared sub-length 11 the enclosing region
of 15 bytes, which has its declared length and ends with its terminator, still
decodes, for both enclosing kinds and both tags. -/
theorem short_sublength_accepted :
    extractSSONMap .document [3, 97, 0, 11, 0, 0, 0, 16, 120, 0, 7, 0, 0, 1, 0] 15
        = .value [([97], .document [([120], .int 16777223)])]
      ∧ extractSSONMap .array [3, 53, 0, 11, 0, 0, 0, 16, 120, 0, 7, 0, 0, 1, 0] 15
        = .value [(5, .document [([120], .int 16777223)])]
      ∧ extractSSONMap .document [4, 97, 0, 11, 0, 0, 0, 16, 53, 0, 7, 0, 0, 1, 0] 15
        = .value [([97], .array [(5, .int 16777223)])]
      ∧ extractSSONMap .array [4, 53, 0, 11, 0, 0, 0, 16, 53, 0, 7, 0, 0, 1, 0] 15
        = .value [(5, .array [(5, .int 16777223)])]
      ∧ extractLoop .document [16, 120, 0, 7, 0, 0, 1, 0] (11 - 4) 0 ([] : SSONDocument)
        = .value ([([120], .int 16777223)], 7) :=
  ⟨rfl, rfl, rfl, rfl, rfl⟩

/-! ## The bounds of the embedding are not reached -/

theorem readInt32_ne_outOfFuel (buf : List Byte) (L pos : Nat) :
    (readInt32 buf L pos).1 ≠ .outOfFuel := by
  unfold readInt32
  split
  · simp
  · split <;> simp

theorem readCStringLoop_ne_outOfFuel (L : Nat) :
    ∀ (l : List Byte) (pos : Nat) (acc : List Byte),
      (readCStringLoop L l pos acc).1 ≠ .outOfFuel := by
  intro l
  induction l with
  | nil => intro pos acc; simp [readCStringLoop]
  | cons b rest ih =>
    intro pos acc
    rw [readCStringLoop]
    split
    · split
      · simp
      · exact ih _ _
    · simp

theorem readString_ne_outOfFuel (buf : List Byte) (L pos : Nat) :
    (readString buf L pos).1 ≠ .outOfFuel := by
  have hi := readInt32_ne_outOfFuel buf L pos
  unfold readString
  cases hr : readInt32 buf L pos with
  | mk o p =>
    rw [hr] at hi
    cases o with
    | value n =>
      simp only
      split
      · simp
      · split
        · simp
        · split
          · simp
          · split <;> simp
    | outOfFuel => simp at hi
    | _ => simp

theorem insertElement_ne_outOfFuel (kind : Kind) (acc : Container kind) (key : List Byte)
    (v : SSONContent) : insertElement kind acc key v ≠ .outOfFuel := by
  cases kind with
  | document => simp [insertElement]
  | array =>
    simp only [insertElement, stoi]
    split
    · simp
    · split <;> simp

theorem andThen_eq_outOfFuel {α β : Type} {r : Outcome α × Nat} {f : α → Nat → Outcome β}
    (hr : r.1 ≠ .outOfFuel) (h : andThen r f = .outOfFuel) :
    ∃ a p, r = (.value a, p) ∧ f a p = .outOfFuel := by
  obtain ⟨o, p⟩ := r
  cases o with
  | value a => exact ⟨a, p, rfl, h⟩
  | outOfFuel => simp at hr
  | _ => cases h

theorem bind_eq_outOfFuel {α β : Type} {o : Outcome α} {f : α → Outcome β}
    (ho : o ≠ .outOfFuel) (h : o.bind f = .outOfFuel) :
    ∃ a, o = .value a ∧ f a = .outOfFuel := by
  cases o with
  | value a => exact ⟨a, rfl, h⟩
  | outOfFuel => simp at ho
  | _ => cases h

theorem extractElement_ne_outOfFuel
    {extract : (k : Kind) → List Byte → Nat → Outcome (Container k)} {buf : List Byte}
    (hex : ∀ (k : Kind) (p l : Nat), 0 < p → p ≤ buf.length →
      extract k (buf.drop p) l ≠ .outOfFuel)
    (kind : Kind) (L : Nat) (tag : Byte) (pos : Nat) (acc : Container kind) :
    extractElement extract kind buf L tag pos acc ≠ .outOfFuel := by
  intro h
  unfold extractElement at h
  have hleaf : ∀ (o : Outcome (Container kind)) (p : Nat), o ≠ .outOfFuel →
      (o.bind fun out => Outcome.value (out, p)) ≠ .outOfFuel := by
    intro o p ho hb
    obtain ⟨a, _, ha⟩ := bind_eq_outOfFuel ho hb
    cases ha
  split at h
  · unfold extractSSONString at h
    obtain ⟨name, p1, _, h⟩ := andThen_eq_outOfFuel (readCStringLoop_ne_outOfFuel _ _ _ _) h
    split at h
    · obtain ⟨str, p2, _, h⟩ := andThen_eq_outOfFuel (readString_ne_outOfFuel _ _ _) h
      exact hleaf _ _ (insertElement_ne_outOfFuel _ _ _ _) h
    · cases h
  · split at h
    · unfold extractSSONEmbbed at h
      obtain ⟨name, p1, _, h⟩ := andThen_eq_outOfFuel (readCStringLoop_ne_outOfFuel _ _ _ _) h
      split at h
      · obtain ⟨d, p2, hd, h⟩ := andThen_eq_outOfFuel (readInt32_ne_outOfFuel _ _ _) h
        have := readInt32_value hd
        obtain ⟨doc, _, h⟩ := bind_eq_outOfFuel (hex _ _ _ (by omega) (by omega)) h
        exact hleaf _ _ (insertElement_ne_outOfFuel _ _ _ _) h
      · cases h
    · split at h
      · unfold extractSSONArray at h
        obtain ⟨name, p1, _, h⟩ := andThen_eq_outOfFuel (readCStringLoop_ne_outOfFuel _ _ _ _) h
        split at h
        · obtain ⟨d, p2, hd, h⟩ := andThen_eq_outOfFuel (readInt32_ne_outOfFuel _ _ _) h
          have := readInt32_value hd
          obtain ⟨doc, _, h⟩ := bind_eq_outOfFuel (hex _ _ _ (by omega) (by omega)) h
          exact hleaf _ _ (insertElement_ne_outOfFuel _ _ _ _) h
        · cases h
      · split at h
        · unfold extractSSONInteger at h
          obtain ⟨name, p1, _, h⟩ := andThen_eq_outOfFuel (readCStringLoop_ne_outOfFuel _ _ _ _) h
          split at h
          · obtain ⟨i, p2, _, h⟩ := andThen_eq_outOfFuel (readInt32_ne_outOfFuel _ _ _) h
            exact hleaf _ _ (insertElement_ne_outOfFuel _ _ _ _) h
          · cases h
        · cases h

theorem mapLoop_ne_outOfFuel
    {extract : (k : Kind) → List Byte → Nat → Outcome (Container k)} {buf : List Byte}
    (hex : ∀ (k : Kind) (p l : Nat), 0 < p → p ≤ buf.length →
      extract k (buf.drop p) l ≠ .outOfFuel)
    (kind : Kind) (L : Nat) :
    ∀ (fuel pos : Nat) (acc : Container kind), buf.length - pos < fuel →
      mapLoop extract kind buf L fuel pos acc ≠ .outOfFuel := by
  intro fuel
  induction fuel with
  | zero => intro pos acc h; omega
  | succ n ih =>
    intro pos acc hfuel h
    rw [mapLoop] at h
    split at h
    · split at h
      · cases h
      · rename_i tag htag
        have hlt := (List.getElem?_eq_some_iff.mp htag).1
        obtain ⟨st, hel, hrec⟩ := bind_eq_outOfFuel
          (extractElement_ne_outOfFuel hex kind L tag (pos + 1) acc) h
        have := extractElement_value hel
        exact ih st.2 st.1 (by omega) hrec
    · cases h

theorem checkTerminator_ne_outOfFuel {α : Type} (buf : List Byte) (st : α × Nat) :
    checkTerminator buf st ≠ .outOfFuel := by
  unfold checkTerminator
  split
  · simp
  · split <;> simp

theorem extractSSONMapFuel_ne_outOfFuel :
    ∀ (d : Nat) (kind : Kind) (buf : List Byte) (L : Nat), buf.length < d →
      extractSSONMapFuel d kind buf L ≠ .outOfFuel := by
  intro d
  induction d with
  | zero => intro kind buf L h; omega
  | succ n ih =>
    intro kind buf L hd h
    rw [extractSSONMapFuel] at h
    have hex : ∀ (k : Kind) (p l : Nat), 0 < p → p ≤ buf.length →
        extractSSONMapFuel n k (buf.drop p) l ≠ .outOfFuel := by
      intro k p l hp hle
      apply ih
      simp only [List.length_drop]
      omega
    obtain ⟨st, _, hc⟩ := bind_eq_outOfFuel
      (mapLoop_ne_outOfFuel hex kind L (buf.length + 1) 0 (Container.empty kind) (by omega)) h
    exact checkTerminator_ne_outOfFuel buf st hc

/-- The decoder returns on every buffer: the bounds of the embedding are not
reached. -/
theorem extractSSONMap_ne_outOfFuel (kind : Kind) (buf : List Byte) (L : Nat) :
    extractSSONMap kind buf L ≠ .outOfFuel :=
  extractSSONMapFuel_ne_outOfFuel _ kind buf L (Nat.lt_succ_self _)


/-! ## C11: diagnostic rendering -/

theorem decimalValue_foldl (l : List Byte) :
    ∀ init : Nat, l.foldl (fun acc c => 10 * acc + (c.val - 48)) init
      = init * 10 ^ l.length + decimalValue l := by
  induction l with
  | nil => intro init; simp [decimalValue]
  | cons c rest ih =>
    intro init
    simp only [List.foldl_cons, List.length_cons, decimalValue]
    rw [ih (10 * init + (c.val - 48)), ih (10 * 0 + (c.val - 48))]
    ring

theorem decimalValue_cons (c : Byte) (l : List Byte) :
    decimalValue (c :: l) = (c.val - 48) * 10 ^ l.length + decimalValue l := by
  have := decimalValue_foldl l (10 * 0 + (c.val - 48))
  simpa [decimalValue] using this

theorem decimalValue_decimalDigits :
    ∀ (fuel n : Nat) (acc : List Byte), n < fuel →
      decimalValue (decimalDigits fuel n acc) = n * 10 ^ acc.length + decimalValue acc := by
  intro fuel
  induction fuel with
  | zero => intro n acc h; omega
  | succ f ih =>
    intro n acc h
    rw [decimalDigits]
    by_cases hn : n < 10
    · rw [if_pos hn, decimalValue_cons]
      have : (byteOf (48 + n)).val - 48 = n := by
        simp only [byteOf]; omega
      rw [this]
    · rw [if_neg hn, ih (n / 10) _ (by omega), decimalValue_cons]
      have : (byteOf (48 + n % 10)).val - 48 = n % 10 := by
        simp only [byteOf]; omega
      rw [this, List.length_cons, Nat.pow_succ]
      have hdm := Nat.div_add_mod n 10
      calc n / 10 * (10 ^ acc.length * 10) + (n % 10 * 10 ^ acc.length + decimalValue acc)
          = (10 * (n / 10) + n % 10) * 10 ^ acc.length + decimalValue acc := by ring
        _ = n * 10 ^ acc.length + decimalValue acc := by rw [hdm]

theorem decimalValue_to_string (n : Nat) : decimalValue (to_string (n : Int)) = n := by
  unfold to_string
  rw [if_neg (by omega)]
  have := decimalValue_decimalDigits (n + 1) n [] (Nat.lt_succ_self _)
  simpa [decimalValue] using this


theorem insertArray_comm (k1 k2 : Int) (v1 v2 : SSONContent) (hne : k1 ≠ k2) :
    ∀ a : SSONArray,
      insertArray (insertArray a k1 v1) k2 v2 = insertArray (insertArray a k2 v2) k1 v1 := by
  intro a
  induction a with
  | nil =>
    simp only [insertArray]
    split_ifs <;> first | rfl | omega
  | cons e rest ih =>
    obtain ⟨k, v⟩ := e
    simp only [insertArray]
    split_ifs <;> simp only [insertArray] <;> split_ifs <;> first | rfl | omega | (rw [ih])

theorem mem_insertArray {a : SSONArray} {k : Int} {v : SSONContent} {x : Int × SSONContent}
    (h : x ∈ insertArray a k v) : x ∈ a ∨ x = (k, v) := by
  induction a with
  | nil => simp only [insertArray, List.mem_singleton] at h; exact Or.inr h
  | cons e rest ih =>
    obtain ⟨k', v'⟩ := e
    simp only [insertArray] at h
    split_ifs at h with h1 h2
    · rcases List.mem_cons.mp h with h | h
      · exact Or.inr h
      · exact Or.inl h
    · exact Or.inl h
    · rcases List.mem_cons.mp h with h | h
      · exact Or.inl (h ▸ List.mem_cons_self _ _)
      · rcases ih h with h | h
        · exact Or.inl (List.mem_cons_of_mem _ h)
        · exact Or.inr h

theorem insertArray_sorted {a : SSONArray} (k : Int) (v : SSONContent)
    (h : a.Pairwise (fun x y => x.1 < y.1)) :
    (insertArray a k v).Pairwise (fun x y => x.1 < y.1) := by
  induction a with
  | nil => simp [insertArray]
  | cons e rest ih =>
    obtain ⟨k', v'⟩ := e
    rw [List.pairwise_cons] at h
    simp only [insertArray]
    split_ifs with h1 h2
    · rw [List.pairwise_cons]
      refine ⟨?_, List.pairwise_cons.mpr h⟩
      intro y hy
      rcases List.mem_cons.mp hy with rfl | hy
      · exact h1
      · exact Int.lt_trans h1 (h.1 y hy)
    · exact List.pairwise_cons.mpr h
    · rw [List.pairwise_cons]
      refine ⟨?_, ih h.2⟩
      intro y hy
      rcases mem_insertArray hy with hy | rfl
      · exact h.1 y hy
      · show k' < k
        omega

theorem insertAllArray_sorted (es : List (Int × SSONContent)) :
    ∀ acc : SSONArray, acc.Pairwise (fun x y => x.1 < y.1) →
      (insertAllArray acc es).Pairwise (fun x y => x.1 < y.1) := by
  induction es with
  | nil => intro acc h; exact h
  | cons e rest ih => intro acc h; exact ih _ (insertArray_sorted e.1 e.2 h)

theorem insertAllArray_perm {es es' : List (Int × SSONContent)} (hp : es.Perm es')
    (hnd : (es.map Prod.fst).Nodup) (acc : SSONArray) :
    insertAllArray acc es = insertAllArray acc es' := by
  unfold insertAllArray
  apply List.Perm.foldl_eq' hp
  intro x hx y hy z
  by_cases hxy : x = y
  · rw [hxy]
  · apply insertArray_comm
    intro hk
    apply hxy
    exact List.inj_on_of_nodup_map hnd hx hy hk

theorem toStringArray_eq (a : List (Int × SSONContent)) :
    toStringArray a = (a.map arrayFragment).flatten := by
  induction a with
  | nil => rfl
  | cons e rest ih =>
    obtain ⟨k, v⟩ := e
    rw [toStringArray, ih]
    rfl

/-! ## C19: duplicate keys -/

theorem lookupDocument_isSome_iff (d : SSONDocument) (k : List Byte) :
    d.any (fun e => decide (e.1 = k)) = true ↔ ∃ w, lookupDocument d k = some w := by
  induction d with
  | nil => simp [lookupDocument]
  | cons e rest ih =>
    by_cases he : e.1 = k
    · simp [lookupDocument, he]
    · simp only [List.any_cons, he, decide_False, Bool.false_or, ih, lookupDocument]
      rw [List.find?_cons_of_neg _ (by simpa using he)]

theorem insertDocument_present {d : SSONDocument} {k : List Byte} {w : SSONContent}
    (v : SSONContent) (h : lookupDocument d k = some w) : insertDocument d k v = d := by
  unfold insertDocument
  rw [if_pos ((lookupDocument_isSome_iff d k).mpr ⟨w, h⟩)]

theorem insertDocument_absent {d : SSONDocument} {k : List Byte} (v : SSONContent)
    (h : lookupDocument d k = none) :
    insertDocument d k v = d ++ [(k, v)] ∧ lookupDocument (insertDocument d k v) k = some v := by
  have hany : ¬ d.any (fun e => decide (e.1 = k)) = true := by
    intro hc
    obtain ⟨w, hw⟩ := (lookupDocument_isSome_iff d k).mp hc
    rw [h] at hw
    cases hw
  have hins : insertDocument d k v = d ++ [(k, v)] := by
    unfold insertDocument
    rw [if_neg hany]
  refine ⟨hins, ?_⟩
  have hfind : d.find? (fun e => decide (e.1 = k)) = none := by
    simpa [lookupDocument] using h
  rw [hins]
  simp [lookupDocument, List.find?_append, hfind]

theorem insertDocument_keeps (d : SSONDocument) (k : List Byte) (v : SSONContent)
    {k' : List Byte} {w : SSONContent} (h : lookupDocument d k' = some w) :
    lookupDocument (insertDocument d k v) k' = some w := by
  unfold insertDocument
  split
  · exact h
  · simp only [lookupDocument, List.find?_append, Option.map_eq_some'] at h ⊢
    obtain ⟨e, he, hw⟩ := h
    exact ⟨e, by rw [he]; rfl, hw⟩

theorem insertDocument_nodup (d : SSONDocument) (k : List Byte) (v : SSONContent)
    (h : (d.map Prod.fst).Nodup) : ((insertDocument d k v).map Prod.fst).Nodup := by
  unfold insertDocument
  split
  · exact h
  · rename_i hany
    simp only [List.any_eq_true, decide_eq_true_eq, not_exists, not_and] at hany
    rw [List.map_append, List.nodup_append]
    refine ⟨h, List.nodup_singleton _, ?_⟩
    intro x hx hx'
    simp only [List.map_cons, List.map_nil, List.mem_singleton] at hx'
    obtain ⟨e, he, hek⟩ := List.mem_map.mp hx
    exact hany e he (by rw [hek, hx'])

theorem lookupArray_insertArray_ne (a : SSONArray) (k : Int) (v : SSONContent) {k' : Int}
    (hne : k' ≠ k) : lookupArray (insertArray a k v) k' = lookupArray a k' := by
  induction a with
  | nil =>
    simp only [insertArray, lookupArray]
    rw [List.find?_cons_of_neg _ (by simpa using hne.symm)]
  | cons e rest ih =>
    obtain ⟨k1, v1⟩ := e
    simp only [insertArray]
    split_ifs with h1 h2
    · simp only [lookupArray]
      rw [List.find?_cons_of_neg _ (by simpa using hne.symm)]
    · rfl
    · simp only [lookupArray] at ih ⊢
      by_cases hk : k1 = k'
      · rw [List.find?_cons_of_pos _ (by simpa using hk),
          List.find?_cons_of_pos _ (by simpa using hk)]
      · rw [List.find?_cons_of_neg _ (by simpa using hk),
          List.find?_cons_of_neg _ (by simpa using hk)]
        exact ih

theorem lookupArray_lt_head {k1 : Int} {v1 : SSONContent} {rest : SSONArray} {k : Int}
    (h : ((k1, v1) :: rest).Pairwise (fun x y => x.1 < y.1)) (hk : k < k1) :
    lookupArray ((k1, v1) :: rest) k = none := by
  rw [List.pairwise_cons] at h
  simp only [lookupArray, Option.map_eq_none', List.find?_eq_none, List.mem_cons,
    decide_eq_true_eq]
  intro x hx
  rcases hx with rfl | hx
  · show k1 ≠ k
    omega
  · have := h.1 x hx
    simp only at this
    omega

theorem insertArray_present {a : SSONArray} {k : Int} {w : SSONContent} (v : SSONContent)
    (hs : a.Pairwise (fun x y => x.1 < y.1)) (h : lookupArray a k = some w) :
    insertArray a k v = a := by
  induction a with
  | nil => simp [lookupArray] at h
  | cons e rest ih =>
    obtain ⟨k1, v1⟩ := e
    simp only [insertArray]
    split_ifs with h1 h2
    · rw [lookupArray_lt_head hs h1] at h
      cases h
    · rfl
    · have hrest : lookupArray rest k = some w := by
        simp only [lookupArray] at h ⊢
        rw [List.find?_cons_of_neg _ (by simpa using fun hc : k1 = k => h2 hc.symm)] at h
        exact h
      rw [ih (List.pairwise_cons.mp hs).2 hrest]

theorem insertArray_absent (a : SSONArray) (k : Int) (v : SSONContent)
    (h : lookupArray a k = none) : lookupArray (insertArray a k v) k = some v := by
  induction a with
  | nil => simp [insertArray, lookupArray]
  | cons e rest ih =>
    obtain ⟨k1, v1⟩ := e
    have hne : k1 ≠ k := by
      intro hc
      simp [lookupArray, hc] at h
    have hrest : lookupArray rest k = none := by
      simp only [lookupArray] at h ⊢
      rw [List.find?_cons_of_neg _ (by simpa using hne)] at h
      exact h
    simp only [insertArray]
    split_ifs with h1 h2
    · simp [lookupArray]
    · exact absurd h2.symm hne
    · have := ih hrest
      simp only [lookupArray] at this ⊢
      rw [List.find?_cons_of_neg _ (by simpa using hne)]
      exact this

theorem insertArray_keeps {a : SSONArray} (k : Int) (v : SSONContent)
    (hs : a.Pairwise (fun x y => x.1 < y.1)) {k' : Int} {w : SSONContent}
    (h : lookupArray a k' = some w) : lookupArray (insertArray a k v) k' = some w := by
  by_cases hk : k' = k
  · subst hk
    rw [insertArray_present v hs h]
    exact h
  · rw [lookupArray_insertArray_ne a k v hk]
    exact h

theorem insertElement_invariant {kind : Kind} {acc out : Container kind} {key : List Byte}
    {v : SSONContent} (hu : Container.UniqueKeys kind acc)
    (h : insertElement kind acc key v = .value out) :
    Container.UniqueKeys kind out ∧ Container.KeepsEntries kind acc out := by
  cases kind with
  | document =>
    simp only [insertElement, Outcome.value.injEq] at h
    subst h
    exact ⟨insertDocument_nodup acc key v hu, fun k w hk => insertDocument_keeps acc key v hk⟩
  | array =>
    simp only [insertElement] at h
    obtain ⟨id, _, h⟩ := Outcome.bind_eq_value h
    simp only [Outcome.value.injEq] at h
    subst h
    exact ⟨insertArray_sorted id v hu, fun k w hk => insertArray_keeps id v hu hk⟩

theorem extractElement_inserted
    {extract : (k : Kind) → List Byte → Nat → Outcome (Container k)} {kind : Kind}
    {buf : List Byte} {L : Nat} {tag : Byte} {pos : Nat} {acc : Container kind}
    {st : Container kind × Nat}
    (h : extractElement extract kind buf L tag pos acc = .value st) :
    ∃ (key : List Byte) (p1 : Nat) (v : SSONContent),
      readCString buf L pos = (.value key, p1) ∧ keyAccepted kind key = true
        ∧ insertElement kind acc key v = .value st.1 := by
  unfold extractElement at h
  split at h
  · unfold extractSSONString at h
    obtain ⟨name, p1, e1, h⟩ := andThen_eq_value h
    split at h
    · rename_i hacc
      obtain ⟨str, p2, e2, h⟩ := andThen_eq_value h
      obtain ⟨out, hins, h⟩ := Outcome.bind_eq_value h
      cases h
      exact ⟨name, p1, _, e1, hacc, hins⟩
    · simp at h
  · split at h
    · unfold extractSSONEmbbed at h
      obtain ⟨name, p1, e1, h⟩ := andThen_eq_value h
      split at h
      · rename_i hacc
        obtain ⟨dsz, p2, e2, h⟩ := andThen_eq_value h
        obtain ⟨doc, _, h⟩ := Outcome.bind_eq_value h
        obtain ⟨out, hins, h⟩ := Outcome.bind_eq_value h
        cases h
        exact ⟨name, p1, _, e1, hacc, hins⟩
      · simp at h
    · split at h
      · unfold extractSSONArray at h
        obtain ⟨name, p1, e1, h⟩ := andThen_eq_value h
        split at h
        · rename_i hacc
          obtain ⟨dsz, p2, e2, h⟩ := andThen_eq_value h
          obtain ⟨doc, _, h⟩ := Outcome.bind_eq_value h
          obtain ⟨out, hins, h⟩ := Outcome.bind_eq_value h
          cases h
          exact ⟨name, p1, _, e1, hacc, hins⟩
        · simp at h
      · split at h
        · unfold extractSSONInteger at h
          obtain ⟨name, p1, e1, h⟩ := andThen_eq_value h
          split at h
          · rename_i hacc
            obtain ⟨i, p2, e2, h⟩ := andThen_eq_value h
            obtain ⟨out, hins, h⟩ := Outcome.bind_eq_value h
            cases h
            exact ⟨name, p1, _, e1, hacc, hins⟩
          · simp at h
        · simp at h

theorem Container.keepsEntries_refl (kind : Kind) (c : Container kind) :
    Container.KeepsEntries kind c c := by
  cases kind <;> exact fun _ _ h => h

theorem Container.keepsEntries_trans {kind : Kind} {c1 c2 c3 : Container kind}
    (h12 : Container.KeepsEntries kind c1 c2) (h23 : Container.KeepsEntries kind c2 c3) :
    Container.KeepsEntries kind c1 c3 := by
  cases kind <;> exact fun k w h => h23 k w (h12 k w h)

theorem extractLoop_invariant (kind : Kind) (buf : List Byte) (L : Nat) (r : Container kind)
    (c : Nat) :
    ∀ (n pos : Nat) (acc : Container kind), buf.length - pos = n →
      extractLoop kind buf L pos acc = .value (r, c) → Container.UniqueKeys kind acc →
      Container.UniqueKeys kind r ∧ Container.KeepsEntries kind acc r := by
  intro n
  induction n using Nat.strong_induction_on with
  | _ n ih =>
    intro pos acc hn hL hu
    rw [extractLoop_eq] at hL
    by_cases hlt : pos < predSize L
    · rw [if_pos hlt] at hL
      cases htag : buf[pos]? with
      | none => rw [htag] at hL; cases hL
      | some tag =>
        rw [htag] at hL
        simp only at hL
        obtain ⟨st, hel, hrec⟩ := Outcome.bind_eq_value hL
        have hposlt := (List.getElem?_eq_some_iff.mp htag).1
        have hadv := extractElement_value hel
        obtain ⟨key, p1, v, _, _, hins⟩ := extractElement_inserted hel
        obtain ⟨hu', hk'⟩ := insertElement_invariant hu hins
        obtain ⟨hur, hkr⟩ := ih (buf.length - st.2) (by omega) st.2 st.1 rfl hrec hu'
        exact ⟨hur, Container.keepsEntries_trans hk' hkr⟩
    · rw [if_neg hlt] at hL
      cases hL
      exact ⟨hu, Container.keepsEntries_refl kind _⟩

theorem Container.uniqueKeys_empty (kind : Kind) :
    Container.UniqueKeys kind (Container.empty kind) := by
  cases kind
  · exact List.nodup_nil
  · exact List.Pairwise.nil

theorem reaches_uniqueKeys {kind : Kind} {buf : List Byte} {L pos : Nat}
    {acc : Container kind} (h : Reaches kind buf L pos acc) :
    Container.UniqueKeys kind acc := by
  induction h with
  | start => exact Container.uniqueKeys_empty kind
  | step _ _ _ hel ih =>
    obtain ⟨key, p1, v, _, _, hins⟩ := extractElement_inserted hel
    exact (insertElement_invariant ih hins).1

theorem extractSSONMap_invariant {kind : Kind} {buf : List Byte} {L pos : Nat}
    {acc d : Container kind} (hreach : Reaches kind buf L pos acc)
    (hdec : extractSSONMap kind buf L = .value d) :
    Container.UniqueKeys kind d ∧ Container.KeepsEntries kind acc d := by
  obtain ⟨c, hloop, _, _⟩ := extractSSONMap_value_cursor hdec
  rw [extractLoop_of_reaches hreach] at hloop
  exact extractLoop_invariant kind buf L d c _ pos acc rfl hloop (reaches_uniqueKeys hreach)


theorem duplicate_document_key {buf : List Byte} {L pos p1 : Nat} {acc d : SSONDocument}
    {tag : Byte} {st : SSONDocument × Nat} {key : List Byte}
    (hreach : Reaches .document buf L pos acc) (hlt : pos < predSize L)
    (htag : buf[pos]? = some tag)
    (hel : extractElement extractSSONMap .document buf L tag (pos + 1) acc = .value st)
    (hkey : readCString buf L (pos + 1) = (.value key, p1))
    (hdec : extractSSONMap .document buf L = .value d) :
    (∀ w, lookupDocument acc key = some w → st.1 = acc ∧ lookupDocument d key = some w)
      ∧ (lookupDocument acc key = none →
          ∃ v, lookupDocument st.1 key = some v ∧ lookupDocument d key = some v) := by
  obtain ⟨key', p1', v, hk', _, hins⟩ := extractElement_inserted hel
  rw [hkey] at hk'
  cases hk'
  simp only [insertElement, Outcome.value.injEq] at hins
  have hstep : Reaches .document buf L st.2 st.1 := Reaches.step hreach hlt htag hel
  constructor
  · intro w hw
    exact ⟨by rw [← hins, insertDocument_present v hw],
      (extractSSONMap_invariant hreach hdec).2 key w hw⟩
  · intro hnone
    have hv : lookupDocument st.1 key = some v := by
      rw [← hins]
      exact (insertDocument_absent v hnone).2
    exact ⟨v, hv, (extractSSONMap_invariant hstep hdec).2 key v hv⟩

theorem duplicate_array_key {buf : List Byte} {L pos p1 : Nat} {acc d : SSONArray}
    {tag : Byte} {st : SSONArray × Nat} {key : List Byte}
    (hreach : Reaches .array buf L pos acc) (hlt : pos < predSize L)
    (htag : buf[pos]? = some tag)
    (hel : extractElement extractSSONMap .array buf L tag (pos + 1) acc = .value st)
    (hkey : readCString buf L (pos + 1) = (.value key, p1))
    (hdec : extractSSONMap .array buf L = .value d) :
    ∃ id : Int, stoi key = .value id
      ∧ (∀ w, lookupArray acc id = some w → st.1 = acc ∧ lookupArray d id = some w)
      ∧ (lookupArray acc id = none →
          ∃ v, lookupArray st.1 id = some v ∧ lookupArray d id = some v) := by
  obtain ⟨key', p1', v, hk', _, hins⟩ := extractElement_inserted hel
  rw [hkey] at hk'
  cases hk'
  simp only [insertElement] at hins
  obtain ⟨id, hid, hins⟩ := Outcome.bind_eq_value hins
  simp only [Outcome.value.injEq] at hins
  have hstep : Reaches .array buf L st.2 st.1 := Reaches.step hreach hlt htag hel
  have hsorted : acc.Pairwise (fun x y => x.1 < y.1) := reaches_uniqueKeys hreach
  refine ⟨id, hid, ?_, ?_⟩
  · intro w hw
    exact ⟨by rw [← hins, insertArray_present v hsorted hw],
      (extractSSONMap_invariant hreach hdec).2 id w hw⟩
  · intro hnone
    have hv : lookupArray st.1 id = some v := by
      rw [← hins]
      exact insertArray_absent acc id v hnone
    exact ⟨v, hv, (extractSSONMap_invariant hstep hdec).2 id v hv⟩

/-- C19: in a decode that succeeds, the container has one entry per key (the
names of a document are pairwise distinct, the ids of an array strictly
ascending), and every entry present at a state reached by the loop is in the
result with the same value.  An element whose key (for an array: the number
`std::stoi` gives, the same for `"5"` and `"05"`) is already present is parsed,
moves the cursor on and leaves the container as it is; an element whose key is
new gives the value found in the result.  So the value kept for a key is the
one of the first element that carries it. -/
theorem duplicate_keys_keep_first :
    (∀ (buf : List Byte) (L pos : Nat) (acc d : SSONDocument),
        Reaches .document buf L pos acc → extractSSONMap .document buf L = .value d →
        (d.map Prod.fst).Nodup
          ∧ ∀ k w, lookupDocument acc k = some w → lookupDocument d k = some w)
      ∧ (∀ (buf : List Byte) (L pos : Nat) (acc d : SSONArray),
        Reaches .array buf L pos acc → extractSSONMap .array buf L = .value d →
        d.Pairwise (fun x y => x.1 < y.1)
          ∧ ∀ k w, lookupArray acc k = some w → lookupArray d k = some w)
      ∧ (∀ (buf : List Byte) (L pos p1 : Nat) (acc d : SSONDocument) (tag : Byte)
          (st : SSONDocument × Nat) (key : List Byte),
        Reaches .document buf L pos acc → pos < predSize L → buf[pos]? = some tag →
        extractElement extractSSONMap .document buf L tag (pos + 1) acc = .value st →
        readCString buf L (pos + 1) = (.value key, p1) →
        extractSSONMap .document buf L = .value d →
        pos + 1 < st.2
          ∧ (∀ w, lookupDocument acc key = some w →
              st.1 = acc ∧ lookupDocument d key = some w)
          ∧ (lookupDocument acc key = none →
              ∃ v, lookupDocument st.1 key = some v ∧ lookupDocument d key = some v))
      ∧ (∀ (buf : List Byte) (L pos p1 : Nat) (acc d : SSONArray) (tag : Byte)
          (st : SSONArray × Nat) (key : List Byte),
        Reaches .array buf L pos acc → pos < predSize L → buf[pos]? = some tag →
        extractElement extractSSONMap .array buf L tag (pos + 1) acc = .value st →
        readCString buf L (pos + 1) = (.value key, p1) →
        extractSSONMap .array buf L = .value d →
        pos + 1 < st.2
          ∧ ∃ id : Int, stoi key = .value id
            ∧ (∀ w, lookupArray acc id = some w → st.1 = acc ∧ lookupArray d id = some w)
            ∧ (lookupArray acc id = none →
                ∃ v, lookupArray st.1 id = some v ∧ lookupArray d id = some v))
      ∧ (stoi [53] = .value 5 ∧ stoi [48, 53] = .value 5)
      ∧ extractSSONMap .document [16, 120, 0, 1, 0, 0, 0, 16, 120, 0, 2, 0, 0, 0, 0] 15
          = .value [([120], .int 1)]
      ∧ extractSSONMap .array [16, 53, 0, 1, 0, 0, 0, 16, 48, 53, 0, 2, 0, 0, 0, 0] 16
          = .value [(5, .int 1)] := by
  refine ⟨?_, ?_, ?_, ?_, ⟨rfl, rfl⟩, rfl, rfl⟩
  · intro buf L pos acc d hreach hdec
    exact extractSSONMap_invariant hreach hdec
  · intro buf L pos acc d hreach hdec
    exact extractSSONMap_invariant hreach hdec
  · intro buf L pos p1 acc d tag st key hreach hlt htag hel hkey hdec
    exact ⟨extractElement_value hel, duplicate_document_key hreach hlt htag hel hkey hdec⟩
  · intro buf L pos p1 acc d tag st key hreach hlt htag hel hkey hdec
    exact ⟨extractElement_value hel, duplicate_array_key hreach hlt htag hel hkey hdec⟩


/-! ## C11: the rendering -/

/-- C11: `toString(Integer(v))` is `"[int] "` followed by the decimal rendering
of `v` (a minus sign and the digits of `-v` when `v < 0`; the digits give back
the value), `toString(Text(s))` is `"[string] "` followed by `s`,
`toString(Array(a))` is the concatenation of one fragment
`{'key': 'toString(child)'}` per entry, in the order of the entries, which is
the strictly ascending order of the keys for an array built by insertions,
as every decoded array is; so
two arrays built from the same entries with distinct keys inserted in
different orders are equal and render alike (the two regions at the end hold
the entries `"2": 1` and `"1": 2` in both orders), and the empty array renders
as the empty string. -/
theorem toString_rendering :
    (∀ v : Int, SSONContent.toString (.int v) = bytesOf "[int] " ++ to_string v)
      ∧ (∀ n : Nat, decimalValue (to_string (n : Int)) = n)
      ∧ (∀ v : Int, v < 0 → to_string v = 45 :: to_string (-v))
      ∧ (∀ s : List Byte, SSONContent.toString (.string s) = bytesOf "[string] " ++ s)
      ∧ (∀ a : SSONArray, SSONContent.toString (.array a)
          = (a.map fun e => fragmentOpen ++ to_string e.1 ++ fragmentMiddle
              ++ e.2.toString ++ fragmentClose).flatten)
      ∧ (∀ es : List (Int × SSONContent),
          (insertAllArray [] es).Pairwise (fun x y => x.1 < y.1))
      ∧ (∀ (buf : List Byte) (L : Nat) (a : SSONArray), extractSSONMap .array buf L = .value a →
          a.Pairwise (fun x y => x.1 < y.1))
      ∧ (∀ es es' : List (Int × SSONContent), es.Perm es' → (es.map Prod.fst).Nodup →
          insertAllArray [] es = insertAllArray [] es'
            ∧ SSONContent.toString (.array (insertAllArray [] es))
              = SSONContent.toString (.array (insertAllArray [] es')))
      ∧ SSONContent.toString (.array []) = []
      ∧ fragmentOpen ++ to_string 5 ++ fragmentMiddle ++ SSONContent.toString (.int (-7))
          ++ fragmentClose = bytesOf "\x7b\x275\x27: \x27[int] -7\x27\x7d"
      ∧ (extractSSONMap .array [16, 50, 0, 1, 0, 0, 0, 16, 49, 0, 2, 0, 0, 0, 0] 15
          = .value [(1, .int 2), (2, .int 1)]
        ∧ extractSSONMap .array [16, 49, 0, 2, 0, 0, 0, 16, 50, 0, 1, 0, 0, 0, 0] 15
          = .value [(1, .int 2), (2, .int 1)]) := by
  refine ⟨fun _ => rfl, decimalValue_to_string, ?_, fun _ => rfl, ?_, ?_,
    fun buf L a h => (extractSSONMap_invariant Reaches.start h).1, ?_, rfl, rfl, ⟨rfl, rfl⟩⟩
  · intro v hv
    unfold to_string
    rw [if_pos hv, if_neg (by omega), Int.natAbs_neg]
  · intro a
    show toStringArray a = _
    rw [toStringArray_eq]
    rfl
  · intro es
    exact insertAllArray_sorted es [] List.Pairwise.nil
  · intro es es' hp hnd
    have := insertAllArray_perm hp hnd []
    exact ⟨this, by rw [this]⟩


/-! ## C12: `readInt32` -/

theorem toInt32_bounds (u : Nat) :
    -2 ^ 31 ≤ toInt32 u ∧ toInt32 u < 2 ^ 31 ∧ toInt32 u % 2 ^ 32 = ((u % 2 ^ 32 : Nat) : Int)
      ∧ (toInt32 u < 0 ↔ 2 ^ 31 ≤ u % 2 ^ 32) := by
  unfold toInt32
  split <;> refine ⟨?_, ?_, ?_, ?_⟩ <;> omega

theorem readInt32_of_bytes {buf : List Byte} {L p : Nat} {b0 b1 b2 b3 : Byte}
    (hL : p + 4 ≤ L) (h0 : buf[p]? = some b0) (h1 : buf[p + 1]? = some b1)
    (h2 : buf[p + 2]? = some b2) (h3 : buf[p + 3]? = some b3) :
    readInt32 buf L p
      = (.value (toInt32 (b0.val + 2 ^ 8 * b1.val + 2 ^ 16 * b2.val + 2 ^ 24 * b3.val)),
          p + 4) := by
  unfold readInt32
  rw [if_neg (by omega), h0, h1, h2, h3]
  simp only
  rw [or_shift_eq_sum _ _ _ _ (Fin.isLt _) (Fin.isLt _) (Fin.isLt _)]

/-- C12: `readInt32` returns `nullopt` exactly when `L < p + 4`, and then leaves
the cursor at `p`; when the buffer holds the declared length it otherwise
returns a value; with the bytes `b0 .. b3` at the offsets `p .. p + 3` the
value is the signed 32-bit integer whose two's-complement pattern is
`b0 + 2^8 b1 + 2^16 b2 + 2^24 b3`, negative exactly when `b3 ≥ 128`, and the
cursor becomes `p + 4`. -/
theorem readInt32_spec (buf : List Byte) (L p : Nat) :
    ((readInt32 buf L p).1 = .nullopt ↔ L < p + 4)
      ∧ (L < p + 4 → readInt32 buf L p = (.nullopt, p))
      ∧ (L ≤ buf.length → ((readInt32 buf L p).1.isValue = true ↔ p + 4 ≤ L))
      ∧ (∀ b0 b1 b2 b3 : Byte, p + 4 ≤ L → buf[p]? = some b0 → buf[p + 1]? = some b1 →
          buf[p + 2]? = some b2 → buf[p + 3]? = some b3 →
          ∃ v : Int, readInt32 buf L p = (.value v, p + 4)
            ∧ -2 ^ 31 ≤ v ∧ v < 2 ^ 31
            ∧ v % 2 ^ 32
                = ((b0.val + 2 ^ 8 * b1.val + 2 ^ 16 * b2.val + 2 ^ 24 * b3.val : Nat) : Int)
            ∧ (v < 0 ↔ 128 ≤ b3.val)) := by
  have hfail : L < p + 4 → readInt32 buf L p = (.nullopt, p) := by
    intro h
    unfold readInt32
    rw [if_pos h]
  have hbytes : ∀ b0 b1 b2 b3 : Byte, p + 4 ≤ L → buf[p]? = some b0 → buf[p + 1]? = some b1 →
      buf[p + 2]? = some b2 → buf[p + 3]? = some b3 →
      ∃ v : Int, readInt32 buf L p = (.value v, p + 4)
        ∧ -2 ^ 31 ≤ v ∧ v < 2 ^ 31
        ∧ v % 2 ^ 32
            = ((b0.val + 2 ^ 8 * b1.val + 2 ^ 16 * b2.val + 2 ^ 24 * b3.val : Nat) : Int)
        ∧ (v < 0 ↔ 128 ≤ b3.val) := by
    intro b0 b1 b2 b3 hL h0 h1 h2 h3
    refine ⟨_, readInt32_of_bytes hL h0 h1 h2 h3, ?_⟩
    have hb := toInt32_bounds (b0.val + 2 ^ 8 * b1.val + 2 ^ 16 * b2.val + 2 ^ 24 * b3.val)
    have hlt0 := b0.isLt
    have hlt1 := b1.isLt
    have hlt2 := b2.isLt
    have hlt3 := b3.isLt
    have hmod : (b0.val + 2 ^ 8 * b1.val + 2 ^ 16 * b2.val + 2 ^ 24 * b3.val) % 2 ^ 32
        = b0.val + 2 ^ 8 * b1.val + 2 ^ 16 * b2.val + 2 ^ 24 * b3.val :=
      Nat.mod_eq_of_lt (by omega)
    rw [hmod] at hb
    refine ⟨hb.1, hb.2.1, hb.2.2.1, ?_⟩
    rw [hb.2.2.2]
    omega
  refine ⟨⟨?_, fun h => by rw [hfail h]⟩, hfail, ?_, hbytes⟩
  · intro h
    by_contra hge
    unfold readInt32 at h
    rw [if_neg hge] at h
    split at h <;> simp at h
  · intro hlen
    constructor
    · intro hv
      by_contra hlt
      rw [hfail (by omega)] at hv
      simp [Outcome.isValue] at hv
    · intro hL
      have e0 : p < buf.length := by omega
      have e1 : p + 1 < buf.length := by omega
      have e2 : p + 2 < buf.length := by omega
      have e3 : p + 3 < buf.length := by omega
      rw [readInt32_of_bytes hL (List.getElem?_eq_getElem e0) (List.getElem?_eq_getElem e1)
        (List.getElem?_eq_getElem e2) (List.getElem?_eq_getElem e3)]
      rfl

/-! ## C13: `readCString`, success -/

/-- C13: when the smallest offset `q ≥ p` that holds the byte 0 is below `L`,
`readCString` returns the bytes at the offsets `p .. q - 1` (the empty string
when `q = p`), which hold no zero byte, and leaves the cursor at `q + 1`. -/
theorem readCString_success (buf : List Byte) (L p q : Nat) (hpq : p ≤ q) (hq : q < L)
    (hzero : buf[q]? = some ENDCHAR)
    (hmin : ∀ i, p ≤ i → i < q → buf[i]? ≠ some ENDCHAR) :
    readCString buf L p = (.value ((buf.drop p).take (q - p)), q + 1)
      ∧ ENDCHAR ∉ (buf.drop p).take (q - p)
      ∧ ((buf.drop p).take (q - p)).length = q - p
      ∧ (∀ i, i < q - p → ((buf.drop p).take (q - p))[i]? = buf[p + i]?) := by
  have hqlen : q < buf.length := (List.getElem?_eq_some_iff.mp hzero).1
  have hlen : ((buf.drop p).take (q - p)).length = q - p := by
    simp only [List.length_take, List.length_drop]
    omega
  have hget : ∀ i, i < q - p → ((buf.drop p).take (q - p))[i]? = buf[p + i]? := by
    intro i hi
    rw [List.getElem?_take_of_lt hi, List.getElem?_drop]
  have hz : ENDCHAR ∉ (buf.drop p).take (q - p) := by
    intro hmem
    obtain ⟨i, hi, hval⟩ := List.getElem_of_mem hmem
    rw [hlen] at hi
    have h1 := hget i hi
    rw [List.getElem?_eq_getElem (by rw [hlen]; exact hi), hval] at h1
    exact hmin (p + i) (by omega) (by omega) h1.symm
  have hdrop : buf.drop p = (buf.drop p).take (q - p) ++ ENDCHAR :: buf.drop (q + 1) := by
    have h1 : (buf.drop p).drop (q - p) = buf.drop q := by
      rw [List.drop_drop]
      congr 1
      omega
    have h2 : buf.drop q = ENDCHAR :: buf.drop (q + 1) := by
      rw [List.drop_eq_getElem_cons hqlen]
      congr 1
      have := List.getElem?_eq_getElem hqlen
      rw [hzero] at this
      exact (Option.some.inj this).symm
    rw [← h2, ← h1, List.take_append_drop]
  have hres := readCString_key (L := L) hdrop hz (by rw [hlen]; omega)
  rw [hlen] at hres
  refine ⟨?_, hz, hlen, hget⟩
  rw [hres]
  congr 1
  omega

/-- C13, witness: the key `"ab"` at the cursor 1 of `[16, 'a', 'b', 0, 7]`. -/
theorem readCString_success_witness :
    readCString [16, 97, 98, 0, 7] 5 1 = (.value [97, 98], 4) :=
  (readCString_success [16, 97, 98, 0, 7] 5 1 3 (by decide) (by decide) rfl
    (by
      intro i h1 h2
      have : i = 1 ∨ i = 2 := by omega
      rcases this with rfl | rfl <;> decide)).1


/-! ## C14: `readCString`, terminator not found before the declared end -/

/-- C14, at the failing input: `readCString` reads `ssonContent[position]`
before it compares `position` with `ssonLength`.  On the slice `[16, 'x', 0]`
with the declared length 2 and the cursor 1 no offset in `1 .. 1` holds a zero
byte, and the call returns `"x"` with the cursor 3, because the byte at offset
`L = 2` is 0; with the cursor at `L` or beyond a zero byte gives the empty
string; on a buffer that ends at `L` the byte at offset `L` is read outside.
The first call is made while `importSSON` decodes the file of 14 bytes below. -/
theorem readCString_terminator_at_length :
    readCString [16, 120, 0] 2 1 = (.value [120], 3)
      ∧ (∀ q, 1 ≤ q → q < 2 → ([16, 120, 0] : List Byte)[q]? ≠ some ENDCHAR)
      ∧ readCString [65, 0] 1 0 = (.value [65], 2)
      ∧ readCString [0] 0 0 = (.value [], 1)
      ∧ readCString [16, 120] 2 1 = (.outOfBounds, 2)
      ∧ importSSON (some [14, 0, 0, 0, 3, 97, 0, 6, 0, 0, 0, 16, 120, 0]) = .nullopt := by
  refine ⟨rfl, ?_, rfl, rfl, rfl, rfl⟩
  intro q h1 h2
  have : q = 1 := by omega
  subst this
  decide

/-! ## C15: `readString` with a positive count -/

theorem readString_of_count {buf : List Byte} {L p : Nat} {n : Int}
    (hcount : readInt32 buf L p = (.value n, p + 4)) (hpos : 1 ≤ n) (hlt : n < 2 ^ 31) :
    readString buf L p
      = if (p + 4 + n.toNat) % 2 ^ 64 > L then (.nullopt, p + 4)
        else if ((buf.drop (p + 4)).take (n.toNat - 1)).length < n.toNat - 1 then
          (.outOfBounds, p + 4 + ((buf.drop (p + 4)).take (n.toNat - 1)).length)
        else
          match buf[p + 4 + (n.toNat - 1)]? with
          | none => (.outOfBounds, p + 4 + (n.toNat - 1))
          | some b =>
            if b ≠ ENDCHAR then (.nullopt, p + 4 + (n.toNat - 1))
            else (.value ((buf.drop (p + 4)).take (n.toNat - 1)), p + 4 + (n.toNat - 1) + 1) := by
  have hsize : toSize n = n.toNat := by
    unfold toSize; omega
  have hpred : predSize n.toNat = n.toNat - 1 := by
    unfold predSize
    rw [if_neg (by omega)]
  unfold readString
  rw [hcount]
  simp only [hsize, hpred]

/-- C15: with `p + 4 ≤ L`, the bytes `b0 .. b3` at `p .. p + 3` giving the count
`n ≥ 1`, in a buffer shorter than `2^64` bytes, `readString` returns a value
exactly when `p + 4 + n ≤ L` and the byte at the offset `p + 4 + n - 1` is 0;
the value is then the `n - 1` bytes at the offsets `p + 4 .. p + 4 + n - 2`,
zero bytes included, and the cursor becomes `p + 4 + n`.  With `L < p + 4` the
call returns `nullopt`. -/
theorem readString_positive_count (buf : List Byte) (L p : Nat) (b0 b1 b2 b3 : Byte) (n : Int)
    (hL : p + 4 ≤ L) (h0 : buf[p]? = some b0) (h1 : buf[p + 1]? = some b1)
    (h2 : buf[p + 2]? = some b2) (h3 : buf[p + 3]? = some b3)
    (hn : n = toInt32 (b0.val + 2 ^ 8 * b1.val + 2 ^ 16 * b2.val + 2 ^ 24 * b3.val))
    (hpos : 1 ≤ n) (hbuf : buf.length < 2 ^ 64) :
    ((readString buf L p).1.isValue = true
        ↔ (p + 4 + n.toNat ≤ L ∧ buf[p + 4 + n.toNat - 1]? = some ENDCHAR))
      ∧ (p + 4 + n.toNat ≤ L → buf[p + 4 + n.toNat - 1]? = some ENDCHAR →
          readString buf L p
              = (.value ((buf.drop (p + 4)).take (n.toNat - 1)), p + 4 + n.toNat)
            ∧ ((buf.drop (p + 4)).take (n.toNat - 1)).length = n.toNat - 1
            ∧ ∀ i, i < n.toNat - 1 →
                ((buf.drop (p + 4)).take (n.toNat - 1))[i]? = buf[p + 4 + i]?)
      ∧ (∀ L' p' : Nat, L' < p' + 4 → readString buf L' p' = (.nullopt, p')) := by
  have hcount : readInt32 buf L p = (.value n, p + 4) := by
    rw [hn]
    exact readInt32_of_bytes hL h0 h1 h2 h3
  have hlt : n < 2 ^ 31 := by
    rw [hn]
    exact (toInt32_bounds _).2.1
  have hform := readString_of_count hcount hpos hlt
  have hn1 : n.toNat - 1 + 1 = n.toNat := by omega
  have hgood : p + 4 + n.toNat ≤ L → buf[p + 4 + n.toNat - 1]? = some ENDCHAR →
      readString buf L p = (.value ((buf.drop (p + 4)).take (n.toNat - 1)), p + 4 + n.toNat)
        ∧ ((buf.drop (p + 4)).take (n.toNat - 1)).length = n.toNat - 1
        ∧ ∀ i, i < n.toNat - 1 →
            ((buf.drop (p + 4)).take (n.toNat - 1))[i]? = buf[p + 4 + i]? := by
    intro hle hterm
    have hidx : p + 4 + n.toNat - 1 = p + 4 + (n.toNat - 1) := by omega
    rw [hidx] at hterm
    have hlenb := (List.getElem?_eq_some_iff.mp hterm).1
    have hlen : ((buf.drop (p + 4)).take (n.toNat - 1)).length = n.toNat - 1 := by
      simp only [List.length_take, List.length_drop]
      omega
    have hmod : ¬ (p + 4 + n.toNat) % 2 ^ 64 > L := by
      have := Nat.mod_le (p + 4 + n.toNat) (2 ^ 64)
      omega
    refine ⟨?_, hlen, ?_⟩
    · rw [hform, if_neg hmod, if_neg (by omega), hterm]
      simp only [ne_eq, not_true_eq_false, if_false]
      congr 1
      omega
    · intro i hi
      rw [List.getElem?_take_of_lt hi, List.getElem?_drop]
  refine ⟨⟨?_, fun h => by rw [(hgood h.1 h.2).1]; rfl⟩, hgood, ?_⟩
  · intro hv
    rw [hform] at hv
    split at hv
    · simp [Outcome.isValue] at hv
    · rename_i hmod
      split at hv
      · simp [Outcome.isValue] at hv
      · split at hv
        · simp [Outcome.isValue] at hv
        · rename_i b hb
          split at hv
          · simp [Outcome.isValue] at hv
          · rename_i hb0
            simp only [ne_eq, not_not] at hb0
            have hlenb := (List.getElem?_eq_some_iff.mp hb).1
            have hnowrap : (p + 4 + n.toNat) % 2 ^ 64 = p + 4 + n.toNat :=
              Nat.mod_eq_of_lt (by omega)
            rw [hnowrap] at hmod
            have hidx : p + 4 + n.toNat - 1 = p + 4 + (n.toNat - 1) := by omega
            exact ⟨by omega, by rw [hidx, hb, hb0]⟩
  · intro L' p' h
    unfold readString readInt32
    rw [if_pos h]

/-- C15, witness: the count 3 and the text `"hi"` at the cursor 0. -/
theorem readString_positive_count_witness :
    readString [3, 0, 0, 0, 104, 105, 0] 7 0 = (.value [104, 105], 7) :=
  ((readString_positive_count [3, 0, 0, 0, 104, 105, 0] 7 0 3 0 0 0 3 (by decide) rfl rfl rfl
    rfl rfl (by decide) (by decide)).2.1 (by decide) rfl).1

/-! ## C16: reads beyond the declared length -/

/-- C16, at the failing inputs: on a buffer that holds exactly the declared
length a read at an offset `≥ L` is a read outside the buffer.  `readCString`
reads the byte at offset `L` (same defect as C14); `readString` with the count
0, or with a negative count such as -1, passes the test
`position + strSize > ssonLength` and runs its loop `(size_t) strSize - 1` times
from `position`, past the declared length and the end of the buffer, instead of
returning `nullopt`; the file of 12 bytes below, whose text element has the
count 0, makes `importSSON` do so. -/
theorem primitives_read_past_length :
    readCString [65] 1 0 = (.outOfBounds, 1)
      ∧ readString [0, 0, 0, 0] 4 0 = (.outOfBounds, 4)
      ∧ readString [0, 0, 0, 0, 65] 5 0 = (.outOfBounds, 5)
      ∧ readString [255, 255, 255, 255, 65, 0] 6 0 = (.outOfBounds, 6)
      ∧ readInt32 [255, 255, 255, 255, 65, 0] 6 0 = (.value (-1), 4)
      ∧ importSSON (some [12, 0, 0, 0, 2, 120, 0, 0, 0, 0, 0, 0]) = .outOfBounds :=
  ⟨rfl, rfl, rfl, rfl, rfl, rfl⟩


/-! ## C18: declared length 0 -/

theorem readInt32_zero_length (buf : List Byte) (p : Nat) :
    readInt32 buf 0 p = (.nullopt, p) := by
  unfold readInt32
  rw [if_pos (by omega)]

theorem readString_zero_length (buf : List Byte) (p : Nat) :
    readString buf 0 p = (.nullopt, p) := by
  unfold readString
  rw [readInt32_zero_length]

theorem readCString_zero_length (buf : List Byte) (p : Nat) :
    (∃ q, readCString buf 0 p = (.value [], q)) ∨ (readCString buf 0 p).1 = .nullopt
      ∨ ((readCString buf 0 p).1 = .outOfBounds ∧ buf.length ≤ p) := by
  unfold readCString
  cases hd : buf.drop p with
  | nil =>
    right; right
    exact ⟨rfl, List.drop_eq_nil_iff.mp hd⟩
  | cons b rest =>
    rw [readCStringLoop]
    by_cases hb : b ≠ ENDCHAR
    · right; left
      rw [if_pos hb, if_pos (Nat.zero_le _)]
    · left
      rw [if_neg hb]
      exact ⟨_, rfl⟩

theorem extractElement_zero_length
    (extract : (k : Kind) → List Byte → Nat → Outcome (Container k)) (kind : Kind)
    (buf : List Byte) (tag : Byte) (pos : Nat) (acc : Container kind) :
    extractElement extract kind buf 0 tag pos acc = .nullopt
      ∨ (extractElement extract kind buf 0 tag pos acc = .outOfBounds ∧ buf.length ≤ pos) := by
  have hkey := readCString_zero_length buf pos
  unfold extractElement extractSSONString extractSSONEmbbed extractSSONArray extractSSONInteger
  rcases hkey with ⟨q, hq⟩ | hnull | ⟨hoob, hlen⟩
  · left
    rw [hq]
    simp only [andThen_value, readInt32_zero_length, readString_zero_length]
    split_ifs <;> rfl
  · left
    simp only [andThen_nullopt _ hnull, ite_self]
  · have hand : ∀ {β : Type} (f : List Byte → Nat → Outcome β),
        andThen (readCString buf 0 pos) f = .outOfBounds := by
      intro β f
      unfold andThen
      rw [hoob]
      rfl
    simp only [hand]
    split_ifs
    · exact Or.inr ⟨rfl, hlen⟩
    · exact Or.inr ⟨rfl, hlen⟩
    · exact Or.inr ⟨rfl, hlen⟩
    · exact Or.inr ⟨rfl, hlen⟩
    · exact Or.inl rfl

/-- C18: with the declared length 0 the loop bound `ssonLength - 1` wraps to
`SIZE_MAX`, the loop body runs, `readInt32` and `readString` return `nullopt` at
every cursor, and `extractSSONMap` returns `nullopt` for both kinds; on a buffer
of fewer than two bytes the tag or the key may be read outside the buffer
instead.  The buffer `[0]` gives the empty container with `L = 1` and `nullopt`
with `L = 0`. -/
theorem zero_length_never_decodes (kind : Kind) (buf : List Byte) :
    (extractSSONMap kind buf 0 = .nullopt ∨ extractSSONMap kind buf 0 = .outOfBounds)
      ∧ (2 ≤ buf.length → extractSSONMap kind buf 0 = .nullopt)
      ∧ predSize 0 = 2 ^ 64 - 1
      ∧ (∀ p, readInt32 buf 0 p = (.nullopt, p))
      ∧ (∀ p, readString buf 0 p = (.nullopt, p))
      ∧ extractSSONMap kind [0] 1 = .value (Container.empty kind)
      ∧ extractSSONMap kind [0] 0 = .nullopt := by
  have hmain : extractSSONMap kind buf 0 = .nullopt
      ∨ (extractSSONMap kind buf 0 = .outOfBounds ∧ buf.length ≤ 1) := by
    rw [extractSSONMap_eq, extractLoop_eq, if_pos (by decide)]
    cases htag : buf[0]? with
    | none =>
      right
      exact ⟨rfl, by have := List.getElem?_eq_none_iff.mp htag; omega⟩
    | some tag =>
      simp only
      rcases extractElement_zero_length extractSSONMap kind buf tag (0 + 1)
        (Container.empty kind) with h | ⟨h, hlen⟩
      · left
        rw [h]
        rfl
      · right
        rw [h]
        exact ⟨rfl, hlen⟩
  refine ⟨?_, ?_, rfl, readInt32_zero_length buf, readString_zero_length buf, ?_, ?_⟩
  · rcases hmain with h | ⟨h, _⟩
    · exact Or.inl h
    · exact Or.inr h
  · intro hlen
    rcases hmain with h | ⟨_, h⟩
    · exact h
    · omega
  · cases kind <;> rfl
  · cases kind <;> rfl

/-! ## C17: embedded sub-length below 5 -/

theorem isValue_bind_false {α β : Type} {o : Outcome α} (f : α → Outcome β)
    (h : o.isValue = false) : (o.bind f).isValue = false := by
  cases o with
  | value a => simp [Outcome.isValue] at h
  | _ => rfl

theorem extractSSONMap_short_header {k : Kind} {slice : List Byte} {D : Int}
    (hlen : slice.length < 2 ^ 63) (hlo : -2 ^ 31 ≤ D) (hD5 : D < 5) :
    (extractSSONMap k slice (toSize (D - 4))).isValue = false := by
  cases hres : extractSSONMap k slice (toSize (D - 4)) with
  | value d =>
    exfalso
    obtain ⟨c, _, hc, hterm⟩ := extractSSONMap_value_cursor hres
    have hcl := (List.getElem?_eq_some_iff.mp hterm).1
    apply hc
    unfold predSize toSize SIZE_MAX
    split <;> omega
  | _ => rfl

/-- C17: in a buffer shorter than `2^63` bytes, for both enclosing kinds, an
element with tag 3 or 4 reached by the loop whose key is read and whose
declared sub-length `D` is below 5 makes the enclosing decode give no value: it
returns `nullopt`, or ends on a read outside the buffer or on the exception of
`std::stoi`. -/
theorem bad_embedded_length_rejected (kind : Kind) (buf : List Byte) (L pos p1 p2 : Nat)
    (acc : Container kind) (tag : Byte) (key : List Byte) (D : Int)
    (hbuf : buf.length < 2 ^ 63) (hreach : Reaches kind buf L pos acc)
    (hlt : pos < predSize L) (htag : buf[pos]? = some tag)
    (htags : tag = EMBEDDED ∨ tag = ARRAY)
    (hkey : readCString buf L (pos + 1) = (.value key, p1))
    (hD : readInt32 buf L p1 = (.value D, p2)) (hD5 : D < 5) :
    (extractSSONMap kind buf L).isValue = false
      ∧ (extractSSONMap kind buf L = .nullopt ∨ extractSSONMap kind buf L = .outOfBounds
          ∨ extractSSONMap kind buf L = .thrown)
      ∧ (extractSSONMap .document (buf.drop p2) (toSize (D - 4))).isValue = false
      ∧ (extractSSONMap .array (buf.drop p2) (toSize (D - 4))).isValue = false := by
  have hlo := (readInt32_lt hD).1
  have hslice : (buf.drop p2).length < 2 ^ 63 := by
    simp only [List.length_drop]; omega
  have hdoc := extractSSONMap_short_header (k := .document) hslice hlo hD5
  have harr := extractSSONMap_short_header (k := .array) hslice hlo hD5
  have hel : (extractElement extractSSONMap kind buf L tag (pos + 1) acc).isValue = false := by
    by_cases hacc : keyAccepted kind key = true
    · rcases htags with h | h
      · rw [h, extractSSONEmbbed_eq acc hkey hacc hD]
        exact isValue_bind_false _ hdoc
      · rw [h, extractSSONArray_eq acc hkey hacc hD]
        exact isValue_bind_false _ harr
    · have hfail : ElementFailure kind buf L tag (pos + 1) :=
        ⟨by rcases htags with h | h <;> simp [h],
          Or.inr ⟨key, p1, hkey, Or.inl (by simpa using hacc)⟩⟩
      rw [extractElement_of_failure acc hfail]
      rfl
  have hval : (extractSSONMap kind buf L).isValue = false := by
    rw [extractSSONMap_of_element hreach hlt htag]
    exact isValue_bind_false _ (isValue_bind_false _ hel)
  refine ⟨hval, ?_, hdoc, harr⟩
  have hfuel := extractSSONMap_ne_outOfFuel kind buf L
  cases hres : extractSSONMap kind buf L with
  | value d => rw [hres] at hval; simp [Outcome.isValue] at hval
  | nullopt => exact Or.inl rfl
  | outOfBounds => exact Or.inr (Or.inl rfl)
  | thrown => exact Or.inr (Or.inr rfl)
  | outOfFuel => exact absurd hres hfuel

/-- C17, witness: the element `"a"` with tag 3 and the sub-length 4. -/
theorem bad_embedded_length_rejected_witness :
    (extractSSONMap .document [3, 97, 0, 4, 0, 0, 0, 0] 8).isValue = false :=
  (bad_embedded_length_rejected .document [3, 97, 0, 4, 0, 0, 0, 0] 8 0 3 7
    ([] : SSONDocument) 3 [97] 4 (by simp) Reaches.start (by decide) rfl (Or.inl rfl) rfl rfl
    (by decide)).1


/-! ## C20: termination -/

theorem extractElement_progress
    {extract : (k : Kind) → List Byte → Nat → Outcome (Container k)} {kind : Kind}
    {buf : List Byte} {L : Nat} {tag : Byte} {pos : Nat} {acc : Container kind}
    {st : Container kind × Nat}
    (h : extractElement extract kind buf L tag pos acc = .value st) :
    pos + 5 ≤ st.2 := by
  unfold extractElement at h
  split at h
  · unfold extractSSONString at h
    obtain ⟨name, p1, e1, h⟩ := andThen_eq_value h
    split at h
    · obtain ⟨str, p2, e2, h⟩ := andThen_eq_value h
      obtain ⟨out, _, h⟩ := Outcome.bind_eq_value h
      have := readCString_value e1
      have := readString_value e2
      cases h; simp only; omega
    · simp at h
  · split at h
    · unfold extractSSONEmbbed at h
      obtain ⟨name, p1, e1, h⟩ := andThen_eq_value h
      split at h
      · obtain ⟨d, p2, e2, h⟩ := andThen_eq_value h
        obtain ⟨doc, _, h⟩ := Outcome.bind_eq_value h
        obtain ⟨out, _, h⟩ := Outcome.bind_eq_value h
        have := readCString_value e1
        have := readInt32_value e2
        cases h; simp only; omega
      · simp at h
    · split at h
      · unfold extractSSONArray at h
        obtain ⟨name, p1, e1, h⟩ := andThen_eq_value h
        split at h
        · obtain ⟨d, p2, e2, h⟩ := andThen_eq_value h
          obtain ⟨doc, _, h⟩ := Outcome.bind_eq_value h
          obtain ⟨out, _, h⟩ := Outcome.bind_eq_value h
          have := readCString_value e1
          have := readInt32_value e2
          cases h; simp only; omega
        · simp at h
      · split at h
        · unfold extractSSONInteger at h
          obtain ⟨name, p1, e1, h⟩ := andThen_eq_value h
          split at h
          · obtain ⟨d, p2, e2, h⟩ := andThen_eq_value h
            obtain ⟨out, _, h⟩ := Outcome.bind_eq_value h
            have := readCString_value e1
            have := readInt32_value e2
            cases h; simp only; omega
          · simp at h
        · simp at h

theorem extractSSONEmbbed_congr_six
    {e1 e2 : (k : Kind) → List Byte → Nat → Outcome (Container k)} {buf : List Byte}
    (hag : AgreeFromSix buf e1 e2) (kind : Kind) (L pos : Nat) (hpos : 1 ≤ pos)
    (acc : Container kind) :
    extractSSONEmbbed e1 kind buf L pos acc = extractSSONEmbbed e2 kind buf L pos acc := by
  unfold extractSSONEmbbed
  apply andThen_congr
  intro name p1 hk
  have := readCString_value hk
  split
  · apply andThen_congr
    intro d p2 e2'
    have := readInt32_value e2'
    rw [hag .document p2 _ (by omega) (by omega)]
  · rfl

theorem extractSSONArray_congr_six
    {e1 e2 : (k : Kind) → List Byte → Nat → Outcome (Container k)} {buf : List Byte}
    (hag : AgreeFromSix buf e1 e2) (kind : Kind) (L pos : Nat) (hpos : 1 ≤ pos)
    (acc : Container kind) :
    extractSSONArray e1 kind buf L pos acc = extractSSONArray e2 kind buf L pos acc := by
  unfold extractSSONArray
  apply andThen_congr
  intro name p1 hk
  have := readCString_value hk
  split
  · apply andThen_congr
    intro d p2 e2'
    have := readInt32_value e2'
    rw [hag .array p2 _ (by omega) (by omega)]
  · rfl

theorem mapLoop_congr_six {e1 e2 : (k : Kind) → List Byte → Nat → Outcome (Container k)}
    {buf : List Byte} (hag : AgreeFromSix buf e1 e2) (kind : Kind) (L : Nat) :
    ∀ (fuel pos : Nat) (acc : Container kind),
      mapLoop e1 kind buf L fuel pos acc = mapLoop e2 kind buf L fuel pos acc := by
  intro fuel
  induction fuel with
  | zero => intro pos acc; rfl
  | succ n ih =>
    intro pos acc
    unfold mapLoop
    split
    · split
      · rfl
      · unfold extractElement
        rw [extractSSONEmbbed_congr_six hag kind L (pos + 1) (by omega),
          extractSSONArray_congr_six hag kind L (pos + 1) (by omega)]
        congr 1
        funext st
        exact ih _ _
    · rfl

theorem extractSSONMapFuel_depth_six :
    ∀ (d1 d2 : Nat) (kind : Kind) (buf : List Byte) (L : Nat),
      buf.length / 6 < d1 → buf.length / 6 < d2 →
      extractSSONMapFuel d1 kind buf L = extractSSONMapFuel d2 kind buf L := by
  intro d1
  induction d1 with
  | zero => intro d2 kind buf L h; omega
  | succ n ih =>
    intro d2 kind buf L h1 h2
    cases d2 with
    | zero => omega
    | succ m =>
      unfold extractSSONMapFuel
      have hag : AgreeFromSix buf (extractSSONMapFuel n) (extractSSONMapFuel m) := by
        intro k p l hp hle
        apply ih
        · simp only [List.length_drop]; omega
        · simp only [List.length_drop]; omega
      rw [mapLoop_congr_six hag]

theorem subCall_shorter {a b : Kind × List Byte × Nat} (h : SubCall a b) :
    ∃ p, 6 ≤ p ∧ p ≤ a.2.1.length ∧ b.2.1 = a.2.1.drop p := by
  obtain ⟨pos, acc, tag, key, p1, p2, D, _, _, _, _, hkey, _, hD, hbuf, _⟩ := h
  have := readCString_value hkey
  have := readInt32_value hD
  exact ⟨p2, by omega, by omega, hbuf⟩

theorem subCallChain_depth {n : Nat} {a b : Kind × List Byte × Nat}
    (h : SubCallChain n a b) : 6 * n + b.2.1.length ≤ a.2.1.length := by
  induction h with
  | refl a => omega
  | step hsub _ ih =>
    obtain ⟨p, hp6, hple, hdrop⟩ := subCall_shorter hsub
    rw [hdrop, List.length_drop] at ih
    omega

/-- C20: the decode ends on every buffer, for both kinds and every declared
length: the outcome of `extractSSONMap` is never the exhaustion of the bounds
of the embedding (it is a value, `nullopt`, a read outside the buffer, or the
exception of `std::stoi`), and it is the same for every bound on the iterations above
the number of bytes left and every bound on the nesting above the sixth of the
buffer length.  An element that is extracted moves the cursor from its tag
forward by at least 6 bytes; a recursive call receives a suffix of the buffer
that starts at an offset of at least 6, so it is at least 6 bytes shorter; a
chain of `n` nested calls needs `6 n` bytes, so the depth is at most the buffer
length divided by 6. -/
theorem decode_terminates (kind : Kind) (buf : List Byte) (L : Nat) :
    extractSSONMap kind buf L ≠ .outOfFuel
      ∧ ((∃ d, extractSSONMap kind buf L = .value d) ∨ extractSSONMap kind buf L = .nullopt
          ∨ extractSSONMap kind buf L = .outOfBounds ∨ extractSSONMap kind buf L = .thrown)
      ∧ (∀ depth, buf.length / 6 < depth →
          extractSSONMapFuel depth kind buf L = extractSSONMap kind buf L)
      ∧ (∀ (fuel pos : Nat) (acc : Container kind), buf.length - pos < fuel →
          mapLoop extractSSONMap kind buf L fuel pos acc = extractLoop kind buf L pos acc)
      ∧ (∀ (tag : Byte) (pos : Nat) (acc : Container kind) (st : Container kind × Nat),
          buf[pos]? = some tag →
          extractElement extractSSONMap kind buf L tag (pos + 1) acc = .value st →
          pos + 6 ≤ st.2)
      ∧ (∀ b : Kind × List Byte × Nat, SubCall (kind, buf, L) b →
          b.2.1.length + 6 ≤ buf.length ∧ ∃ p, 6 ≤ p ∧ b.2.1 = buf.drop p)
      ∧ (∀ (n : Nat) (b : Kind × List Byte × Nat), SubCallChain n (kind, buf, L) b →
          n ≤ buf.length / 6) := by
  refine ⟨extractSSONMap_ne_outOfFuel kind buf L, ?_, ?_, ?_, ?_, ?_, ?_⟩
  · have hfuel := extractSSONMap_ne_outOfFuel kind buf L
    cases hres : extractSSONMap kind buf L with
    | value d => exact Or.inl ⟨d, rfl⟩
    | nullopt => exact Or.inr (Or.inl rfl)
    | outOfBounds => exact Or.inr (Or.inr (Or.inl rfl))
    | thrown => exact Or.inr (Or.inr (Or.inr rfl))
    | outOfFuel => exact absurd hres hfuel
  · intro depth hd
    unfold extractSSONMap
    exact extractSSONMapFuel_depth_six _ _ kind buf L hd
      (Nat.lt_succ_of_le (Nat.div_le_self _ _))
  · intro fuel pos acc hf
    unfold extractLoop
    exact mapLoop_fuel _ kind buf L _ _ pos acc hf (by omega)
  · intro tag pos acc st _ hel
    have := extractElement_progress hel
    omega
  · intro b hsub
    obtain ⟨p, hp6, hple, hdrop⟩ := subCall_shorter hsub
    simp only at hple hdrop
    refine ⟨?_, p, hp6, hdrop⟩
    rw [hdrop, List.length_drop]
    omega
  · intro n b hchain
    have := subCallChain_depth hchain
    simp only at this
    omega

/-! ## C21: the elements cover every byte below the final cursor -/

theorem readCStringLoop_structure (L : Nat) :
    ∀ (l : List Byte) (pos : Nat) (acc r : List Byte) (p : Nat),
      readCStringLoop L l pos acc = (.value r, p) →
      ∃ key post, r = acc ++ key ∧ l = key ++ ENDCHAR :: post ∧ ENDCHAR ∉ key ∧
        p = pos + key.length + 1 := by
  intro l
  induction l with
  | nil => intro pos acc r p h; simp [readCStringLoop] at h
  | cons b rest ih =>
    intro pos acc r p h
    unfold readCStringLoop at h
    split at h
    · rename_i hb
      split at h
      · simp at h
      · obtain ⟨key, post, hr, hl, hz, hp⟩ := ih _ _ _ _ h
        refine ⟨b :: key, post, ?_, ?_, ?_, ?_⟩
        · rw [hr]; simp
        · rw [hl]; simp
        · intro hmem
          rcases List.mem_cons.mp hmem with h1 | h1
          · exact hb h1.symm
          · exact hz h1
        · simp only [List.length_cons]; omega
    · rename_i hb
      have hb' : b = ENDCHAR := by
        by_contra hne
        exact hb hne
      simp only [Prod.mk.injEq, Outcome.value.injEq] at h
      refine ⟨[], rest, ?_, ?_, ?_, ?_⟩
      · simp [h.1]
      · simp [hb']
      · simp
      · simp only [List.length_nil]; omega

/-- Where `readCString` returns a key, the bytes from `pos` on are the key,
which holds no zero byte, a zero byte, and the bytes from the new cursor on. -/
theorem readCString_structure {buf : List Byte} {L pos : Nat} {key : List Byte} {p1 : Nat}
    (h : readCString buf L pos = (.value key, p1)) :
    buf.drop pos = key ++ ENDCHAR :: buf.drop p1 ∧ ENDCHAR ∉ key ∧
      p1 = pos + key.length + 1 := by
  obtain ⟨k, post, hr, hl, hz, hp⟩ := readCStringLoop_structure L _ _ _ _ _ h
  simp only [List.nil_append] at hr
  subst hr
  have hpost : buf.drop (pos + key.length + 1) = post := by
    have h1 : buf.drop pos = (key ++ [ENDCHAR]) ++ post := by rw [hl]; simp
    have h2 := drop_add_of_drop h1
    simpa [Nat.add_assoc] using h2
  refine ⟨?_, hz, hp⟩
  rw [hp, hpost]
  exact hl

/-- The value of `readInt32` depends only on the four bytes it reads. -/
theorem readInt32_slice {buf : List Byte} {L p : Nat} {v : Int} {q : Nat}
    (h : readInt32 buf L p = (.value v, q)) (k : Nat) (hk : 4 ≤ k) :
    readInt32 ((buf.drop p).take k) 4 0 = (.value v, 4) := by
  unfold readInt32 at h
  split at h
  · simp at h
  · split at h <;> simp at h
    rename_i b0 b1 b2 b3 e0 e1 e2 e3
    have g : ∀ i, i < 4 → ((buf.drop p).take k)[i]? = buf[p + i]? := by
      intro i hi
      rw [List.getElem?_take_of_lt (by omega), List.getElem?_drop]
    have g0 := g 0 (by omega)
    have g1 := g 1 (by omega)
    have g2 := g 2 (by omega)
    have g3 := g 3 (by omega)
    rw [Nat.add_zero, e0] at g0
    rw [e1] at g1
    rw [e2] at g2
    rw [e3] at g3
    unfold readInt32
    rw [if_neg (by omega)]
    simp only [Nat.zero_add]
    rw [g0, g1, g2, g3]
    simp only [Prod.mk.injEq, Outcome.value.injEq, and_true]
    exact h.1

/-- Where `readString` returns a text: the count `n` it read, the cursor it
leaves and the terminator it tested. -/
theorem readString_structure {buf : List Byte} {L p : Nat} {s : List Byte} {q : Nat}
    (h : readString buf L p = (.value s, q)) :
    ∃ n : Int, readInt32 buf L p = (.value n, p + 4) ∧
      q = p + 4 + predSize (toSize n) + 1 ∧
      buf[p + 4 + predSize (toSize n)]? = some ENDCHAR ∧
      s = (buf.drop (p + 4)).take (predSize (toSize n)) := by
  unfold readString at h
  split at h
  · rename_i n p1 e
    have h1 := readInt32_value e
    obtain ⟨hp1, -, -⟩ := h1
    subst hp1
    split at h
    · simp at h
    · simp only at h
      split at h
      · simp at h
      · split at h
        · simp at h
        · rename_i b eb
          split at h
          · simp at h
          · rename_i hb
            have hb' : b = ENDCHAR := by
              by_contra hne
              exact hb hne
            simp only [Prod.mk.injEq, Outcome.value.injEq] at h
            refine ⟨n, e, h.2.symm, ?_, h.1.symm⟩
            rw [eb, hb']
  all_goals simp at h

/-- A successful decode was given a declared length within its buffer. -/
theorem extractSSONMap_value_length {kind : Kind} {buf : List Byte} {L : Nat}
    {d : Container kind} (h : extractSSONMap kind buf L = .value d) : L ≤ buf.length := by
  obtain ⟨c, -, hc, hterm⟩ := extractSSONMap_value_cursor h
  have hlt := (List.getElem?_eq_some_iff.mp hterm).1
  unfold predSize at hc
  split at hc <;> omega

/-- The bytes of a range that starts with a tag and a key. -/
theorem slice_element {buf : List Byte} {pos p1 e : Nat} {tag : Byte} {key : List Byte}
    (htag : buf[pos]? = some tag)
    (hdrop : buf.drop (pos + 1) = key ++ ENDCHAR :: buf.drop p1)
    (hp1 : p1 = pos + 1 + key.length + 1) (he : p1 ≤ e) :
    slice buf (pos, e) = tag :: (key ++ ENDCHAR :: (buf.drop p1).take (e - p1)) := by
  have hlt := (List.getElem?_eq_some_iff.mp htag).1
  have hget : buf[pos] = tag := (List.getElem?_eq_some_iff.mp htag).2
  have hd : buf.drop pos = tag :: (key ++ ENDCHAR :: buf.drop p1) := by
    rw [List.drop_eq_getElem_cons hlt, hget, hdrop]
  unfold slice
  simp only
  rw [hd]
  have hlen : e - pos = (e - p1) + key.length + 1 + 1 := by omega
  rw [hlen, List.take_succ_cons]
  congr 1
  have h2 : e - p1 + key.length + 1 = key.length + ((e - p1) + 1) := by omega
  rw [h2, List.take_append, List.take_succ_cons]

/-- The range of an element whose tag, key and leading four bytes are read and
that ends at `q`. -/
theorem isElementEncoding_of_reads {buf : List Byte} {L pos p1 p2 q : Nat} {tag : Byte}
    {key : List Byte} {n : Int}
    (htag : buf[pos]? = some tag)
    (hkey : readCString buf L (pos + 1) = (.value key, p1))
    (hn : readInt32 buf L p1 = (.value n, p2)) (hq : q ≤ buf.length)
    (hcase : (tag = INTEGER ∧ q = p1 + 4) ∨
      (tag = STRING ∧ q = p1 + 4 + predSize (toSize n) + 1 ∧
        buf[p1 + 4 + predSize (toSize n)]? = some ENDCHAR) ∨
      ((tag = EMBEDDED ∨ tag = ARRAY) ∧ q = p1 + 4 + toSize (n - 4))) :
    IsElementEncoding (slice buf (pos, q)) := by
  obtain ⟨hdrop, hz, hp1⟩ := readCString_structure hkey
  have hq4 : p1 + 4 ≤ q := by
    rcases hcase with h | h | h <;> omega
  have hlen : ((buf.drop p1).take (q - p1)).length = q - p1 := by
    rw [List.length_take, List.length_drop]
    omega
  refine ⟨tag, key, (buf.drop p1).take (q - p1), n,
    slice_element htag hdrop hp1 (by omega), hz, readInt32_slice hn _ (by omega), ?_⟩
  rcases hcase with ⟨ht, hq⟩ | ⟨ht, hq, hterm⟩ | ⟨ht, hq⟩
  · exact Or.inl ⟨ht, by rw [hlen]; omega⟩
  · refine Or.inr (Or.inl ⟨ht, by rw [hlen]; omega, ?_⟩)
    rw [List.getElem?_take_of_lt (by omega), List.getElem?_drop, ← Nat.add_assoc]
    exact hterm
  · exact Or.inr (Or.inr ⟨ht, by rw [hlen]; omega⟩)

/-- The range that one iteration of the loop goes over lies inside the buffer
and holds one element. -/
theorem extractElement_encoding {kind : Kind} {buf : List Byte} {L : Nat} {tag : Byte}
    {pos : Nat} {acc : Container kind} {st : Container kind × Nat}
    (htag : buf[pos]? = some tag)
    (h : extractElement extractSSONMap kind buf L tag (pos + 1) acc = .value st) :
    st.2 ≤ buf.length ∧ IsElementEncoding (slice buf (pos, st.2)) := by
  unfold extractElement at h
  split at h
  · rename_i ht
    unfold extractSSONString at h
    obtain ⟨name, p1, e1, h⟩ := andThen_eq_value h
    split at h
    · obtain ⟨str, p2, e2, h⟩ := andThen_eq_value h
      obtain ⟨out, _, h⟩ := Outcome.bind_eq_value h
      obtain ⟨n, hn, hq, hterm, -⟩ := readString_structure e2
      have hb := (readString_value e2).2
      cases h
      exact ⟨hb, isElementEncoding_of_reads htag e1 hn hb (Or.inr (Or.inl ⟨ht, hq, hterm⟩))⟩
    · simp at h
  · split at h
    · rename_i ht
      unfold extractSSONEmbbed at h
      obtain ⟨name, p1, e1, h⟩ := andThen_eq_value h
      split at h
      · obtain ⟨D, p2, e2, h⟩ := andThen_eq_value h
        obtain ⟨doc, hdoc, h⟩ := Outcome.bind_eq_value h
        obtain ⟨out, _, h⟩ := Outcome.bind_eq_value h
        obtain ⟨hp2, -, hp2b⟩ := readInt32_value e2
        have hsub := extractSSONMap_value_length hdoc
        rw [List.length_drop] at hsub
        have hb : p2 + toSize (D - 4) ≤ buf.length := by omega
        cases h
        exact ⟨hb, isElementEncoding_of_reads htag e1 e2 hb
          (Or.inr (Or.inr ⟨Or.inl ht, by omega⟩))⟩
      · simp at h
    · split at h
      · rename_i ht
        unfold extractSSONArray at h
        obtain ⟨name, p1, e1, h⟩ := andThen_eq_value h
        split at h
        · obtain ⟨D, p2, e2, h⟩ := andThen_eq_value h
          obtain ⟨doc, hdoc, h⟩ := Outcome.bind_eq_value h
          obtain ⟨out, _, h⟩ := Outcome.bind_eq_value h
          obtain ⟨hp2, -, hp2b⟩ := readInt32_value e2
          have hsub := extractSSONMap_value_length hdoc
          rw [List.length_drop] at hsub
          have hb : p2 + toSize (D - 4) ≤ buf.length := by omega
          cases h
          exact ⟨hb, isElementEncoding_of_reads htag e1 e2 hb
            (Or.inr (Or.inr ⟨Or.inr ht, by omega⟩))⟩
        · simp at h
      · split at h
        · rename_i ht
          unfold extractSSONInteger at h
          obtain ⟨name, p1, e1, h⟩ := andThen_eq_value h
          split at h
          · obtain ⟨i, p2, e2, h⟩ := andThen_eq_value h
            obtain ⟨out, _, h⟩ := Outcome.bind_eq_value h
            obtain ⟨hp2, -, hp2b⟩ := readInt32_value e2
            have hb : p2 ≤ buf.length := by omega
            cases h
            exact ⟨hb, isElementEncoding_of_reads htag e1 e2 hb (Or.inl ⟨ht, hp2⟩)⟩
          · simp at h
        · simp at h

/-- The ranges of the elements extracted so far follow one another from the
offset 0 to the cursor: their bytes, put end to end, are the bytes below the
cursor, each range holds one element, and every offset below the cursor lies
in one of them. -/
theorem reachesOver_tiling {kind : Kind} {buf : List Byte} {L pos : Nat}
    {acc : Container kind} {ranges : List (Nat × Nat)}
    (h : ReachesOver kind buf L pos acc ranges) :
    pos ≤ buf.length ∧ buf.take pos = (ranges.map (slice buf)).flatten ∧
      (∀ r ∈ ranges, r.1 + 6 ≤ r.2 ∧ r.2 ≤ pos ∧ IsElementEncoding (slice buf r)) ∧
      (∀ i, i < pos → ∃ r ∈ ranges, r.1 ≤ i ∧ i < r.2) := by
  induction h with
  | start => simp
  | step _ hlt htag hel ih =>
    rename_i position result ranges elementType st _
    obtain ⟨hpos, htake, hall, hcover⟩ := ih
    obtain ⟨hb, henc⟩ := extractElement_encoding htag hel
    have hadv := extractElement_progress hel
    refine ⟨hb, ?_, ?_, ?_⟩
    · have hsplit : st.2 = position + (st.2 - position) := by omega
      rw [List.map_append, List.flatten_append, ← htake]
      simp only [List.map_cons, List.map_nil, List.flatten_cons, List.flatten_nil,
        List.append_nil]
      unfold slice
      simp only
      nth_rewrite 1 [hsplit]
      rw [List.take_add]
    · intro r hr
      rcases List.mem_append.mp hr with hr | hr
      · obtain ⟨h1, h2, h3⟩ := hall r hr
        exact ⟨h1, by omega, h3⟩
      · rw [List.mem_singleton] at hr
        subst hr
        exact ⟨by simp only; omega, Nat.le_refl _, henc⟩
    · intro i hi
      by_cases hip : i < position
      · obtain ⟨r, hr, h1, h2⟩ := hcover i hip
        exact ⟨r, List.mem_append.mpr (Or.inl hr), h1, h2⟩
      · exact ⟨(position, st.2), List.mem_append.mpr (Or.inr (List.mem_singleton.mpr rfl)),
          by simp only; omega, hi⟩

theorem reaches_of_reachesOver {kind : Kind} {buf : List Byte} {L pos : Nat}
    {acc : Container kind} {ranges : List (Nat × Nat)}
    (h : ReachesOver kind buf L pos acc ranges) : Reaches kind buf L pos acc := by
  induction h with
  | start => exact Reaches.start
  | step _ hlt htag hel ih => exact Reaches.step ih hlt htag hel

/-- A loop that ends at `(r, c)` from a reached state ends at a reached state. -/
theorem extractLoop_ranges (kind : Kind) (buf : List Byte) (L : Nat) (r : Container kind)
    (c : Nat) :
    ∀ (n pos : Nat) (acc : Container kind) (ranges : List (Nat × Nat)), buf.length - pos = n →
      ReachesOver kind buf L pos acc ranges →
      extractLoop kind buf L pos acc = .value (r, c) →
      ∃ ranges', ReachesOver kind buf L c r ranges' := by
  intro n
  induction n using Nat.strong_induction_on with
  | _ n ih =>
    intro pos acc ranges hn hreach hL
    rw [extractLoop_eq] at hL
    by_cases hlt : pos < predSize L
    · rw [if_pos hlt] at hL
      cases htag : buf[pos]? with
      | none => rw [htag] at hL; cases hL
      | some tag =>
        rw [htag] at hL
        simp only at hL
        obtain ⟨st, hel, hrec⟩ := Outcome.bind_eq_value hL
        have hposlt := (List.getElem?_eq_some_iff.mp htag).1
        have hadv := extractElement_value hel
        exact ih (buf.length - st.2) (by omega) st.2 st.1 _ rfl
          (ReachesOver.step hreach hlt htag hel) hrec
    · rw [if_neg hlt] at hL
      cases hL
      exact ⟨ranges, hreach⟩

/-- C21: a successful decode never under-consumes.  When
`extractSSONMap<kind>(buf, L)` returns `d` with `L ≥ 1`, the loop ends with `d`
at a cursor `c` with `c ≥ L - 1`, the byte at the offset `c` is 0, and the
elements extracted went over the ranges `ranges` of cursor positions: put end
to end, the bytes of these ranges are the bytes at the offsets `0 .. c - 1`;
each range is at least 6 bytes long, ends at `c` at most and holds one element
(tag, key, terminator of the key, payload); every offset below `c`, so every
offset below `L - 1`, lies in one of the ranges. -/
theorem decode_never_under_consumes (kind : Kind) (buf : List Byte) (L : Nat)
    (d : Container kind) (hL : 1 ≤ L) (h : extractSSONMap kind buf L = .value d) :
    ∃ (c : Nat) (ranges : List (Nat × Nat)),
      extractLoop kind buf L 0 (Container.empty kind) = .value (d, c) ∧
      ReachesOver kind buf L c d ranges ∧
      L - 1 ≤ c ∧ buf[c]? = some ENDCHAR ∧
      buf.take c = (ranges.map (slice buf)).flatten ∧
      (∀ r ∈ ranges, r.1 + 6 ≤ r.2 ∧ r.2 ≤ c ∧ IsElementEncoding (slice buf r)) ∧
      (∀ i, i < c → ∃ r ∈ ranges, r.1 ≤ i ∧ i < r.2) ∧
      (∀ i, i < L - 1 → ∃ r ∈ ranges, r.1 ≤ i ∧ i < r.2) := by
  obtain ⟨c, hloop, hc, hterm⟩ := extractSSONMap_value_cursor h
  obtain ⟨ranges, hreach⟩ :=
    extractLoop_ranges kind buf L d c _ 0 _ [] rfl ReachesOver.start hloop
  obtain ⟨-, htake, hall, hcover⟩ := reachesOver_tiling hreach
  have hpred : predSize L = L - 1 := by
    unfold predSize
    rw [if_neg (by omega)]
  rw [hpred] at hc
  exact ⟨c, ranges, hloop, hreach, by omega, hterm, htake, hall, hcover,
    fun i hi => hcover i (by omega)⟩

/-- C21 on the region of 33 bytes that holds the integer `x = 7`, the text
`y = "ab"`, the embedded document `z` with the integer `w = 1`, and the
terminator at the offset 32. -/
theorem decode_never_under_consumes_witness :
    ∃ (c : Nat) (ranges : List (Nat × Nat)),
      extractLoop .document
          [16, 120, 0, 7, 0, 0, 0, 2, 121, 0, 3, 0, 0, 0, 97, 98, 0,
            3, 122, 0, 12, 0, 0, 0, 16, 119, 0, 1, 0, 0, 0, 0, 0] 33 0
          (Container.empty .document)
        = .value ([([120], .int 7), ([121], .string [97, 98]),
            ([122], .document [([119], .int 1)])], c) ∧
      ReachesOver .document
        [16, 120, 0, 7, 0, 0, 0, 2, 121, 0, 3, 0, 0, 0, 97, 98, 0,
          3, 122, 0, 12, 0, 0, 0, 16, 119, 0, 1, 0, 0, 0, 0, 0] 33 c
        [([120], .int 7), ([121], .string [97, 98]), ([122], .document [([119], .int 1)])]
        ranges ∧
      33 - 1 ≤ c ∧
      [16, 120, 0, 7, 0, 0, 0, 2, 121, 0, 3, 0, 0, 0, 97, 98, 0,
        3, 122, 0, 12, 0, 0, 0, 16, 119, 0, 1, 0, 0, 0, 0, (0 : Byte)][c]? = some ENDCHAR ∧
      List.take c [16, 120, 0, 7, 0, 0, 0, 2, 121, 0, 3, 0, 0, 0, 97, 98, 0,
          3, 122, 0, 12, 0, 0, 0, 16, 119, 0, 1, 0, 0, 0, 0, (0 : Byte)]
        = (ranges.map (slice [16, 120, 0, 7, 0, 0, 0, 2, 121, 0, 3, 0, 0, 0, 97, 98, 0,
            3, 122, 0, 12, 0, 0, 0, 16, 119, 0, 1, 0, 0, 0, 0, 0])).flatten ∧
      (∀ r ∈ ranges, r.1 + 6 ≤ r.2 ∧ r.2 ≤ c ∧
        IsElementEncoding (slice [16, 120, 0, 7, 0, 0, 0, 2, 121, 0, 3, 0, 0, 0, 97, 98, 0,
          3, 122, 0, 12, 0, 0, 0, 16, 119, 0, 1, 0, 0, 0, 0, 0] r)) ∧
      (∀ i, i < c → ∃ r ∈ ranges, r.1 ≤ i ∧ i < r.2) ∧
      (∀ i, i < 33 - 1 → ∃ r ∈ ranges, r.1 ≤ i ∧ i < r.2) :=
  decode_never_under_consumes .document
    [16, 120, 0, 7, 0, 0, 0, 2, 121, 0, 3, 0, 0, 0, 97, 98, 0,
      3, 122, 0, 12, 0, 0, 0, 16, 119, 0, 1, 0, 0, 0, 0, 0] 33
    [([120], .int 7), ([121], .string [97, 98]), ([122], .document [([119], .int 1)])]
    (by decide) rfl

end SSON
